import Mathlib

/-!
# gh-account-switcher: profile store, validator, resolver and projections

A shallow embedding of `internal/config/profile.go`, of the import merge of
`cmd/export.go`, of `internal/ssh/config.go` and of `SetupProfile` and
`SwitchProfile` in `internal/git/config.go`.

* A Go `string` is a Lean `String`; `len` is the length in bytes of its UTF-8
  encoding, `==` is equality, and `strings.HasPrefix` is the prefix relation
  (on well-formed UTF-8 the byte prefix and the character prefix coincide).
* A Go `error` is an `Option String`: `none` is `nil`, `some msg` is the
  error with message `msg`.
* A Go `map[string]*Profile` is an association list read through `GoMap.get`;
  writing a key replaces its binding, deleting a key drops it.
* A method with a pointer receiver that mutates the store takes the store and
  returns the store after the call together with the returned `error`.
* `filepath.Abs` belongs to the Go standard library and depends on the
  process working directory; the operations take it as the parameter `Abs`.
  `filepath.Join` is the parameter `filepathJoin` in the same way.
* The files are a map from paths to contents; reading and writing them does
  not fail, apart from opening a file that does not exist. A file is read
  through a `bufio.Scanner`, which stops with an error at a line of 64 KiB or
  more.
* The global git configuration is a map from keys to values, read and written
  by running `git config`; a run may fail, and then it leaves the map as it
  was.
-/

namespace GhSwitch

deriving instance DecidableEq for Except

/-! ## Go strings -/

/-- Go `len(s)` for a string: the number of bytes of its UTF-8 encoding. -/
def len (s : String) : Nat := s.utf8ByteSize

/-- `strings.HasPrefix(s, pre)`, which is what `filepath.HasPrefix(s, pre)`
calls on Unix: `s` starts with `pre`. -/
def HasPrefix (s pre : String) : Bool := pre.data.isPrefixOf s.data

/-! ## Go maps with string keys -/

/-- A Go map with string keys, as the list of its bindings. -/
abbrev GoMap (β : Type) := List (String × β)

/-- The lookup `v, exists := m[k]`. -/
def GoMap.get {β : Type} : GoMap β → String → Option β
  | [], _ => none
  | (k', v) :: m, k => if k' = k then some v else GoMap.get m k

/-- The builtin `delete(m, k)`. -/
def GoMap.delete {β : Type} (m : GoMap β) (k : String) : GoMap β :=
  m.filter (fun e => decide (e.1 ≠ k))

/-- The assignment `m[k] = v`. -/
def GoMap.set {β : Type} (m : GoMap β) (k : String) (v : β) : GoMap β :=
  (k, v) :: GoMap.delete m k

/-! ## Data model -/

/-- The struct `Profile`: a GitHub account profile. -/
structure Profile where
  Name : String
  Emails : List String
  PrimaryEmail : String
  GitName : String
  GPGKey : String
  SSHKeyPath : String
  deriving DecidableEq, Repr

/-- The struct `DirectoryRule`: a directory-to-profile mapping. -/
structure DirectoryRule where
  Path : String
  Profile : String
  deriving DecidableEq, Repr

/-- The struct `Config`: the application configuration (the profile store). -/
structure Config where
  Profiles : GoMap Profile
  DirectoryRules : List DirectoryRule
  CurrentProfile : String
  deriving DecidableEq, Repr

/-! ## Directory resolver -/

/-- The first loop of `GetProfileForDirectory`: the first rule whose path
equals `absDir`, if any. -/
def exactMatch (rules : List DirectoryRule) (absDir : String) : Option DirectoryRule :=
  rules.find? (fun rule => decide (rule.Path = absDir))

/-- One iteration of the second loop of `GetProfileForDirectory`, on the
loop state `(bestMatch, bestLength)`. -/
def bestStep (absDir : String) (best : String × Nat) (rule : DirectoryRule) : String × Nat :=
  if len rule.Path > best.2 && HasPrefix absDir rule.Path then
    (rule.Profile, len rule.Path)
  else best

/-- The second loop of `GetProfileForDirectory`, started from
`bestMatch = ""` and `bestLength = 0`. -/
def bestPrefix (rules : List DirectoryRule) (absDir : String) : String × Nat :=
  rules.foldl (bestStep absDir) ("", 0)

/-- The method `Config.GetProfileForDirectory`: the profile name for a
directory, or an error. -/
def Config.GetProfileForDirectory (c : Config) (Abs : String → Except String String)
    (dir : String) : Except String String :=
  match Abs dir with
  | .error err => .error ("failed to resolve absolute path: " ++ err)
  | .ok absDir =>
    match exactMatch c.DirectoryRules absDir with
    | some rule => .ok rule.Profile
    | none =>
      let bestMatch := (bestPrefix c.DirectoryRules absDir).1
      if bestMatch ≠ "" then .ok bestMatch
      else .error ("no profile configured for directory: " ++ absDir)

/-- The function `filepath.Abs` on a path that is already absolute and clean:
the path itself, without error. -/
def absOfClean (path : String) : Except String String := .ok path

/-! ## Regular expressions

`regexp.MustCompile(pat).MatchString(s)` with a pattern of the form `^...$`
(no flags) reports whether the whole of `s` belongs to the language of the
pattern between the anchors. The patterns of this package use character
classes, literals, concatenation, `+` and `{n,}`. -/

/-- The syntax of the regular expressions used by the validator. -/
inductive Regex where
  | none : Regex
  | eps : Regex
  | cls (p : Char → Bool) : Regex
  | alt (a b : Regex) : Regex
  | seq (a b : Regex) : Regex
  | star (a : Regex) : Regex

namespace Regex

/-- The repetition `x+`: one `x`, then any number of `x`. -/
def plus (a : Regex) : Regex := seq a (star a)

/-- The repetition `x{n}`: exactly `n` times `x`. -/
def rep : Nat → Regex → Regex
  | 0, _ => eps
  | n + 1, a => seq a (rep n a)

/-- The repetition `x{n,}`: `n` times `x`, then any number of `x`. -/
def atLeast (n : Nat) (a : Regex) : Regex := seq (rep n a) (star a)

/-- The language of a regular expression. -/
inductive Matches : Regex → List Char → Prop
  | eps : Matches Regex.eps []
  | cls {p : Char → Bool} {c : Char} : p c = true → Matches (Regex.cls p) [c]
  | altL {a b : Regex} {s : List Char} : Matches a s → Matches (Regex.alt a b) s
  | altR {a b : Regex} {s : List Char} : Matches b s → Matches (Regex.alt a b) s
  | seq {a b : Regex} {s t : List Char} :
      Matches a s → Matches b t → Matches (Regex.seq a b) (s ++ t)
  | starNil {a : Regex} : Matches (Regex.star a) []
  | starCons {a : Regex} {s t : List Char} :
      Matches a s → Matches (Regex.star a) t → Matches (Regex.star a) (s ++ t)

/-- Whether the expression matches the empty string. -/
def nullable : Regex → Bool
  | Regex.none => false
  | Regex.eps => true
  | Regex.cls _ => false
  | Regex.alt a b => nullable a || nullable b
  | Regex.seq a b => nullable a && nullable b
  | Regex.star _ => true

/-- The derivative of the expression by one character. -/
def deriv : Regex → Char → Regex
  | Regex.none, _ => Regex.none
  | Regex.eps, _ => Regex.none
  | Regex.cls p, c => if p c then Regex.eps else Regex.none
  | Regex.alt a b, c => Regex.alt (deriv a c) (deriv b c)
  | Regex.seq a b, c =>
      if nullable a then Regex.alt (Regex.seq (deriv a c) b) (deriv b c)
      else Regex.seq (deriv a c) b
  | Regex.star a, c => Regex.seq (deriv a c) (Regex.star a)

/-- Whole-string matching, one character at a time. -/
def matchList : Regex → List Char → Bool
  | r, [] => nullable r
  | r, c :: cs => matchList (deriv r c) cs

/-- The method `MatchString` of a pattern anchored by `^` and `$`. -/
def MatchString (r : Regex) (s : String) : Bool := matchList r s.data

end Regex

/-- The class `[a-z]`. -/
def isLower (c : Char) : Bool := decide ('a'.toNat ≤ c.toNat) && decide (c.toNat ≤ 'z'.toNat)

/-- The class `[A-Z]`. -/
def isUpper (c : Char) : Bool := decide ('A'.toNat ≤ c.toNat) && decide (c.toNat ≤ 'Z'.toNat)

/-- The class `[0-9]`. -/
def isDigit (c : Char) : Bool := decide ('0'.toNat ≤ c.toNat) && decide (c.toNat ≤ '9'.toNat)

/-- The class `[a-zA-Z]`. -/
def isLetter (c : Char) : Bool := isLower c || isUpper c

/-- The class `[a-zA-Z0-9._%+-]`. -/
def isLocalChar (c : Char) : Bool :=
  isLower c || isUpper c || isDigit c || c == '.' || c == '_' || c == '%' || c == '+' || c == '-'

/-- The class `[a-zA-Z0-9.-]`. -/
def isDomainChar (c : Char) : Bool :=
  isLower c || isUpper c || isDigit c || c == '.' || c == '-'

/-- The class `[A-F0-9]`. -/
def isUpperHex (c : Char) : Bool :=
  (decide ('A'.toNat ≤ c.toNat) && decide (c.toNat ≤ 'F'.toNat)) || isDigit c

/-- The pattern `^[a-zA-Z0-9._%+-]+@[a-zA-Z0-9.-]+\.[a-zA-Z]{2,}$`. -/
def emailRegex : Regex :=
  Regex.seq (Regex.plus (Regex.cls isLocalChar))
    (Regex.seq (Regex.cls (fun c => c == '@'))
      (Regex.seq (Regex.plus (Regex.cls isDomainChar))
        (Regex.seq (Regex.cls (fun c => c == '.'))
          (Regex.atLeast 2 (Regex.cls isLetter)))))

/-- The pattern `^[A-F0-9]{8,}$`. -/
def gpgKeyRegex : Regex := Regex.atLeast 8 (Regex.cls isUpperHex)

/-- The function `isValidEmail`: validates email format. -/
def isValidEmail (email : String) : Bool := emailRegex.MatchString email

/-- The function `isValidGPGKey`: validates GPG key format. -/
def isValidGPGKey (key : String) : Bool := gpgKeyRegex.MatchString key

/-! ## Profile validator -/

/-- The loop of `Validate` over `p.Emails`: the error for the first entry that
is not a valid email, if any. -/
def validateEmails : List String → Option String
  | [] => none
  | email :: rest =>
      if !isValidEmail email then some ("invalid email format: " ++ email)
      else validateEmails rest

/-- The method `Profile.Validate`: validates a profile. -/
def Profile.Validate (p : Profile) : Option String :=
  if p.Name = "" then some "profile name cannot be empty"
  else if p.PrimaryEmail = "" then some "primary email cannot be empty"
  else if !isValidEmail p.PrimaryEmail then some ("invalid email format: " ++ p.PrimaryEmail)
  else match validateEmails p.Emails with
    | some err => some err
    | none =>
      if p.GPGKey ≠ "" && !isValidGPGKey p.GPGKey then
        some ("invalid GPG key format: " ++ p.GPGKey ++ " (expected 8+ hexadecimal characters)")
      else none

/-! ## Store operations -/

/-- The method `Config.GetProfile`: retrieves a profile by name. -/
def Config.GetProfile (c : Config) (name : String) : Except String Profile :=
  match c.Profiles.get name with
  | some profile => .ok profile
  | none => .error ("profile '" ++ name ++ "' not found")

/-- The method `Config.AddProfile`: adds or updates a profile. The search loop
sets `found` when an entry of `profile.Emails` equals the primary email. -/
def Config.AddProfile (c : Config) (profile : Profile) : Config × Option String :=
  match profile.Validate with
  | some err => (c, some err)
  | none =>
    let found := profile.Emails.any (fun email => decide (email = profile.PrimaryEmail))
    let profile :=
      if !found then { profile with Emails := profile.PrimaryEmail :: profile.Emails }
      else profile
    ({ c with Profiles := c.Profiles.set profile.Name profile }, none)

/-- The method `Config.RemoveProfile`: removes a profile by name, with the
directory rules that reference it. -/
def Config.RemoveProfile (c : Config) (name : String) : Config × Option String :=
  match c.Profiles.get name with
  | none => (c, some ("profile '" ++ name ++ "' not found"))
  | some _ =>
    let updatedRules := c.DirectoryRules.foldl
      (fun updatedRules rule =>
        if rule.Profile ≠ name then updatedRules ++ [rule] else updatedRules) []
    ({ Profiles := c.Profiles.delete name,
       DirectoryRules := updatedRules,
       CurrentProfile := if c.CurrentProfile = name then "" else c.CurrentProfile }, none)

/-- The method `Config.AddEmail`: adds an email to a profile. The profile is
reached through the pointer stored under `profileName`, so the assignment to
`profile.Emails` updates the binding of that key. -/
def Config.AddEmail (c : Config) (profileName email : String) : Config × Option String :=
  match c.GetProfile profileName with
  | .error err => (c, some err)
  | .ok profile =>
    if !isValidEmail email then (c, some ("invalid email format: " ++ email))
    else if profile.Emails.any (fun e => decide (e = email)) then
      (c, some ("email '" ++ email ++ "' already exists in profile '" ++ profileName ++ "'"))
    else
      ({ c with Profiles :=
          c.Profiles.set profileName { profile with Emails := profile.Emails ++ [email] } }, none)

/-- One iteration of the loop of `RemoveEmail`, on the loop state
`(updatedEmails, found)`. -/
def removeEmailStep (email : String) (st : List String × Bool) (e : String) :
    List String × Bool :=
  if e ≠ email then (st.1 ++ [e], st.2) else (st.1, true)

/-- One iteration of the loop of `RemoveDirectoryRule`, on the loop state
`(updatedRules, found)`. -/
def removeRuleStep (absPath : String) (st : List DirectoryRule × Bool) (rule : DirectoryRule) :
    List DirectoryRule × Bool :=
  if rule.Path ≠ absPath then (st.1 ++ [rule], st.2) else (st.1, true)

/-- The method `Config.RemoveEmail`: removes an email from a profile. -/
def Config.RemoveEmail (c : Config) (profileName email : String) : Config × Option String :=
  match c.GetProfile profileName with
  | .error err => (c, some err)
  | .ok profile =>
    if email = profile.PrimaryEmail then
      (c, some "cannot remove primary email; set a different primary email first")
    else
      let (updatedEmails, found) := profile.Emails.foldl (removeEmailStep email) ([], false)
      if !found then
        (c, some ("email '" ++ email ++ "' not found in profile '" ++ profileName ++ "'"))
      else
        ({ c with Profiles :=
            c.Profiles.set profileName { profile with Emails := updatedEmails } }, none)

/-- The update loop of `AddDirectoryRule`: the rules with the profile of the
first rule at `absPath` replaced, or `none` when the loop finds no such rule. -/
def updateRule (absPath profileName : String) : List DirectoryRule → Option (List DirectoryRule)
  | [] => none
  | rule :: rest =>
      if rule.Path = absPath then some ({ rule with Profile := profileName } :: rest)
      else (updateRule absPath profileName rest).map (fun rules => rule :: rules)

/-- The method `Config.AddDirectoryRule`: adds a directory-to-profile mapping. -/
def Config.AddDirectoryRule (c : Config) (Abs : String → Except String String)
    (path profileName : String) : Config × Option String :=
  match c.GetProfile profileName with
  | .error err => (c, some err)
  | .ok _ =>
    match Abs path with
    | .error err => (c, some ("failed to resolve absolute path: " ++ err))
    | .ok absPath =>
      match updateRule absPath profileName c.DirectoryRules with
      | some rules => ({ c with DirectoryRules := rules }, none)
      | none =>
        ({ c with DirectoryRules :=
            c.DirectoryRules ++ [{ Path := absPath, Profile := profileName }] }, none)

/-- The method `Config.RemoveDirectoryRule`: removes a directory rule. -/
def Config.RemoveDirectoryRule (c : Config) (Abs : String → Except String String)
    (path : String) : Config × Option String :=
  match Abs path with
  | .error err => (c, some ("failed to resolve absolute path: " ++ err))
  | .ok absPath =>
    let (updatedRules, found) := c.DirectoryRules.foldl (removeRuleStep absPath) ([], false)
    if !found then (c, some ("directory rule for '" ++ absPath ++ "' not found"))
    else ({ c with DirectoryRules := updatedRules }, none)

/-! ## The invariants of the store -/

/-- Every stored profile lists its primary email among its emails. -/
def Config.PrimaryListed (c : Config) : Prop :=
  ∀ name p, c.Profiles.get name = some p → p.PrimaryEmail ∈ p.Emails

/-- Referential integrity: every rule names a stored profile, and so does the
current profile when it is set. -/
def Config.RefsOk (c : Config) : Prop :=
  (∀ rule ∈ c.DirectoryRules, (c.Profiles.get rule.Profile).isSome) ∧
  (c.CurrentProfile ≠ "" → (c.Profiles.get c.CurrentProfile).isSome)

/-- The paths of a rule list. -/
def rulePaths (rules : List DirectoryRule) : List String := rules.map (fun rule => rule.Path)

/-! ## Notions used to state the properties -/

/-- A rule of `rules` whose path is a prefix of `q` and is at least as long as
every other rule path that is a prefix of `q`. -/
def LongestPrefixRule (rules : List DirectoryRule) (q : String) (r : DirectoryRule) : Prop :=
  r ∈ rules ∧ HasPrefix q r.Path = true ∧
    ∀ r' ∈ rules, HasPrefix q r'.Path = true → len r'.Path ≤ len r.Path

/-- The class `[a-zA-Z0-9]`: the alphanumeric characters. -/
def isAlnum (c : Char) : Bool := isLower c || isUpper c || isDigit c

/-- The labels of a domain: the pieces between its dots (what
`strings.Split(domain, ".")` returns). -/
def domainLabels : List Char → List (List Char)
  | [] => [[]]
  | c :: cs =>
      if c = '.' then [] :: domainLabels cs
      else match domainLabels cs with
        | [] => [[c]]
        | l :: ls => (c :: l) :: ls

/-- A store with the profile `work` (emails `a@x.com`), the rule
`/home/u/work -> work` and `work` as the current profile. -/
def sampleStore : Config :=
  { Profiles := [("work", ⟨"work", ["a@x.com"], "a@x.com", "", "", ""⟩)],
    DirectoryRules := [⟨"/home/u/work", "work"⟩],
    CurrentProfile := "work" }

/-! ## Import of an exported store (`cmd/export.go`)

`runExport` writes `json.MarshalIndent(cfg)` and `runImport` reads it back with
`json.Unmarshal`; both belong to the standard library and return the profiles,
rules and current profile that were marshalled, so the imported configuration
is the exported one. The map `importedCfg.Profiles` is ranged over in the order
of its list of bindings, which stands for any iteration order. -/

/-- The configuration `Load` returns when no configuration file exists. -/
def emptyConfig : Config := { Profiles := [], DirectoryRules := [], CurrentProfile := "" }

/-- One iteration of the profile loop of `runImport`, on `cfg.Profiles`.
`confirm name` tells whether the answer read at the prompt for `name` is `y` in
either case. -/
def importProfileStep (skipPrompts : Bool) (confirm : String → Bool)
    (profiles : GoMap Profile) (entry : String × Profile) : GoMap Profile :=
  if (profiles.get entry.1).isSome && !skipPrompts && !confirm entry.1 then profiles
  else if entry.2.Validate ≠ none then profiles
  else profiles.set entry.1 entry.2

/-- The inner loop of the rule merge of `runImport`: the rules with the first
rule at the path of `rule` replaced by `rule`, or `none` when there is none. -/
def replaceRule (rule : DirectoryRule) : List DirectoryRule → Option (List DirectoryRule)
  | [] => none
  | existingRule :: rest =>
      if existingRule.Path = rule.Path then some (rule :: rest)
      else (replaceRule rule rest).map (fun rules => existingRule :: rules)

/-- One iteration of the rule loop of `runImport`, on `cfg.DirectoryRules`. -/
def importRuleStep (rules : List DirectoryRule) (rule : DirectoryRule) : List DirectoryRule :=
  match replaceRule rule rules with
  | some rules' => rules'
  | none => rules ++ [rule]

/-- The merge of `runImport`: the configuration saved after `importedCfg` has
been merged into `cfg`. -/
def importMerge (skipPrompts : Bool) (confirm : String → Bool)
    (cfg importedCfg : Config) : Config :=
  { Profiles := importedCfg.Profiles.foldl (importProfileStep skipPrompts confirm) cfg.Profiles,
    DirectoryRules := importedCfg.DirectoryRules.foldl importRuleStep cfg.DirectoryRules,
    CurrentProfile := cfg.CurrentProfile }

/-! ## Text helpers of the Go standard library

`strings.TrimSpace`, `strings.Contains`, `strings.HasSuffix`, `strings.Join`,
the split function `bufio.ScanLines` and the scanner `bufio.Scanner` are
written out from their documentation. -/

/-- The predicate `unicode.IsSpace`: the characters `strings.TrimSpace` removes. -/
def isSpace (c : Char) : Bool :=
  c == '\t' || c == '\n' || c.toNat == 0x0B || c.toNat == 0x0C || c == '\r' || c == ' ' ||
  c.toNat == 0x85 || c.toNat == 0xA0 || c.toNat == 0x1680 ||
  (decide (0x2000 ≤ c.toNat) && decide (c.toNat ≤ 0x200A)) ||
  c.toNat == 0x2028 || c.toNat == 0x2029 || c.toNat == 0x202F || c.toNat == 0x205F ||
  c.toNat == 0x3000

/-- The list without its trailing white space. -/
def trimRight (l : List Char) : List Char := (l.reverse.dropWhile isSpace).reverse

/-- The list without its leading and trailing white space. -/
def trimSpaceList (l : List Char) : List Char := trimRight (l.dropWhile isSpace)

/-- The function `strings.TrimSpace`. -/
def TrimSpace (s : String) : String := ⟨trimSpaceList s.data⟩

/-- Whether `sub` occurs in the list as a contiguous block. -/
def containsList (sub : List Char) : List Char → Bool
  | [] => sub.isEmpty
  | c :: cs => sub.isPrefixOf (c :: cs) || containsList sub cs

/-- The function `strings.Contains(s, substr)`. -/
def Contains (s substr : String) : Bool := containsList substr.data s.data

/-- The function `strings.HasSuffix(s, suffix)`. -/
def HasSuffix (s suffix : String) : Bool := suffix.data.isSuffixOf s.data

/-- The function `strings.Join(elems, sep)`. -/
def Join : List String → String → String
  | [], _ => ""
  | [a], _ => a
  | a :: b :: rest, sep => a ++ sep ++ Join (b :: rest) sep

/-- The helper `dropCR` of `bufio.ScanLines`: the line without one trailing
carriage return. -/
def dropCR (l : List Char) : List Char :=
  match l.reverse with
  | '\r' :: rest => rest.reverse
  | _ => l

/-- The tokens into which `bufio.ScanLines` splits a text, whatever their
length: `cur` is the part of the current line read so far. A line ends at each
line feed; the text left after the last line feed is a line of its own unless
it is empty. -/
def scanLinesAux : List Char → List Char → List (List Char)
  | cur, [] => if cur = [] then [] else [dropCR cur]
  | cur, c :: cs =>
      if c = '\n' then dropCR cur :: scanLinesAux [] cs
      else scanLinesAux (cur ++ [c]) cs

/-- The lines of a text, as `bufio.ScanLines` splits it: each without its line
feed and without one carriage return before it. -/
def scanLines (text : String) : List String :=
  (scanLinesAux [] text.data).map (fun l => String.mk l)

/-- The constant `bufio.MaxScanTokenSize`: the largest size of the buffer of a
scanner made by `bufio.NewScanner`. -/
def MaxScanTokenSize : Nat := 64 * 1024

/-- The message of the error `bufio.ErrTooLong`. -/
def ErrTooLong : String := "bufio.Scanner: token too long"

/-- A `bufio.Scanner` with the split function `bufio.ScanLines`, driven by
`for scanner.Scan()` over the rest of a text: the tokens it returns and the
value of `scanner.Err()` after the loop. `cur` is the part of the current line
read so far. A line must fit in the buffer together with its line feed: at a
line of `MaxScanTokenSize` bytes or more (its carriage return counted, its line
feed not) `Scan` returns false and the error is `ErrTooLong`; the lines after
it are not read. -/
def scanTokensAux : List Char → List Char → List (List Char) × Option String
  | cur, [] =>
      if cur = [] then ([], none)
      else if MaxScanTokenSize ≤ len (String.mk cur) then ([], some ErrTooLong)
      else ([dropCR cur], none)
  | cur, c :: cs =>
      if c = '\n' then
        if MaxScanTokenSize ≤ len (String.mk cur) then ([], some ErrTooLong)
        else (dropCR cur :: (scanTokensAux [] cs).1, (scanTokensAux [] cs).2)
      else scanTokensAux (cur ++ [c]) cs

/-- A `bufio.Scanner` over the text of a file, driven to its end: the
successive values of `scanner.Text()` and the value of `scanner.Err()`. -/
def scanFile (text : String) : List String × Option String :=
  ((scanTokensAux [] text.data).1.map (fun l => String.mk l), (scanTokensAux [] text.data).2)

/-- A scanner reads the text to its end: no line of it has `MaxScanTokenSize`
bytes or more (see `linesFit_iff`). -/
def LinesFit (text : String) : Prop := (scanFile text).2 = none

/-- The lines of a text, each with its carriage return and without its line
feed: `cur` is the part of the current line read so far. -/
def rawLinesAux : List Char → List Char → List (List Char)
  | cur, [] => if cur = [] then [] else [cur]
  | cur, c :: cs =>
      if c = '\n' then cur :: rawLinesAux [] cs
      else rawLinesAux (cur ++ [c]) cs

instance (text : String) : Decidable (LinesFit text) :=
  inferInstanceAs (Decidable ((scanFile text).2 = none))

/-- A text of one line of `MaxScanTokenSize` letters `a`, the shortest line
that does not fit. -/
def longLine : String := String.mk (List.replicate MaxScanTokenSize 'a')

/-! ## Files

A file system maps a path to the content of the file at that path. Reads and
writes of an existing file succeed, apart from the error of a scanner; opening
a missing file fails with a not-exist error. `filepath.Join` belongs to the
standard library and is the parameter `filepathJoin`. -/

/-- The files, by path. -/
abbrev FileSystem := GoMap String

/-! ## SSH configuration (`internal/ssh/config.go`) -/

namespace ssh

/-- The struct `ssh.ConfigManager`: manages SSH configuration. -/
structure ConfigManager where
  sshConfigPath : String
  homeDir : String
  deriving DecidableEq, Repr

/-- The function `GetHostAlias`: the SSH host alias for a profile. -/
def GetHostAlias (profileName : String) : String := "github.com-" ++ profileName

/-- The condition of the loop of `entryExists` on one scanned line. -/
def isHostLineFor (hostAlias : String) (text : String) : Bool :=
  HasPrefix (TrimSpace text) "Host " && Contains (TrimSpace text) hostAlias

/-- The method `entryExists`: whether an SSH config entry already exists for a
host. The loop returns true at the first scanned line that passes the test and
false when the scanner stops, at the end of the file or at its error, which is
not read. -/
def ConfigManager.entryExists (sm : ConfigManager) (fs : FileSystem) (hostAlias : String) :
    Bool :=
  match fs.get sm.sshConfigPath with
  | none => false
  | some content => (scanFile content).1.any (isHostLineFor hostAlias)

/-- The text `EnsureProfileEntry` appends for a profile name, host alias and
key file. -/
def entryText (name hostAlias sshKeyFile : String) : String :=
  "\n# GitHub profile: " ++ name ++ "\nHost " ++ hostAlias ++
    "\n    HostName github.com\n    User git\n    IdentityFile " ++ sshKeyFile ++
    "\n    IdentitiesOnly yes\n"

/-- The method `EnsureProfileEntry`: ensures an SSH config entry exists for a
profile. Returns the files and the profile after the call, and the error. -/
def ConfigManager.EnsureProfileEntry (sm : ConfigManager)
    (filepathJoin : List String → String) (fs : FileSystem) (profile : Profile) :
    FileSystem × Profile × Option String :=
  let hostAlias := "github.com-" ++ profile.Name
  let sshKeyFile := filepathJoin [sm.homeDir, ".ssh", "id_" ++ profile.Name]
  let profile :=
    if profile.SSHKeyPath = "" then { profile with SSHKeyPath := sshKeyFile } else profile
  if sm.entryExists fs hostAlias then (fs, profile, none)
  else
    let fs :=
      match fs.get sm.sshConfigPath with
      | none => fs.set sm.sshConfigPath ""
      | some _ => fs
    let entry := entryText profile.Name hostAlias sshKeyFile
    match fs.get sm.sshConfigPath with
    | none => (fs, profile, some "failed to open SSH config: file does not exist")
    | some content => (fs.set sm.sshConfigPath (content ++ entry), profile, none)

/-- The loop state of `RemoveProfileEntry`. -/
structure RemoveState where
  newLines : List String
  inTargetEntry : Bool
  skipNext : Bool
  deriving DecidableEq, Repr

/-- One iteration of the loop of `RemoveProfileEntry` on the scanned `line`. -/
def removeStep (profileName hostAlias : String) (st : RemoveState) (line : String) :
    RemoveState :=
  let trimmed := TrimSpace line
  if HasPrefix trimmed "#" && Contains trimmed ("GitHub profile: " ++ profileName) then
    { st with skipNext := true }
  else if HasPrefix trimmed "Host " && Contains trimmed hostAlias then
    { st with inTargetEntry := true }
  else
    let st :=
      if HasPrefix trimmed "Host " then { st with inTargetEntry := false, skipNext := false }
      else st
    if st.inTargetEntry || st.skipNext then
      if HasPrefix trimmed "Host " ||
          (trimmed ≠ "" && !HasPrefix line " " && !HasPrefix line "\t") then
        { newLines := st.newLines ++ [line], inTargetEntry := false, skipNext := false }
      else st
    else { st with newLines := st.newLines ++ [line] }

/-- The lines `RemoveProfileEntry` keeps of the scanned lines. -/
def keptLines (profileName : String) (lines : List String) : List String :=
  (lines.foldl (removeStep profileName ("github.com-" ++ profileName)) ⟨[], false, false⟩).newLines

/-- The method `RemoveProfileEntry`: removes an SSH config entry for a profile.
Returns the files after the call and the error. -/
def ConfigManager.RemoveProfileEntry (sm : ConfigManager) (fs : FileSystem)
    (profileName : String) : FileSystem × Option String :=
  match fs.get sm.sshConfigPath with
  | none => (fs, none)
  | some text =>
    let newLines := keptLines profileName (scanFile text).1
    match (scanFile text).2 with
    | some err => (fs, some ("failed to read SSH config: " ++ err))
    | none =>
      let content := Join newLines "\n"
      (fs.set sm.sshConfigPath content, none)

end ssh

/-! ## Notions used to state the SSH properties -/

namespace ssh

/-- A comment line that marks the start of the block of `profileName`, as the
loop of `RemoveProfileEntry` recognises it: the trimmed line starts with `#`
and contains the text `GitHub profile: <profileName>`. -/
def isMarkerLineFor (profileName : String) (line : String) : Bool :=
  HasPrefix (TrimSpace line) "#" &&
    Contains (TrimSpace line) ("GitHub profile: " ++ profileName)

/-- A line whose trimmed form starts with `Host `. -/
def isHostHeader (line : String) : Bool := HasPrefix (TrimSpace line) "Host "

/-- A line that is not blank and does not start with a space or a tab. -/
def isTopLevel (line : String) : Bool :=
  decide (TrimSpace line ≠ "") && !HasPrefix line " " && !HasPrefix line "\t"

/-- A line that belongs neither to the marker comments nor to the Host headers
of `profileName`. -/
def isForeign (profileName : String) (line : String) : Bool :=
  !isMarkerLineFor profileName line && !isHostLineFor ("github.com-" ++ profileName) line

/-- A line that `RemoveProfileEntry(profileName)` keeps wherever it stands: it
is foreign to `profileName` and is a Host header or a top-level line. -/
def staysOnRemove (profileName : String) (line : String) : Bool :=
  isForeign profileName line && (isHostHeader line || isTopLevel line)

/-- The SSH configuration has no line that the loops attribute to
`profileName`, also when the file does not exist: no line whose trimmed form
starts with `#` and contains the text `GitHub profile: <profileName>`, and no
line whose trimmed form starts with `Host ` and contains the text
`github.com-<profileName>`, be it inside a longer name or alias. -/
def NoBlock (sm : ConfigManager) (fs : FileSystem) (profileName : String) : Prop :=
  ∀ text, fs.get sm.sshConfigPath = some text →
    ∀ line ∈ scanLines text, isForeign profileName line = true

/-- A manager for the configuration file `/h/.ssh/config` of the home `/h`. -/
def sampleManager : ConfigManager := { sshConfigPath := "/h/.ssh/config", homeDir := "/h" }

end ssh

/-- A `filepath.Join` for elements that are already clean: the elements
separated by `/`. -/
def joinOfClean (elems : List String) : String := Join elems "/"

/-! ## Git configuration (`internal/git/config.go`)

The manager acts on the files and on the global git configuration, a map from
keys to values that it reads and writes through the `git config` command:
`git config --global --get key` prints the value followed by a line feed and
fails when the key is not set; `git config --global key value` sets the value
of the key and `git config --global --unset key` removes the key, unless the
run fails. Whether a run fails (git is missing, the configuration file is
locked or cannot be written) is decided outside the program: it is the
parameter `run`. -/

namespace git

/-- The struct `git.ConfigManager`: manages Git configuration. -/
structure ConfigManager where
  homeDir : String
  deriving DecidableEq, Repr

/-- What the Git manager reads and writes: the files and the global git
configuration. -/
structure World where
  files : FileSystem
  global : GoMap String
  deriving DecidableEq, Repr

/-- The failure of a run of `git`, given the global configuration and the
arguments: `none` when the command does its work, or the error of `exec` and
the combined output of the command when it fails, and then the configuration
is left as it was. A get or an unset of a key that is not set counts as a run
that does its work. -/
abbrev GitRun := GoMap String → List String → Option (String × String)

/-- The method `getGlobalConfig`: gets a global git configuration value. The
result is empty when the run fails and when the key is not set. -/
def getGlobalConfig (run : GitRun) (global : GoMap String) (key : String) : String :=
  match run global ["config", "--global", "--get", key] with
  | some _ => ""
  | none =>
    match global.get key with
    | none => ""
    | some value => TrimSpace (value ++ "\n")

/-- The method `setGlobalConfig`: sets a global git configuration value. -/
def setGlobalConfig (run : GitRun) (global : GoMap String) (key value : String) :
    GoMap String × Option String :=
  match run global ["config", "--global", key, value] with
  | some (err, output) => (global, some ("git config failed: " ++ err ++ "\n" ++ output))
  | none => (global.set key value, none)

/-- The text `SetupProfile` builds in `configContent` for a profile. -/
def profileConfigContent (profile : Profile) : String :=
  let content := "# Git configuration for profile: " ++ profile.Name ++ "\n"
  let content := content ++ "[user]\n"
  let content := content ++ ("\temail = " ++ profile.PrimaryEmail ++ "\n")
  let content :=
    if profile.GitName ≠ "" then content ++ ("\tname = " ++ profile.GitName ++ "\n")
    else content
  let content :=
    if profile.GPGKey ≠ "" then
      content ++ ("\tsigningkey = " ++ profile.GPGKey ++ "\n") ++ "[commit]\n" ++
        "\tgpgsign = true\n"
    else content
  let content :=
    if profile.SSHKeyPath ≠ "" then
      content ++ "[core]\n" ++
        ("\tsshCommand = ssh -i " ++ profile.SSHKeyPath ++ " -F /dev/null\n")
    else content
  content

/-- The key of the conditional include for the directory `absPath`, which gets
a final `/` when it has none. -/
def includeIfSection (absPath : String) : String :=
  "includeIf.gitdir:" ++ (if !HasSuffix absPath "/" then absPath ++ "/" else absPath) ++ ".path"

/-- The method `SetupProfile`: creates a profile-specific gitconfig file and
sets up includeIf. Returns the world after the call and the error. -/
def ConfigManager.SetupProfile (gm : ConfigManager) (filepathJoin : List String → String)
    (Abs : String → Except String String) (run : GitRun) (w : World) (profile : Profile)
    (directoryPath : String) : World × Option String :=
  let profileConfigPath := filepathJoin [gm.homeDir, ".gitconfig-" ++ profile.Name]
  let w := { w with files := w.files.set profileConfigPath (profileConfigContent profile) }
  if directoryPath ≠ "" then
    match Abs directoryPath with
    | .error err => (w, some ("failed to resolve absolute path: " ++ err))
    | .ok absPath =>
      let existingPath := getGlobalConfig run w.global (includeIfSection absPath)
      if existingPath = "" then
        match setGlobalConfig run w.global (includeIfSection absPath) profileConfigPath with
        | (global, some err) =>
          ({ w with global := global }, some ("failed to set includeIf directive: " ++ err))
        | (global, none) => ({ w with global := global }, none)
      else if existingPath ≠ profileConfigPath then
        match setGlobalConfig run w.global (includeIfSection absPath) profileConfigPath with
        | (global, some err) =>
          ({ w with global := global }, some ("failed to update includeIf directive: " ++ err))
        | (global, none) => ({ w with global := global }, none)
      else (w, none)
  else (w, none)

/-- The method `unsetGlobalConfig`: unsets a global git configuration value.
`git config --global --unset key` removes the key; the error of the run, also
the one git reports when the key is not set, is ignored, and the method
returns `nil`. -/
def unsetGlobalConfig (run : GitRun) (global : GoMap String) (key : String) :
    GoMap String × Option String :=
  match run global ["config", "--global", "--unset", key] with
  | some _ => (global, none)
  | none => (global.delete key, none)

/-- The method `SwitchProfile`: manually switches to a profile globally.
Returns the global configuration after the call and the error. -/
def ConfigManager.SwitchProfile (_gm : ConfigManager) (run : GitRun) (global : GoMap String)
    (profile : Profile) : GoMap String × Option String :=
  match setGlobalConfig run global "user.email" profile.PrimaryEmail with
  | (global, some err) => (global, some ("failed to set email: " ++ err))
  | (global, none) =>
    let named : GoMap String × Option String :=
      if profile.GitName ≠ "" then setGlobalConfig run global "user.name" profile.GitName
      else (global, none)
    match named with
    | (global, some err) => (global, some ("failed to set name: " ++ err))
    | (global, none) =>
      if profile.GPGKey ≠ "" then
        match setGlobalConfig run global "user.signingkey" profile.GPGKey with
        | (global, some err) => (global, some ("failed to set GPG key: " ++ err))
        | (global, none) =>
          match setGlobalConfig run global "commit.gpgsign" "true" with
          | (global, some err) => (global, some ("failed to enable GPG signing: " ++ err))
          | (global, none) => (global, none)
      else
        let global := (unsetGlobalConfig run global "commit.gpgsign").1
        let global := (unsetGlobalConfig run global "user.signingkey").1
        (global, none)

/-- The string contains neither a line feed nor a carriage return. -/
def NoLineBreak (s : String) : Prop := '\n' ∉ s.data ∧ '\r' ∉ s.data

/-- The lines `SetupProfile` writes for a profile, one per `WriteString`. -/
def profileConfigLines (profile : Profile) : List String :=
  ["# Git configuration for profile: " ++ profile.Name, "[user]",
    "\temail = " ++ profile.PrimaryEmail] ++
  (if profile.GitName ≠ "" then ["\tname = " ++ profile.GitName] else []) ++
  (if profile.GPGKey ≠ "" then
    ["\tsigningkey = " ++ profile.GPGKey, "[commit]", "\tgpgsign = true"] else []) ++
  (if profile.SSHKeyPath ≠ "" then
    ["[core]", "\tsshCommand = ssh -i " ++ profile.SSHKeyPath ++ " -F /dev/null"] else [])

/-- A manager for the home directory `/h`. -/
def sampleManager : ConfigManager := { homeDir := "/h" }

/-- The profile `work` with a display name, a signing key and no key file. -/
def sampleProfile : Profile :=
  { Name := "work", Emails := ["a@x.com"], PrimaryEmail := "a@x.com", GitName := "Ann",
    GPGKey := "ABCDEF12", SSHKeyPath := "" }

/-- The profile `plain` with neither a display name nor a signing key. -/
def plainProfile : Profile :=
  { Name := "plain", Emails := ["p@x.com"], PrimaryEmail := "p@x.com", GitName := "",
    GPGKey := "", SSHKeyPath := "" }

/-- A `git` whose every run does its work. -/
def gitRuns : GitRun := fun _ _ => none

/-- A `git` that cannot lock the configuration file: every run that writes
fails. -/
def gitLocked : GitRun := fun _ _ =>
  some ("exit status 255", "error: could not lock config file /h/.gitconfig: File exists\n")

/-- A global configuration left by the profile `work`, with a key of the
user's own. -/
def sampleGlobal : GoMap String :=
  [("user.email", "a@x.com"), ("user.name", "Ann"), ("user.signingkey", "ABCDEF12"),
    ("commit.gpgsign", "true"), ("core.editor", "vi")]

end git

/-! ## Lemmas on Go strings and maps -/

theorem hasPrefix_iff (s pre : String) : HasPrefix s pre = true ↔ pre.data <+: s.data := by
  simp [HasPrefix]

theorem hasPrefix_self (s : String) : HasPrefix s s = true := by
  simp [hasPrefix_iff]

theorem len_le_of_hasPrefix {s pre : String} (h : HasPrefix s pre = true) : len pre ≤ len s := by
  rw [hasPrefix_iff] at h
  cases s; cases pre
  simpa [len] using String.utf8Len_le_of_prefix h

theorem len_pos_of_ne_empty {s : String} (h : s ≠ "") : 0 < len s := by
  cases s with
  | mk cs =>
    cases cs with
    | nil => exact absurd rfl h
    | cons c cs =>
      have := c.utf8Size_pos
      simp [len]
      omega

theorem eq_of_hasPrefix_of_len_eq {q p₁ p₂ : String} (h₁ : HasPrefix q p₁ = true)
    (h₂ : HasPrefix q p₂ = true) (hl : len p₁ = len p₂) : p₁ = p₂ := by
  rw [hasPrefix_iff] at h₁ h₂
  cases p₁ with
  | mk a =>
    cases p₂ with
    | mk b =>
      simp only [len, String.utf8ByteSize_mk] at hl
      congr 1
      rcases List.prefix_or_prefix_of_prefix h₁ h₂ with ⟨t, ht⟩ | ⟨t, ht⟩
      · simp only at ht
        rw [← ht, String.utf8Len_append] at hl
        have : String.utf8Len t = 0 := by omega
        rw [String.utf8Len_eq_zero] at this
        simpa [this] using ht
      · simp only at ht
        rw [← ht, String.utf8Len_append] at hl
        have : String.utf8Len t = 0 := by omega
        rw [String.utf8Len_eq_zero] at this
        simpa [this] using ht.symm

theorem GoMap.get_delete {β : Type} (m : GoMap β) (k k' : String) :
    GoMap.get (GoMap.delete m k) k' = if k' = k then none else GoMap.get m k' := by
  induction m with
  | nil => simp [GoMap.delete, GoMap.get]
  | cons e m ih =>
    obtain ⟨a, v⟩ := e
    by_cases ha : a = k
    · have hd : GoMap.delete ((a, v) :: m) k = GoMap.delete m k := by
        simp [GoMap.delete, ha]
      rw [hd, ih]
      by_cases hk : k' = k
      · simp [hk]
      · have : ¬ a = k' := fun h => hk (h ▸ ha)
        simp [hk, GoMap.get, this]
    · have hd : GoMap.delete ((a, v) :: m) k = (a, v) :: GoMap.delete m k := by
        simp [GoMap.delete, ha]
      rw [hd]
      by_cases hk : k' = k
      · subst hk
        simp [GoMap.get, ha, ih]
      · by_cases hak : a = k'
        · simp [GoMap.get, hak, hk]
        · simp [GoMap.get, hak, ih, hk]

theorem GoMap.get_set {β : Type} (m : GoMap β) (k k' : String) (v : β) :
    GoMap.get (GoMap.set m k v) k' = if k' = k then some v else GoMap.get m k' := by
  by_cases hk : k' = k
  · simp [GoMap.set, GoMap.get, hk]
  · have : ¬ k = k' := fun h => hk h.symm
    simp [GoMap.set, GoMap.get, this, GoMap.get_delete, hk]

/-! ## Directory resolver: lemmas -/

theorem exactMatch_eq_none {rules : List DirectoryRule} {q : String}
    (h : ∀ rule ∈ rules, rule.Path ≠ q) : exactMatch rules q = none := by
  simp only [exactMatch, List.find?_eq_none]
  intro rule hr
  simpa using h rule hr

theorem exactMatch_some {rules : List DirectoryRule} {q : String} {rule : DirectoryRule}
    (h : exactMatch rules q = some rule) : rule ∈ rules ∧ rule.Path = q := by
  refine ⟨List.mem_of_find?_eq_some h, ?_⟩
  simpa using List.find?_some h

theorem foldl_bestStep_spec (q : String) (rules : List DirectoryRule) (best : String × Nat) :
    (rules.foldl (bestStep q) best = best ∨
      ∃ r ∈ rules, HasPrefix q r.Path = true ∧
        rules.foldl (bestStep q) best = (r.Profile, len r.Path)) ∧
    best.2 ≤ (rules.foldl (bestStep q) best).2 ∧
    ∀ r ∈ rules, HasPrefix q r.Path = true → len r.Path ≤ (rules.foldl (bestStep q) best).2 := by
  induction rules generalizing best with
  | nil => simp
  | cons r rs ih =>
    rw [List.foldl_cons]
    obtain ⟨hres, hmono, hmax⟩ := ih (bestStep q best r)
    by_cases hc : (len r.Path > best.2 && HasPrefix q r.Path) = true
    · have hstep : bestStep q best r = (r.Profile, len r.Path) := by
        simp only [bestStep, hc, if_true]
      simp only [Bool.and_eq_true, decide_eq_true_eq] at hc
      rw [hstep] at hres hmono hmax ⊢
      refine ⟨Or.inr ?_, ?_, ?_⟩
      · rcases hres with h | ⟨r', hr', hp', h⟩
        · exact ⟨r, List.mem_cons_self _ _, hc.2, h⟩
        · exact ⟨r', List.mem_cons_of_mem _ hr', hp', h⟩
      · simp only at hmono
        omega
      · intro r' hr' hp'
        rcases List.mem_cons.1 hr' with rfl | hr'
        · exact hmono
        · exact hmax r' hr' hp'
    · have hstep : bestStep q best r = best := by
        simp only [bestStep, hc, Bool.false_eq_true, if_false]
      rw [hstep] at hres hmono hmax ⊢
      refine ⟨?_, hmono, ?_⟩
      · rcases hres with h | ⟨r', hr', hp', h⟩
        · exact Or.inl h
        · exact Or.inr ⟨r', List.mem_cons_of_mem _ hr', hp', h⟩
      · intro r' hr' hp'
        rcases List.mem_cons.1 hr' with rfl | hr'
        · simp only [Bool.and_eq_true, decide_eq_true_eq, not_and] at hc
          have : ¬ len r'.Path > best.2 := fun h => hc h hp'
          omega
        · exact hmax r' hr' hp'

theorem longestPrefixRule_unique {rules : List DirectoryRule} {q : String}
    (hnodup : (rulePaths rules).Nodup) {r₁ r₂ : DirectoryRule}
    (h₁ : LongestPrefixRule rules q r₁) (h₂ : LongestPrefixRule rules q r₂) : r₁ = r₂ := by
  have hle₁ := h₁.2.2 r₂ h₂.1 h₂.2.1
  have hle₂ := h₂.2.2 r₁ h₁.1 h₁.2.1
  have hpath : r₁.Path = r₂.Path :=
    eq_of_hasPrefix_of_len_eq h₁.2.1 h₂.2.1 (Nat.le_antisymm hle₂ hle₁)
  exact List.inj_on_of_nodup_map hnodup h₁.1 h₂.1 hpath

/-! ## Directory resolver: theorems -/

/-- C1, as amended: when the rule paths are pairwise distinct and non-empty,
the profile names are non-empty and `q` is absolute and clean, then as soon as
some rule path is a prefix of `q` there is a rule with the longest such path,
and `GetProfileForDirectory(q)` succeeds with the profile of that rule. -/
theorem getProfileForDirectory_longest_match (c : Config)
    (Abs : String → Except String String) (q : String)
    (hnodup : (rulePaths c.DirectoryRules).Nodup)
    (hprof : ∀ rule ∈ c.DirectoryRules, rule.Profile ≠ "")
    (hpath : ∀ rule ∈ c.DirectoryRules, rule.Path ≠ "")
    (hq : Abs q = .ok q)
    (hex : ∃ rule ∈ c.DirectoryRules, HasPrefix q rule.Path = true) :
    (∃ r, LongestPrefixRule c.DirectoryRules q r) ∧
    ∀ r, LongestPrefixRule c.DirectoryRules q r →
      c.GetProfileForDirectory Abs q = .ok r.Profile := by
  have key : ∃ r, LongestPrefixRule c.DirectoryRules q r ∧
      c.GetProfileForDirectory Abs q = .ok r.Profile := by
    simp only [Config.GetProfileForDirectory, hq]
    cases hem : exactMatch c.DirectoryRules q with
    | some rule =>
      obtain ⟨hmem, hp⟩ := exactMatch_some hem
      refine ⟨rule, ⟨hmem, ?_, ?_⟩, rfl⟩
      · rw [hp]; exact hasPrefix_self q
      · intro r' _ hr'
        rw [hp]; exact len_le_of_hasPrefix hr'
    | none =>
      obtain ⟨r₀, hr₀, hp₀⟩ := hex
      obtain ⟨hres, _, hmax⟩ := foldl_bestStep_spec q c.DirectoryRules ("", 0)
      have hpos : 0 < (bestPrefix c.DirectoryRules q).2 :=
        Nat.lt_of_lt_of_le (len_pos_of_ne_empty (hpath r₀ hr₀)) (hmax r₀ hr₀ hp₀)
      rcases hres with h | ⟨r, hr, hp, h⟩
      · rw [bestPrefix, h] at hpos
        exact absurd hpos (by decide)
      · refine ⟨r, ⟨hr, hp, ?_⟩, ?_⟩
        · intro r' hr' hp'
          have := hmax r' hr' hp'
          rw [h] at this
          exact this
        · simp only [bestPrefix, h, ne_eq, hprof r hr, not_false_eq_true, if_true]
  obtain ⟨r, hr, hres⟩ := key
  refine ⟨⟨r, hr⟩, ?_⟩
  intro r' hr'
  rw [longestPrefixRule_unique hnodup hr' hr]
  exact hres

/-- C1, the two resolutions named by the claim: with the rules `/a/b -> p1`
and `/a/b/c -> p2`, the path `/a/b/c/d` resolves to `p2` and the path `/a/b/x`
resolves to `p1`. -/
theorem getProfileForDirectory_longest_match_witness :
    ((∃ r, LongestPrefixRule [⟨"/a/b", "p1"⟩, ⟨"/a/b/c", "p2"⟩] "/a/b/c/d" r) ∧
      ∀ r, LongestPrefixRule [⟨"/a/b", "p1"⟩, ⟨"/a/b/c", "p2"⟩] "/a/b/c/d" r →
        (Config.mk [] [⟨"/a/b", "p1"⟩, ⟨"/a/b/c", "p2"⟩] "").GetProfileForDirectory
          absOfClean "/a/b/c/d" = .ok r.Profile) ∧
    (Config.mk [] [⟨"/a/b", "p1"⟩, ⟨"/a/b/c", "p2"⟩] "").GetProfileForDirectory
      absOfClean "/a/b/c/d" = .ok "p2" ∧
    (Config.mk [] [⟨"/a/b", "p1"⟩, ⟨"/a/b/c", "p2"⟩] "").GetProfileForDirectory
      absOfClean "/a/b/x" = .ok "p1" :=
  ⟨getProfileForDirectory_longest_match
      (Config.mk [] [⟨"/a/b", "p1"⟩, ⟨"/a/b/c", "p2"⟩] "")
      absOfClean "/a/b/c/d" (by decide) (by decide) (by decide) rfl
      ⟨⟨"/a/b", "p1"⟩, by decide, by decide⟩,
   by decide, by decide⟩

/-- C1 as stated fails for a rule whose path is the empty string: the paths
are pairwise distinct, the profile name is non-empty and the rule path is a
prefix of the absolute clean path `/a`, yet the resolution is an error. -/
theorem getProfileForDirectory_empty_rule_path :
    (rulePaths [⟨"", "p"⟩]).Nodup ∧
    (∀ rule ∈ [DirectoryRule.mk "" "p"], rule.Profile ≠ "") ∧
    absOfClean "/a" = .ok "/a" ∧
    (∃ rule ∈ [DirectoryRule.mk "" "p"], HasPrefix "/a" rule.Path = true) ∧
    (Config.mk [] [⟨"", "p"⟩] "").GetProfileForDirectory absOfClean "/a" =
      .error "no profile configured for directory: /a" := by
  decide

/-- C2: the resolver compares raw strings, so the rule `/home/u/work -> work`
is returned for the sibling directory `/home/u/work-other`, and the rule
`/home/work` for `/home/work-extra`. -/
theorem getProfileForDirectory_ignores_segment_boundary :
    (Config.mk [] [⟨"/home/u/work", "work"⟩] "").GetProfileForDirectory
      absOfClean "/home/u/work-other" = .ok "work" ∧
    (Config.mk [] [⟨"/home/work", "work"⟩] "").GetProfileForDirectory
      absOfClean "/home/work-extra" = .ok "work" := by
  decide

/-- C3: when `q` is absolute and clean and no rule path is a prefix of `q`,
`GetProfileForDirectory(q)` returns the not-found error and no profile. -/
theorem getProfileForDirectory_not_found (c : Config)
    (Abs : String → Except String String) (q : String)
    (hq : Abs q = .ok q)
    (hno : ∀ rule ∈ c.DirectoryRules, HasPrefix q rule.Path = false) :
    c.GetProfileForDirectory Abs q =
      .error ("no profile configured for directory: " ++ q) := by
  have hem : exactMatch c.DirectoryRules q = none := by
    apply exactMatch_eq_none
    intro rule hr heq
    have := hno rule hr
    rw [heq, hasPrefix_self] at this
    exact absurd this (by decide)
  obtain ⟨hres, _, _⟩ := foldl_bestStep_spec q c.DirectoryRules ("", 0)
  have hbest : bestPrefix c.DirectoryRules q = ("", 0) := by
    rcases hres with h | ⟨r, hr, hp, _⟩
    · exact h
    · rw [hno r hr] at hp
      exact absurd hp (by decide)
  simp [Config.GetProfileForDirectory, hq, hem, hbest]

/-- C3 at the rule `/a/b -> p1` and the path `/x/y`. -/
theorem getProfileForDirectory_not_found_witness :
    (Config.mk [] [⟨"/a/b", "p1"⟩] "").GetProfileForDirectory absOfClean "/x/y" =
      .error ("no profile configured for directory: " ++ "/x/y") :=
  getProfileForDirectory_not_found (Config.mk [] [⟨"/a/b", "p1"⟩] "") absOfClean "/x/y"
    rfl (by decide)

/-! ## Regular expressions: the matcher decides the language -/

namespace Regex

theorem matches_nil_of_append {a : Regex} {s t : List Char} (h : s ++ t = [])
    (hs : Matches a s) : Matches a [] := by
  have : s = [] := (List.append_eq_nil.1 h).1
  rw [this] at hs
  exact hs

theorem nullable_iff (r : Regex) : nullable r = true ↔ Matches r [] := by
  induction r with
  | none =>
    constructor
    · intro h; simp [nullable] at h
    · intro h; cases h
  | eps => exact ⟨fun _ => Matches.eps, fun _ => rfl⟩
  | cls p =>
    constructor
    · intro h; simp [nullable] at h
    · intro h; cases h
  | alt a b iha ihb =>
    simp only [nullable, Bool.or_eq_true, iha, ihb]
    constructor
    · rintro (h | h)
      · exact Matches.altL h
      · exact Matches.altR h
    · intro h
      cases h with
      | altL h => exact Or.inl h
      | altR h => exact Or.inr h
  | seq a b iha ihb =>
    simp only [nullable, Bool.and_eq_true, iha, ihb]
    constructor
    · rintro ⟨h₁, h₂⟩
      exact Matches.seq h₁ h₂
    · intro h
      generalize hw : ([] : List Char) = w at h
      cases h with
      | seq h₁ h₂ =>
        obtain ⟨e₁, e₂⟩ := List.append_eq_nil.1 hw.symm
        subst e₁ e₂
        exact ⟨h₁, h₂⟩
  | star a _ => exact ⟨fun _ => Matches.starNil, fun _ => rfl⟩

theorem matches_seq {a b : Regex} {w : List Char} :
    Matches (seq a b) w ↔ ∃ s t, w = s ++ t ∧ Matches a s ∧ Matches b t := by
  constructor
  · intro h
    cases h with
    | seq h₁ h₂ => exact ⟨_, _, rfl, h₁, h₂⟩
  · rintro ⟨s, t, rfl, h₁, h₂⟩
    exact Matches.seq h₁ h₂

theorem matches_cls {p : Char → Bool} {w : List Char} :
    Matches (cls p) w ↔ ∃ c, w = [c] ∧ p c = true := by
  constructor
  · intro h
    cases h with
    | cls hp => exact ⟨_, rfl, hp⟩
  · rintro ⟨c, rfl, hp⟩
    exact Matches.cls hp

theorem star_cons_inv {r : Regex} {w : List Char} (h : Matches r w) :
    ∀ (a : Regex) (c : Char) (s : List Char), r = star a → w = c :: s →
      ∃ s₁ s₂, s = s₁ ++ s₂ ∧ Matches a (c :: s₁) ∧ Matches (star a) s₂ := by
  induction h with
  | eps => intro a c s hr; cases hr
  | cls _ => intro a c s hr; cases hr
  | altL _ _ => intro a c s hr; cases hr
  | altR _ _ => intro a c s hr; cases hr
  | seq _ _ _ _ => intro a c s hr; cases hr
  | starNil => intro a c s _ hw; cases hw
  | @starCons a₀ s₀ t₀ h₁ h₂ _ ih₂ =>
    intro a c s hr hw
    cases hr
    cases s₀ with
    | nil => exact ih₂ _ c s rfl hw
    | cons x xs =>
      simp only [List.cons_append, List.cons.injEq] at hw
      obtain ⟨rfl, rfl⟩ := hw
      exact ⟨xs, t₀, rfl, h₁, h₂⟩

theorem deriv_iff (r : Regex) (c : Char) (s : List Char) :
    Matches (deriv r c) s ↔ Matches r (c :: s) := by
  induction r generalizing s with
  | none =>
    constructor
    · intro h; cases h
    · intro h; cases h
  | eps =>
    constructor
    · intro h; cases h
    · intro h; cases h
  | cls p =>
    rw [matches_cls]
    by_cases hp : p c = true
    · simp only [deriv, hp, if_true]
      constructor
      · intro h
        cases h
        exact ⟨c, rfl, hp⟩
      · rintro ⟨c', hc', _⟩
        simp only [List.cons.injEq] at hc'
        rw [hc'.2]
        exact Matches.eps
    · simp only [deriv, hp, Bool.false_eq_true, if_false]
      constructor
      · intro h; cases h
      · rintro ⟨c', hc', hp'⟩
        simp only [List.cons.injEq] at hc'
        rw [← hc'.1] at hp'
        exact absurd hp' hp
  | alt a b iha ihb =>
    simp only [deriv]
    constructor
    · intro h
      cases h with
      | altL h => exact Matches.altL ((iha s).1 h)
      | altR h => exact Matches.altR ((ihb s).1 h)
    · intro h
      cases h with
      | altL h => exact Matches.altL ((iha s).2 h)
      | altR h => exact Matches.altR ((ihb s).2 h)
  | seq a b iha ihb =>
    have hleft : Matches (seq (deriv a c) b) s → Matches (seq a b) (c :: s) := by
      intro h
      obtain ⟨s₁, s₂, rfl, h₁, h₂⟩ := matches_seq.1 h
      exact Matches.seq ((iha s₁).1 h₁) h₂
    have hback : Matches (seq a b) (c :: s) →
        Matches (seq (deriv a c) b) s ∨ (Matches a [] ∧ Matches (deriv b c) s) := by
      intro h
      obtain ⟨s₁, s₂, hw, h₁, h₂⟩ := matches_seq.1 h
      cases s₁ with
      | nil =>
        simp only [List.nil_append] at hw
        rw [← hw] at h₂
        exact Or.inr ⟨h₁, (ihb s).2 h₂⟩
      | cons x xs =>
        simp only [List.cons_append, List.cons.injEq] at hw
        obtain ⟨rfl, rfl⟩ := hw
        exact Or.inl (Matches.seq ((iha xs).2 h₁) h₂)
    by_cases hn : nullable a = true
    · simp only [deriv, hn, if_true]
      constructor
      · intro h
        cases h with
        | altL h => exact hleft h
        | altR h =>
          have := Matches.seq ((nullable_iff a).1 hn) ((ihb s).1 h)
          simpa using this
      · intro h
        rcases hback h with h | ⟨_, h⟩
        · exact Matches.altL h
        · exact Matches.altR h
    · simp only [deriv, hn, Bool.false_eq_true, if_false]
      constructor
      · exact hleft
      · intro h
        rcases hback h with h | ⟨h, _⟩
        · exact h
        · exact absurd ((nullable_iff a).2 h) hn
  | star a iha =>
    simp only [deriv]
    constructor
    · intro h
      obtain ⟨s₁, s₂, rfl, h₁, h₂⟩ := matches_seq.1 h
      exact Matches.starCons ((iha s₁).1 h₁) h₂
    · intro h
      obtain ⟨s₁, s₂, rfl, h₁, h₂⟩ := star_cons_inv h a c s rfl rfl
      exact Matches.seq ((iha s₁).2 h₁) h₂

theorem matchList_iff (r : Regex) (s : List Char) : matchList r s = true ↔ Matches r s := by
  induction s generalizing r with
  | nil => exact nullable_iff r
  | cons c cs ih =>
    rw [matchList, ih, deriv_iff]

theorem all_of_matches_star_cls {p : Char → Bool} {r : Regex} {w : List Char}
    (h : Matches r w) : r = star (cls p) → ∀ c ∈ w, p c = true := by
  induction h with
  | eps => intro hr; cases hr
  | cls _ => intro hr; cases hr
  | altL _ _ => intro hr; cases hr
  | altR _ _ => intro hr; cases hr
  | seq _ _ _ _ => intro hr; cases hr
  | starNil => intro _ c hc; cases hc
  | starCons h₁ _ _ ih₂ =>
    intro hr c hc
    cases hr
    obtain ⟨c', rfl, hp⟩ := matches_cls.1 h₁
    rcases List.mem_append.1 hc with hc | hc
    · rw [List.mem_singleton.1 hc]; exact hp
    · exact ih₂ rfl c hc

theorem matches_star_cls {p : Char → Bool} {w : List Char} :
    Matches (star (cls p)) w ↔ ∀ c ∈ w, p c = true := by
  constructor
  · intro h
    exact all_of_matches_star_cls h rfl
  · intro h
    induction w with
    | nil => exact Matches.starNil
    | cons c cs ih =>
      have h₁ : Matches (cls p) [c] := Matches.cls (h c (List.mem_cons_self _ _))
      have h₂ := ih (fun c' hc' => h c' (List.mem_cons_of_mem _ hc'))
      exact Matches.starCons h₁ h₂

theorem matches_rep_cls {p : Char → Bool} (n : Nat) (w : List Char) :
    Matches (rep n (cls p)) w ↔ w.length = n ∧ ∀ c ∈ w, p c = true := by
  induction n generalizing w with
  | zero =>
    simp only [rep]
    constructor
    · intro h
      cases h
      simp
    · rintro ⟨hl, _⟩
      rw [List.length_eq_zero.1 hl]
      exact Matches.eps
  | succ n ih =>
    simp only [rep, matches_seq, matches_cls, ih]
    constructor
    · rintro ⟨s, t, rfl, ⟨c, rfl, hp⟩, hl, ht⟩
      refine ⟨by simp [hl], ?_⟩
      intro c' hc'
      rcases List.mem_cons.1 hc' with rfl | hc'
      · exact hp
      · exact ht c' hc'
    · rintro ⟨hl, hall⟩
      cases w with
      | nil => simp at hl
      | cons c cs =>
        refine ⟨[c], cs, rfl, ⟨c, rfl, hall c (List.mem_cons_self _ _)⟩, ?_, ?_⟩
        · simpa using hl
        · exact fun c' hc' => hall c' (List.mem_cons_of_mem _ hc')

theorem matches_atLeast_cls {p : Char → Bool} (n : Nat) (w : List Char) :
    Matches (atLeast n (cls p)) w ↔ n ≤ w.length ∧ ∀ c ∈ w, p c = true := by
  simp only [atLeast, matches_seq, matches_rep_cls, matches_star_cls]
  constructor
  · rintro ⟨s, t, rfl, ⟨hl, hs⟩, ht⟩
    refine ⟨by simp [hl], ?_⟩
    intro c hc
    rcases List.mem_append.1 hc with hc | hc
    · exact hs c hc
    · exact ht c hc
  · rintro ⟨hl, hall⟩
    refine ⟨w.take n, w.drop n, (List.take_append_drop n w).symm, ⟨?_, ?_⟩, ?_⟩
    · simp [List.length_take, hl]
    · exact fun c hc => hall c (List.mem_of_mem_take hc)
    · exact fun c hc => hall c (List.mem_of_mem_drop hc)

theorem matches_plus_cls {p : Char → Bool} (w : List Char) :
    Matches (plus (cls p)) w ↔ w ≠ [] ∧ ∀ c ∈ w, p c = true := by
  simp only [plus, matches_seq, matches_cls, matches_star_cls]
  constructor
  · rintro ⟨s, t, rfl, ⟨c, rfl, hp⟩, ht⟩
    refine ⟨by simp, ?_⟩
    intro c' hc'
    rcases List.mem_cons.1 hc' with rfl | hc'
    · exact hp
    · exact ht c' hc'
  · rintro ⟨hne, hall⟩
    cases w with
    | nil => exact absurd rfl hne
    | cons c cs =>
      exact ⟨[c], cs, rfl, ⟨c, rfl, hall c (List.mem_cons_self _ _)⟩,
        fun c' hc' => hall c' (List.mem_cons_of_mem _ hc')⟩

end Regex

/-! ## Profile validator: lemmas -/

theorem isUpperHex_iff (c : Char) : isUpperHex c = true ↔ c ∈ "0123456789ABCDEF".data := by
  constructor
  · intro h
    simp only [isUpperHex, isDigit, Bool.or_eq_true, Bool.and_eq_true, decide_eq_true_eq] at h
    have hc : c = Char.ofNat c.toNat := (Char.ofNat_toNat c).symm
    rw [hc]
    rcases h with ⟨h₁, h₂⟩ | ⟨h₁, h₂⟩
    · have h₁' : 65 ≤ c.toNat := h₁
      have h₂' : c.toNat ≤ 70 := h₂
      interval_cases c.toNat <;> decide
    · have h₁' : 48 ≤ c.toNat := h₁
      have h₂' : c.toNat ≤ 57 := h₂
      interval_cases c.toNat <;> decide
  · revert c
    decide

theorem isValidGPGKey_iff (key : String) :
    isValidGPGKey key = true ↔
      8 ≤ key.length ∧ ∀ c ∈ key.data, c ∈ "0123456789ABCDEF".data := by
  simp only [isValidGPGKey, Regex.MatchString, gpgKeyRegex, Regex.matchList_iff,
    Regex.matches_atLeast_cls, isUpperHex_iff, String.length]

theorem validateEmails_eq_none (emails : List String) :
    validateEmails emails = none ↔ ∀ e ∈ emails, isValidEmail e = true := by
  induction emails with
  | nil => simp [validateEmails]
  | cons e rest ih =>
    by_cases he : isValidEmail e = true
    · simp [validateEmails, he, ih]
    · simp [validateEmails, he]

theorem isValidEmail_iff (email : String) :
    isValidEmail email = true ↔
      ∃ l x t, email.data = l ++ '@' :: (x ++ '.' :: t) ∧
        (l ≠ [] ∧ ∀ c ∈ l, isLocalChar c = true) ∧
        (x ≠ [] ∧ ∀ c ∈ x, isDomainChar c = true) ∧
        (2 ≤ t.length ∧ ∀ c ∈ t, isLetter c = true) := by
  simp only [isValidEmail, Regex.MatchString, emailRegex, Regex.matchList_iff,
    Regex.matches_seq, Regex.matches_plus_cls, Regex.matches_atLeast_cls, Regex.matches_cls]
  constructor
  · rintro ⟨l, _, h, hl, _, _, rfl, ⟨_, rfl, hat⟩, x, _, rfl, hx, _, t, rfl, ⟨_, rfl, hdot⟩, ht⟩
    simp only [beq_iff_eq] at hat hdot
    subst hat hdot
    exact ⟨l, x, t, by simpa using h, hl, hx, ht⟩
  · rintro ⟨l, x, t, h, hl, hx, ht⟩
    exact ⟨l, _, by simpa using h, hl, ['@'], _, rfl, ⟨'@', rfl, by simp⟩, x, _, rfl, hx,
      ['.'], t, rfl, ⟨'.', rfl, by simp⟩, ht⟩

theorem domainLabels_ne_nil (d : List Char) : domainLabels d ≠ [] := by
  cases d with
  | nil => simp [domainLabels]
  | cons c cs =>
    by_cases hc : c = '.'
    · simp [domainLabels, hc]
    · cases h : domainLabels cs <;> simp [domainLabels, hc, h]

theorem domainLabels_chars {P : Char → Prop} (d : List Char)
    (h : ∀ c ∈ d, P c ∨ c = '.') : ∀ lab ∈ domainLabels d, ∀ c ∈ lab, P c := by
  induction d with
  | nil =>
    intro lab hlab c hc
    simp only [domainLabels, List.mem_singleton] at hlab
    rw [hlab] at hc
    cases hc
  | cons a cs ih =>
    have ih' := ih (fun c hc => h c (List.mem_cons_of_mem _ hc))
    intro lab hlab c hc
    by_cases ha : a = '.'
    · simp only [domainLabels, ha, if_true, List.mem_cons] at hlab
      rcases hlab with rfl | hlab
      · cases hc
      · exact ih' lab hlab c hc
    · cases hd : domainLabels cs with
      | nil => exact absurd hd (domainLabels_ne_nil cs)
      | cons l ls =>
        rw [hd] at ih'
        simp only [domainLabels, ha, if_false, hd, List.mem_cons] at hlab
        rcases hlab with rfl | hlab
        · rcases List.mem_cons.1 hc with rfl | hc
          · rcases h c (List.mem_cons_self _ _) with hp | hdot
            · exact hp
            · exact absurd hdot ha
          · exact ih' l (List.mem_cons_self _ _) c hc
        · exact ih' lab (List.mem_cons_of_mem _ hlab) c hc

theorem domainLabels_of_no_dot (t : List Char) (h : ∀ c ∈ t, c ≠ '.') :
    domainLabels t = [t] := by
  induction t with
  | nil => rfl
  | cons c cs ih =>
    have hc : c ≠ '.' := h c (List.mem_cons_self _ _)
    simp [domainLabels, hc, ih (fun c' hc' => h c' (List.mem_cons_of_mem _ hc'))]

theorem domainLabels_append_dot (x t : List Char) :
    domainLabels (x ++ '.' :: t) = domainLabels x ++ domainLabels t := by
  induction x with
  | nil => simp [domainLabels]
  | cons c cs ih =>
    by_cases hc : c = '.'
    · simp [domainLabels, hc, ih]
    · cases hd : domainLabels cs with
      | nil => exact absurd hd (domainLabels_ne_nil cs)
      | cons l ls => simp [domainLabels, hc, ih, hd]

theorem isLetter_ne_dot {c : Char} (h : isLetter c = true) : c ≠ '.' := by
  rintro rfl
  exact absurd h (by decide)

theorem isLetter_alnum {c : Char} (h : isLetter c = true) : isAlnum c = true := by
  simp only [isLetter, Bool.or_eq_true] at h
  simp only [isAlnum, Bool.or_eq_true]
  exact Or.inl h

theorem isDomainChar_cases {c : Char} (h : isDomainChar c = true) :
    (isAlnum c = true ∨ c = '-') ∨ c = '.' := by
  simp only [isDomainChar, Bool.or_eq_true, beq_iff_eq] at h
  simp only [isAlnum, Bool.or_eq_true]
  tauto

/-! ## Profile validator: theorems -/

/-- C4: `Validate` returns no error exactly when the name is non-empty, the
primary email is non-empty and matches the email pattern, every entry of the
emails matches it, and the signing key is empty or has at least 8 characters,
each of them in `0-9` or `A-F`; in every other case it returns an error. -/
theorem validate_ok_iff (p : Profile) :
    (p.Validate = none ↔
      p.Name ≠ "" ∧ p.PrimaryEmail ≠ "" ∧ isValidEmail p.PrimaryEmail = true ∧
      (∀ e ∈ p.Emails, isValidEmail e = true) ∧
      (p.GPGKey = "" ∨
        (8 ≤ p.GPGKey.length ∧ ∀ c ∈ p.GPGKey.data, c ∈ "0123456789ABCDEF".data))) ∧
    (p.Validate ≠ none → ∃ err, p.Validate = some err) := by
  refine ⟨?_, fun h => Option.ne_none_iff_exists'.1 h⟩
  rw [← isValidGPGKey_iff, ← validateEmails_eq_none]
  unfold Profile.Validate
  by_cases h₁ : p.Name = ""
  · simp [h₁]
  by_cases h₂ : p.PrimaryEmail = ""
  · simp [h₁, h₂]
  by_cases h₃ : isValidEmail p.PrimaryEmail = true
  · cases h₄ : validateEmails p.Emails with
    | some err => simp [h₁, h₂, h₃]
    | none =>
      by_cases h₅ : p.GPGKey = ""
      · simp [h₁, h₂, h₃, h₅]
      · by_cases h₆ : isValidGPGKey p.GPGKey = true
        · simp [h₁, h₂, h₃, h₅, h₆]
        · simp [h₁, h₂, h₃, h₅, h₆]
  · simp [h₁, h₂, h₃]

/-- C4 at the profile `work` with the key `ABCDEF12`, which passes, and at the
same profile with the key `abcdef12`, which is rejected. -/
theorem validate_ok_iff_witness :
    Profile.Validate ⟨"work", ["a@x.com"], "a@x.com", "", "ABCDEF12", ""⟩ = none ∧
    Profile.Validate ⟨"work", ["a@x.com"], "a@x.com", "", "abcdef12", ""⟩ =
      some "invalid GPG key format: abcdef12 (expected 8+ hexadecimal characters)" ∧
    (8 ≤ "ABCDEF12".length ∧ ∀ c ∈ "ABCDEF12".data, c ∈ "0123456789ABCDEF".data) :=
  ⟨by decide, by decide,
   (((validate_ok_iff ⟨"work", ["a@x.com"], "a@x.com", "", "ABCDEF12", ""⟩).1.1
      (by decide)).2.2.2.2).resolve_left (by decide)⟩

/-- C5, as amended: an accepted string has the form local-part `@` domain
with a non-empty local part, where every label of the domain consists of
alphanumeric characters and hyphens only, and the last label consists of at
least two letters. -/
theorem isValidEmail_form (email : String) (h : isValidEmail email = true) :
    ∃ l d, email.data = l ++ '@' :: d ∧ l ≠ [] ∧
      (∀ lab ∈ domainLabels d, ∀ c ∈ lab, isAlnum c = true ∨ c = '-') ∧
      ∃ t, (domainLabels d).getLast? = some t ∧ 2 ≤ t.length ∧
        ∀ c ∈ t, isLetter c = true := by
  obtain ⟨l, x, t, he, ⟨hl, _⟩, ⟨_, hx⟩, ⟨ht₂, ht⟩⟩ := (isValidEmail_iff email).1 h
  refine ⟨l, x ++ '.' :: t, he, hl, ?_, t, ?_, ht₂, ht⟩
  · apply domainLabels_chars
    intro c hc
    rcases List.mem_append.1 hc with hc | hc
    · exact isDomainChar_cases (hx c hc)
    · rcases List.mem_cons.1 hc with rfl | hc
      · exact Or.inr rfl
      · exact Or.inl (Or.inl (isLetter_alnum (ht c hc)))
  · rw [domainLabels_append_dot, domainLabels_of_no_dot t (fun c hc => isLetter_ne_dot (ht c hc))]
    simp

/-- C5 at the address `dev@example.com`. -/
theorem isValidEmail_form_witness :
    ∃ l d, "dev@example.com".data = l ++ '@' :: d ∧ l ≠ [] ∧
      (∀ lab ∈ domainLabels d, ∀ c ∈ lab, isAlnum c = true ∨ c = '-') ∧
      ∃ t, (domainLabels d).getLast? = some t ∧ 2 ≤ t.length ∧
        ∀ c ∈ t, isLetter c = true :=
  isValidEmail_form "dev@example.com" (by decide)

/-- C5 as stated fails: `a@b-..com` is accepted, although its domain
`b-..com` has the label `b-`, which is not alphanumeric, and an empty label. -/
theorem isValidEmail_accepts_hyphen_and_empty_label :
    isValidEmail "a@b-..com" = true ∧
    ¬ ∃ l d, "a@b-..com".data = l ++ '@' :: d ∧
        ∀ lab ∈ domainLabels d, lab ≠ [] ∧ ∀ c ∈ lab, isAlnum c = true := by
  refine ⟨by decide, ?_⟩
  rintro ⟨l, d, h, hall⟩
  have h' : ['a', '@', 'b', '-', '.', '.', 'c', 'o', 'm'] = l ++ '@' :: d := h
  match l, h' with
  | [], h' =>
    simp only [List.nil_append, List.cons.injEq] at h'
    exact absurd h'.1 (by decide)
  | [x], h' =>
    simp only [List.cons_append, List.nil_append, List.cons.injEq] at h'
    obtain ⟨_, _, rfl⟩ := h'
    exact absurd (hall [] (by decide)).1 (by simp)
  | x :: y :: l', h' =>
    simp only [List.cons_append, List.cons.injEq] at h'
    have hmem : '@' ∈ ['b', '-', '.', '.', 'c', 'o', 'm'] := by
      rw [h'.2.2]
      simp
    exact absurd hmem (by decide)

/-! ## Store operations: lemmas -/

theorem foldl_keep_profile (name : String) (rules init : List DirectoryRule) :
    rules.foldl (fun updatedRules rule =>
        if rule.Profile ≠ name then updatedRules ++ [rule] else updatedRules) init =
      init ++ rules.filter (fun rule => decide (rule.Profile ≠ name)) := by
  induction rules generalizing init with
  | nil => simp
  | cons r rs ih =>
    rw [List.foldl_cons, ih]
    by_cases h : r.Profile = name <;> simp [h]

theorem foldl_removeEmailStep (email : String) (emails : List String) (st : List String × Bool) :
    emails.foldl (removeEmailStep email) st =
      (st.1 ++ emails.filter (fun e => decide (e ≠ email)),
       st.2 || emails.any (fun e => decide (e = email))) := by
  induction emails generalizing st with
  | nil => simp
  | cons e es ih =>
    rw [List.foldl_cons, ih]
    by_cases h : e = email <;> simp [removeEmailStep, h]

theorem foldl_removeRuleStep (absPath : String) (rules : List DirectoryRule)
    (st : List DirectoryRule × Bool) :
    rules.foldl (removeRuleStep absPath) st =
      (st.1 ++ rules.filter (fun rule => decide (rule.Path ≠ absPath)),
       st.2 || rules.any (fun rule => decide (rule.Path = absPath))) := by
  induction rules generalizing st with
  | nil => simp
  | cons r rs ih =>
    rw [List.foldl_cons, ih]
    by_cases h : r.Path = absPath <;> simp [removeRuleStep, h]

theorem any_eq_iff_mem (x : String) (xs : List String) :
    xs.any (fun e => decide (e = x)) = true ↔ x ∈ xs := by
  simp [List.any_eq_true]

theorem addProfile_eq (c : Config) (profile : Profile) (hv : profile.Validate = none) :
    c.AddProfile profile =
      ({ c with Profiles := (c.Profiles.set profile.Name
          (if profile.PrimaryEmail ∈ profile.Emails then profile
           else { profile with Emails := profile.PrimaryEmail :: profile.Emails })) }, none) := by
  unfold Config.AddProfile
  rw [hv]
  by_cases h : profile.PrimaryEmail ∈ profile.Emails
  · have h' := (any_eq_iff_mem profile.PrimaryEmail profile.Emails).2 h
    simp [h, h']
  · have h' : profile.Emails.any (fun e => decide (e = profile.PrimaryEmail)) = false := by
      rw [← Bool.not_eq_true, any_eq_iff_mem]
      exact h
    simp [h, h']

theorem addProfile_fails (c : Config) (profile : Profile) (err : String)
    (hv : profile.Validate = some err) : c.AddProfile profile = (c, some err) := by
  unfold Config.AddProfile
  rw [hv]

theorem updateRule_eq_none (absPath profileName : String) (rules : List DirectoryRule) :
    updateRule absPath profileName rules = none ↔ absPath ∉ rulePaths rules := by
  induction rules with
  | nil => simp [updateRule, rulePaths]
  | cons r rs ih =>
    by_cases h : r.Path = absPath
    · simp [updateRule, rulePaths, h]
    · have h' : ¬ absPath = r.Path := fun e => h e.symm
      simp only [rulePaths] at ih
      simp [updateRule, rulePaths, h, h', ih]

theorem updateRule_some_paths {absPath profileName : String} {rules rules' : List DirectoryRule}
    (h : updateRule absPath profileName rules = some rules') :
    rulePaths rules' = rulePaths rules := by
  induction rules generalizing rules' with
  | nil => simp [updateRule] at h
  | cons r rs ih =>
    by_cases hr : r.Path = absPath
    · simp only [updateRule, hr, if_true, Option.some.injEq] at h
      rw [← h]
      simp [rulePaths, hr]
    · simp only [updateRule, hr, if_false, Option.map_eq_some'] at h
      obtain ⟨rs', hrs', rfl⟩ := h
      have := ih hrs'
      simp only [rulePaths] at this
      simp [rulePaths, this]

theorem updateRule_some_mem {absPath profileName : String} {rules rules' : List DirectoryRule}
    (h : updateRule absPath profileName rules = some rules') :
    ∀ r ∈ rules', r ∈ rules ∨ r.Profile = profileName := by
  induction rules generalizing rules' with
  | nil => simp [updateRule] at h
  | cons r rs ih =>
    by_cases hr : r.Path = absPath
    · simp only [updateRule, hr, if_true, Option.some.injEq] at h
      rw [← h]
      intro x hx
      rcases List.mem_cons.1 hx with rfl | hx
      · exact Or.inr rfl
      · exact Or.inl (List.mem_cons_of_mem _ hx)
    · simp only [updateRule, hr, if_false, Option.map_eq_some'] at h
      obtain ⟨rs', hrs', rfl⟩ := h
      intro x hx
      rcases List.mem_cons.1 hx with rfl | hx
      · exact Or.inl (List.mem_cons_self _ _)
      · rcases ih hrs' x hx with h' | h'
        · exact Or.inl (List.mem_cons_of_mem _ h')
        · exact Or.inr h'

theorem updateRule_some_of_nodup {absPath profileName : String}
    {rules rules' : List DirectoryRule} (hnodup : (rulePaths rules).Nodup)
    (h : updateRule absPath profileName rules = some rules') :
    rules' = rules.map (fun r =>
      if r.Path = absPath then { r with Profile := profileName } else r) := by
  induction rules generalizing rules' with
  | nil => simp [updateRule] at h
  | cons r rs ih =>
    simp only [rulePaths, List.map_cons, List.nodup_cons] at hnodup
    by_cases hr : r.Path = absPath
    · simp only [updateRule, hr, if_true, Option.some.injEq] at h
      rw [← h]
      have hrest : rs.map (fun r =>
          if r.Path = absPath then { r with Profile := profileName } else r) = rs := by
        conv_rhs => rw [← List.map_id rs]
        apply List.map_congr_left
        intro x hx
        have hx' : x.Path ≠ absPath := by
          intro e
          apply hnodup.1
          rw [hr, ← e]
          exact List.mem_map_of_mem _ hx
        simp [hx']
      simp [hr, hrest]
    · simp only [updateRule, hr, if_false, Option.map_eq_some'] at h
      obtain ⟨rs', hrs', rfl⟩ := h
      rw [ih hnodup.2 hrs']
      simp [hr]

theorem RemoveProfile_eq (c : Config) (name : String) (p : Profile)
    (h : c.Profiles.get name = some p) :
    c.RemoveProfile name =
      ({ Profiles := c.Profiles.delete name,
         DirectoryRules := c.DirectoryRules.filter (fun rule => decide (rule.Profile ≠ name)),
         CurrentProfile := if c.CurrentProfile = name then "" else c.CurrentProfile }, none) := by
  unfold Config.RemoveProfile
  rw [h]
  simp only [foldl_keep_profile, List.nil_append]

theorem RemoveProfile_fails (c : Config) (name : String) (h : c.Profiles.get name = none) :
    (c.RemoveProfile name).1 = c := by
  unfold Config.RemoveProfile
  rw [h]

theorem addEmail_cases (c : Config) (profileName email : String) :
    (c.AddEmail profileName email).1 = c ∨
    ∃ profile, c.Profiles.get profileName = some profile ∧
      c.AddEmail profileName email =
        ({ c with Profiles := (c.Profiles.set profileName
            { profile with Emails := profile.Emails ++ [email] }) }, none) := by
  unfold Config.AddEmail Config.GetProfile
  cases hg : c.Profiles.get profileName with
  | none => exact Or.inl rfl
  | some profile =>
    by_cases hv : isValidEmail email = true
    · by_cases hd : profile.Emails.any (fun e => decide (e = email)) = true
      · left; simp [hv, hd]
      · right
        exact ⟨profile, rfl, by simp [hv, hd]⟩
    · left; simp [hv]

theorem removeEmail_cases (c : Config) (profileName email : String) :
    (c.RemoveEmail profileName email).1 = c ∨
    ∃ profile, c.Profiles.get profileName = some profile ∧ email ≠ profile.PrimaryEmail ∧
      c.RemoveEmail profileName email =
        ({ c with Profiles := (c.Profiles.set profileName
            { profile with Emails := profile.Emails.filter (fun e => decide (e ≠ email)) }) },
          none) := by
  unfold Config.RemoveEmail Config.GetProfile
  cases hg : c.Profiles.get profileName with
  | none => exact Or.inl rfl
  | some profile =>
    by_cases hp : email = profile.PrimaryEmail
    · left; simp [hp]
    · by_cases hd : profile.Emails.any (fun e => decide (e = email)) = true
      · right
        refine ⟨profile, rfl, hp, ?_⟩
        simp only [hp, if_false, foldl_removeEmailStep, List.nil_append, Bool.false_or, hd,
          Bool.not_true, Bool.false_eq_true]
      · left
        simp only [hp, if_false, foldl_removeEmailStep, List.nil_append, Bool.false_or, hd,
          Bool.not_false, if_true]

theorem addDirectoryRule_cases (c : Config) (Abs : String → Except String String)
    (path profileName : String) :
    (c.AddDirectoryRule Abs path profileName).1 = c ∨
    ∃ absPath, Abs path = .ok absPath ∧ (c.Profiles.get profileName).isSome = true ∧
      ((∃ rules, updateRule absPath profileName c.DirectoryRules = some rules ∧
          c.AddDirectoryRule Abs path profileName = ({ c with DirectoryRules := rules }, none)) ∨
       (updateRule absPath profileName c.DirectoryRules = none ∧
          c.AddDirectoryRule Abs path profileName =
            ({ c with DirectoryRules :=
                c.DirectoryRules ++ [{ Path := absPath, Profile := profileName }] }, none))) := by
  cases hg : c.Profiles.get profileName with
  | none => left; simp [Config.AddDirectoryRule, Config.GetProfile, hg]
  | some profile =>
    cases ha : Abs path with
    | error err => left; simp [Config.AddDirectoryRule, Config.GetProfile, hg, ha]
    | ok absPath =>
      right
      refine ⟨absPath, rfl, rfl, ?_⟩
      cases hu : updateRule absPath profileName c.DirectoryRules with
      | none =>
        exact Or.inr ⟨rfl, by simp [Config.AddDirectoryRule, Config.GetProfile, hg, ha, hu]⟩
      | some rules =>
        exact Or.inl ⟨rules, rfl,
          by simp [Config.AddDirectoryRule, Config.GetProfile, hg, ha, hu]⟩

theorem removeDirectoryRule_cases (c : Config) (Abs : String → Except String String)
    (path : String) :
    (c.RemoveDirectoryRule Abs path).1 = c ∨
    ∃ absPath, (c.RemoveDirectoryRule Abs path).1 =
      { c with DirectoryRules :=
          c.DirectoryRules.filter (fun rule => decide (rule.Path ≠ absPath)) } := by
  unfold Config.RemoveDirectoryRule
  cases ha : Abs path with
  | error err => exact Or.inl rfl
  | ok absPath =>
    by_cases hd : c.DirectoryRules.any (fun rule => decide (rule.Path = absPath)) = true
    · right
      refine ⟨absPath, ?_⟩
      simp only [foldl_removeRuleStep, List.nil_append, Bool.false_or, hd, Bool.not_true,
        Bool.false_eq_true, if_false]
    · left
      simp only [foldl_removeRuleStep, List.nil_append, Bool.false_or, hd, Bool.not_false,
        if_true]

theorem primaryListed_set {c : Config} (h : c.PrimaryListed) (k : String) (v : Profile)
    (hv : v.PrimaryEmail ∈ v.Emails) :
    Config.PrimaryListed { c with Profiles := c.Profiles.set k v } := by
  intro name p hp
  simp only [GoMap.get_set] at hp
  by_cases hk : name = k
  · simp only [hk, if_true, Option.some.injEq] at hp
    rw [← hp]; exact hv
  · simp only [hk, if_false] at hp
    exact h name p hp

theorem refsOk_of_keys {c c' : Config}
    (hkeys : ∀ k, (c.Profiles.get k).isSome = true → (c'.Profiles.get k).isSome = true)
    (hrules : ∀ r ∈ c'.DirectoryRules, r ∈ c.DirectoryRules)
    (hcur : c'.CurrentProfile = c.CurrentProfile) (h : c.RefsOk) : c'.RefsOk := by
  refine ⟨fun r hr => hkeys _ (h.1 r (hrules r hr)), ?_⟩
  rw [hcur]
  exact fun hne => hkeys _ (h.2 hne)

theorem isSome_get_set {β : Type} (m : GoMap β) (k k' : String) (v : β)
    (h : (GoMap.get m k').isSome = true) : (GoMap.get (GoMap.set m k v) k').isSome = true := by
  rw [GoMap.get_set]
  by_cases hk : k' = k
  · simp [hk]
  · simpa [hk] using h

/-! ## Store operations: theorems -/

/-- C6: for a profile that passes validation, `AddProfile` succeeds; when the
primary email is not among the emails, the profile stored under its name has
the primary email followed by the original emails, and when it is among them
the profile is stored with its emails unchanged. -/
theorem addProfile_restores_primary (c : Config) (profile : Profile)
    (hv : profile.Validate = none) :
    (profile.PrimaryEmail ∉ profile.Emails →
      (c.AddProfile profile).2 = none ∧
      (c.AddProfile profile).1.Profiles.get profile.Name =
        some { profile with Emails := profile.PrimaryEmail :: profile.Emails }) ∧
    (profile.PrimaryEmail ∈ profile.Emails →
      (c.AddProfile profile).2 = none ∧
      (c.AddProfile profile).1.Profiles.get profile.Name = some profile) := by
  rw [addProfile_eq c profile hv]
  constructor
  · intro h
    simp [h, GoMap.get_set]
  · intro h
    simp [h, GoMap.get_set]

/-- C6 at an empty store and the profile `work` with primary email `a@x.com`
and the emails `[b@x.com]`. -/
theorem addProfile_restores_primary_witness :
    (Config.mk [] [] "").AddProfile ⟨"work", ["b@x.com"], "a@x.com", "", "", ""⟩ =
      (Config.mk [("work", ⟨"work", ["a@x.com", "b@x.com"], "a@x.com", "", "", ""⟩)] [] "",
        none) ∧
    (("a@x.com" ∉ ["b@x.com"] →
      ((Config.mk [] [] "").AddProfile ⟨"work", ["b@x.com"], "a@x.com", "", "", ""⟩).2 = none ∧
      ((Config.mk [] [] "").AddProfile
          ⟨"work", ["b@x.com"], "a@x.com", "", "", ""⟩).1.Profiles.get "work" =
        some ⟨"work", ["a@x.com", "b@x.com"], "a@x.com", "", "", ""⟩) ∧
    ("a@x.com" ∈ ["b@x.com"] →
      ((Config.mk [] [] "").AddProfile ⟨"work", ["b@x.com"], "a@x.com", "", "", ""⟩).2 = none ∧
      ((Config.mk [] [] "").AddProfile
          ⟨"work", ["b@x.com"], "a@x.com", "", "", ""⟩).1.Profiles.get "work" =
        some ⟨"work", ["b@x.com"], "a@x.com", "", "", ""⟩)) :=
  ⟨by decide,
   addProfile_restores_primary (Config.mk [] [] "")
    ⟨"work", ["b@x.com"], "a@x.com", "", "", ""⟩ (by decide)⟩

/-- C7: if every stored profile lists its primary email among its emails
before a call to `AddProfile`, `AddEmail`, `RemoveEmail`, `RemoveProfile`,
`AddDirectoryRule` or `RemoveDirectoryRule`, the same holds of the store after
the call, whether or not the call returned an error; and a successful
`AddProfile` stores under the profile's name a profile that lists its primary
email. -/
theorem primaryListed_preserved (c : Config) (Abs : String → Except String String)
    (h : c.PrimaryListed) :
    (∀ profile, (c.AddProfile profile).1.PrimaryListed) ∧
    (∀ profile, (c.AddProfile profile).2 = none →
      ∃ p, (c.AddProfile profile).1.Profiles.get profile.Name = some p ∧
        p.PrimaryEmail ∈ p.Emails) ∧
    (∀ profileName email, (c.AddEmail profileName email).1.PrimaryListed) ∧
    (∀ profileName email, (c.RemoveEmail profileName email).1.PrimaryListed) ∧
    (∀ name, (c.RemoveProfile name).1.PrimaryListed) ∧
    (∀ path profileName, (c.AddDirectoryRule Abs path profileName).1.PrimaryListed) ∧
    (∀ path, (c.RemoveDirectoryRule Abs path).1.PrimaryListed) := by
  have hadd : ∀ profile : Profile,
      (if profile.PrimaryEmail ∈ profile.Emails then profile
        else { profile with Emails := profile.PrimaryEmail :: profile.Emails }).PrimaryEmail ∈
      (if profile.PrimaryEmail ∈ profile.Emails then profile
        else { profile with Emails := profile.PrimaryEmail :: profile.Emails }).Emails := by
    intro profile
    by_cases hm : profile.PrimaryEmail ∈ profile.Emails
    · simp [hm]
    · simp [hm]
  refine ⟨?_, ?_, ?_, ?_, ?_, ?_, ?_⟩
  · intro profile
    cases hv : profile.Validate with
    | some err => rw [addProfile_fails c profile err hv]; exact h
    | none =>
      rw [addProfile_eq c profile hv]
      exact primaryListed_set h _ _ (hadd profile)
  · intro profile hok
    cases hv : profile.Validate with
    | some err =>
      rw [addProfile_fails c profile err hv] at hok
      cases hok
    | none =>
      rw [addProfile_eq c profile hv]
      exact ⟨_, by simp [GoMap.get_set], hadd profile⟩
  · intro profileName email
    rcases addEmail_cases c profileName email with he | ⟨profile, hg, he⟩
    · rw [he]; exact h
    · rw [he]
      apply primaryListed_set h
      exact List.mem_append_left _ (h profileName profile hg)
  · intro profileName email
    rcases removeEmail_cases c profileName email with he | ⟨profile, hg, hne, he⟩
    · rw [he]; exact h
    · rw [he]
      apply primaryListed_set h
      simp only [List.mem_filter, decide_eq_true_eq]
      exact ⟨h profileName profile hg, fun e => hne e.symm⟩
  · intro name
    cases hg : c.Profiles.get name with
    | none => rw [RemoveProfile_fails c name hg]; exact h
    | some p =>
      rw [RemoveProfile_eq c name p hg]
      intro k q hq
      simp only [GoMap.get_delete] at hq
      by_cases hk : k = name
      · simp [hk] at hq
      · simp only [hk, if_false] at hq
        exact h k q hq
  · intro path profileName
    rcases addDirectoryRule_cases c Abs path profileName with
      he | ⟨absPath, _, _, ⟨rules, _, he⟩ | ⟨_, he⟩⟩
    · rw [he]; exact h
    · rw [he]; exact h
    · rw [he]; exact h
  · intro path
    rcases removeDirectoryRule_cases c Abs path with he | ⟨absPath, he⟩
    · rw [he]; exact h
    · rw [he]; exact h

theorem sampleStore_primaryListed : sampleStore.PrimaryListed := by
  intro name p hp
  simp only [sampleStore, GoMap.get] at hp
  split at hp
  · cases hp
    decide
  · cases hp

theorem sampleStore_refsOk : sampleStore.RefsOk := by
  refine ⟨?_, fun _ => by decide⟩
  decide

/-- C7 at the store `sampleStore`: adding `b@x.com` to `work`, and removing the
profile `work`, keep the primary email listed. -/
theorem primaryListed_preserved_witness :
    sampleStore.PrimaryListed ∧
    (sampleStore.AddEmail "work" "b@x.com").1.PrimaryListed ∧
    (sampleStore.RemoveProfile "work").1.PrimaryListed :=
  ⟨sampleStore_primaryListed,
   (primaryListed_preserved sampleStore absOfClean sampleStore_primaryListed).2.2.1
     "work" "b@x.com",
   (primaryListed_preserved sampleStore absOfClean sampleStore_primaryListed).2.2.2.2.1
     "work"⟩

/-- C8: for a name that is a key of the profiles, `RemoveProfile(name)`
succeeds; afterwards the name is no longer a key, every other key has the
profile it had, the rules are the original rules without those whose profile
is the name, in their original order, and the current profile is empty if it
was the name and unchanged otherwise. -/
theorem removeProfile_cascade (c : Config) (name : String)
    (h : (c.Profiles.get name).isSome = true) :
    (c.RemoveProfile name).2 = none ∧
    (c.RemoveProfile name).1.Profiles.get name = none ∧
    (∀ other, other ≠ name →
      (c.RemoveProfile name).1.Profiles.get other = c.Profiles.get other) ∧
    (c.RemoveProfile name).1.DirectoryRules =
      c.DirectoryRules.filter (fun rule => decide (rule.Profile ≠ name)) ∧
    (c.RemoveProfile name).1.CurrentProfile =
      (if c.CurrentProfile = name then "" else c.CurrentProfile) := by
  obtain ⟨p, hp⟩ := Option.isSome_iff_exists.1 h
  rw [RemoveProfile_eq c name p hp]
  refine ⟨rfl, ?_, ?_, rfl, rfl⟩
  · simp [GoMap.get_delete]
  · intro other hne
    simp [GoMap.get_delete, hne]

/-- C8 at the store `sampleStore` and the name `work`. -/
theorem removeProfile_cascade_witness :
    sampleStore.RemoveProfile "work" = (Config.mk [] [] "", none) ∧
    (sampleStore.RemoveProfile "work").2 = none ∧
    (sampleStore.RemoveProfile "work").1.Profiles.get "work" = none ∧
    (∀ other, other ≠ "work" →
      (sampleStore.RemoveProfile "work").1.Profiles.get other =
        sampleStore.Profiles.get other) ∧
    (sampleStore.RemoveProfile "work").1.DirectoryRules =
      sampleStore.DirectoryRules.filter (fun rule => decide (rule.Profile ≠ "work")) ∧
    (sampleStore.RemoveProfile "work").1.CurrentProfile =
      (if sampleStore.CurrentProfile = "work" then "" else sampleStore.CurrentProfile) :=
  ⟨by decide, removeProfile_cascade sampleStore "work" (by decide)⟩

/-- C9: if every rule's profile, and the current profile when it is non-empty,
is a key of the profiles before a call to `AddProfile`, `RemoveProfile`,
`AddEmail`, `RemoveEmail`, `AddDirectoryRule` or `RemoveDirectoryRule`, the
same holds of the store after the call. -/
theorem refsOk_preserved (c : Config) (Abs : String → Except String String)
    (h : c.RefsOk) :
    (∀ profile, (c.AddProfile profile).1.RefsOk) ∧
    (∀ name, (c.RemoveProfile name).1.RefsOk) ∧
    (∀ profileName email, (c.AddEmail profileName email).1.RefsOk) ∧
    (∀ profileName email, (c.RemoveEmail profileName email).1.RefsOk) ∧
    (∀ path profileName, (c.AddDirectoryRule Abs path profileName).1.RefsOk) ∧
    (∀ path, (c.RemoveDirectoryRule Abs path).1.RefsOk) := by
  refine ⟨?_, ?_, ?_, ?_, ?_, ?_⟩
  · intro profile
    cases hv : profile.Validate with
    | some err => rw [addProfile_fails c profile err hv]; exact h
    | none =>
      rw [addProfile_eq c profile hv]
      exact refsOk_of_keys (fun k hk => isSome_get_set _ _ _ _ hk) (fun _ hr => hr) rfl h
  · intro name
    cases hg : c.Profiles.get name with
    | none => rw [RemoveProfile_fails c name hg]; exact h
    | some p =>
      rw [RemoveProfile_eq c name p hg]
      constructor
      · intro r hr
        simp only [List.mem_filter, decide_eq_true_eq] at hr
        simp only [GoMap.get_delete, hr.2, if_false]
        exact h.1 r hr.1
      · intro hne
        by_cases hc : c.CurrentProfile = name
        · simp [hc] at hne
        · simp only [hc, if_false] at hne ⊢
          simp only [GoMap.get_delete, hc, if_false]
          exact h.2 hne
  · intro profileName email
    rcases addEmail_cases c profileName email with he | ⟨profile, _, he⟩
    · rw [he]; exact h
    · rw [he]
      exact refsOk_of_keys (fun k hk => isSome_get_set _ _ _ _ hk) (fun _ hr => hr) rfl h
  · intro profileName email
    rcases removeEmail_cases c profileName email with he | ⟨profile, _, _, he⟩
    · rw [he]; exact h
    · rw [he]
      exact refsOk_of_keys (fun k hk => isSome_get_set _ _ _ _ hk) (fun _ hr => hr) rfl h
  · intro path profileName
    rcases addDirectoryRule_cases c Abs path profileName with
      he | ⟨absPath, _, hsome, ⟨rules, hu, he⟩ | ⟨_, he⟩⟩
    · rw [he]; exact h
    · rw [he]
      refine ⟨?_, h.2⟩
      intro r hr
      rcases updateRule_some_mem hu r hr with hmem | hprof
      · exact h.1 r hmem
      · simp only [hprof]; exact hsome
    · rw [he]
      refine ⟨?_, h.2⟩
      intro r hr
      rcases List.mem_append.1 hr with hmem | hnew
      · exact h.1 r hmem
      · rw [List.mem_singleton.1 hnew]; exact hsome
  · intro path
    rcases removeDirectoryRule_cases c Abs path with he | ⟨absPath, he⟩
    · rw [he]; exact h
    · rw [he]
      exact @refsOk_of_keys c _ (fun _ hk => hk) (fun r hr => (List.mem_filter.1 hr).1) rfl h

/-- C9 at the store `sampleStore`: removing the profile `work`, and removing
the rule at `/home/u/work`, keep the references valid. -/
theorem refsOk_preserved_witness :
    sampleStore.RefsOk ∧
    (sampleStore.RemoveProfile "work").1.RefsOk ∧
    (sampleStore.RemoveDirectoryRule absOfClean "/home/u/work").1.RefsOk :=
  ⟨sampleStore_refsOk,
   (refsOk_preserved sampleStore absOfClean sampleStore_refsOk).2.1 "work",
   (refsOk_preserved sampleStore absOfClean sampleStore_refsOk).2.2.2.2.2 "/home/u/work"⟩

/-- C10: on a store whose rule paths are pairwise distinct, for an absolute
clean path and an existing profile name, `AddDirectoryRule` succeeds and the
rule paths stay pairwise distinct; if a rule with that path existed, the
number of rules is unchanged and the rules are the original ones with only
that rule's profile replaced, and otherwise the rules are the original ones
followed by the new rule. -/
theorem addDirectoryRule_unique_paths (c : Config) (Abs : String → Except String String)
    (path profileName : String)
    (hnodup : (rulePaths c.DirectoryRules).Nodup)
    (hq : Abs path = .ok path)
    (hp : (c.Profiles.get profileName).isSome = true) :
    (c.AddDirectoryRule Abs path profileName).2 = none ∧
    (rulePaths (c.AddDirectoryRule Abs path profileName).1.DirectoryRules).Nodup ∧
    (path ∈ rulePaths c.DirectoryRules →
      (c.AddDirectoryRule Abs path profileName).1.DirectoryRules.length =
        c.DirectoryRules.length ∧
      (c.AddDirectoryRule Abs path profileName).1.DirectoryRules =
        c.DirectoryRules.map (fun r =>
          if r.Path = path then { r with Profile := profileName } else r)) ∧
    (path ∉ rulePaths c.DirectoryRules →
      (c.AddDirectoryRule Abs path profileName).1.DirectoryRules =
        c.DirectoryRules ++ [{ Path := path, Profile := profileName }]) := by
  obtain ⟨p, hg⟩ := Option.isSome_iff_exists.1 hp
  cases hu : updateRule path profileName c.DirectoryRules with
  | some rules =>
    have he : c.AddDirectoryRule Abs path profileName =
        ({ c with DirectoryRules := rules }, none) := by
      simp [Config.AddDirectoryRule, Config.GetProfile, hg, hq, hu]
    have hmem : path ∈ rulePaths c.DirectoryRules := by
      by_contra hn
      rw [(updateRule_eq_none path profileName c.DirectoryRules).2 hn] at hu
      cases hu
    rw [he]
    refine ⟨rfl, ?_, fun _ => ⟨?_, updateRule_some_of_nodup hnodup hu⟩, fun hn => absurd hmem hn⟩
    · simp only [updateRule_some_paths hu]; exact hnodup
    · simp only [updateRule_some_of_nodup hnodup hu, List.length_map]
  | none =>
    have he : c.AddDirectoryRule Abs path profileName =
        ({ c with DirectoryRules :=
            c.DirectoryRules ++ [{ Path := path, Profile := profileName }] }, none) := by
      simp [Config.AddDirectoryRule, Config.GetProfile, hg, hq, hu]
    have hmem : path ∉ rulePaths c.DirectoryRules :=
      (updateRule_eq_none path profileName c.DirectoryRules).1 hu
    rw [he]
    refine ⟨rfl, ?_, fun hin => absurd hin hmem, fun _ => rfl⟩
    simp only [rulePaths, List.map_append, List.map_cons, List.map_nil]
    rw [List.nodup_append]
    refine ⟨hnodup, List.nodup_singleton _, ?_⟩
    intro a ha hb
    rw [List.mem_singleton] at hb
    exact hmem (hb ▸ ha)

/-- C10 at the store `sampleStore`: re-pointing the rule at `/home/u/work`, the
path being already present. -/
theorem addDirectoryRule_unique_paths_witness :
    (sampleStore.AddDirectoryRule absOfClean "/home/u/work" "work").2 = none ∧
    (rulePaths
      (sampleStore.AddDirectoryRule absOfClean "/home/u/work" "work").1.DirectoryRules).Nodup ∧
    ("/home/u/work" ∈ rulePaths sampleStore.DirectoryRules →
      (sampleStore.AddDirectoryRule absOfClean "/home/u/work" "work").1.DirectoryRules.length =
        sampleStore.DirectoryRules.length ∧
      (sampleStore.AddDirectoryRule absOfClean "/home/u/work" "work").1.DirectoryRules =
        sampleStore.DirectoryRules.map (fun r =>
          if r.Path = "/home/u/work" then { r with Profile := "work" } else r)) ∧
    ("/home/u/work" ∉ rulePaths sampleStore.DirectoryRules →
      (sampleStore.AddDirectoryRule absOfClean "/home/u/work" "work").1.DirectoryRules =
        sampleStore.DirectoryRules ++ [{ Path := "/home/u/work", Profile := "work" }]) :=
  addDirectoryRule_unique_paths sampleStore absOfClean "/home/u/work" "work"
    (by decide) rfl (by decide)

/-! ## Email operations and failure atomicity -/

theorem addEmail_spec (c : Config) (profileName email : String) :
    (∃ profile, c.Profiles.get profileName = some profile ∧ isValidEmail email = true ∧
        email ∉ profile.Emails ∧
        c.AddEmail profileName email =
          ({ c with Profiles := (c.Profiles.set profileName
              { profile with Emails := profile.Emails ++ [email] }) }, none)) ∨
    ((¬ ∃ profile, c.Profiles.get profileName = some profile ∧ isValidEmail email = true ∧
        email ∉ profile.Emails) ∧
      ∃ err, c.AddEmail profileName email = (c, some err)) := by
  unfold Config.AddEmail Config.GetProfile
  cases hg : c.Profiles.get profileName with
  | none =>
    right
    exact ⟨by simp, _, rfl⟩
  | some profile =>
    by_cases hv : isValidEmail email = true
    · by_cases hd : profile.Emails.any (fun e => decide (e = email)) = true
      · right
        have hmem := (any_eq_iff_mem email profile.Emails).1 hd
        refine ⟨by simp [hmem], _, by simp [hv, hd]; rfl⟩
      · left
        have hmem : email ∉ profile.Emails := fun h => hd ((any_eq_iff_mem _ _).2 h)
        exact ⟨profile, rfl, hv, hmem, by simp [hv, hd]⟩
    · right
      refine ⟨by simp [hv], _, by simp [hv]; rfl⟩

theorem removeEmail_spec (c : Config) (profileName email : String) :
    (∃ profile, c.Profiles.get profileName = some profile ∧ email ≠ profile.PrimaryEmail ∧
        email ∈ profile.Emails ∧
        c.RemoveEmail profileName email =
          ({ c with Profiles := (c.Profiles.set profileName
              { profile with
                Emails := profile.Emails.filter (fun e => decide (e ≠ email)) }) }, none)) ∨
    ((¬ ∃ profile, c.Profiles.get profileName = some profile ∧ email ≠ profile.PrimaryEmail ∧
        email ∈ profile.Emails) ∧
      ∃ err, c.RemoveEmail profileName email = (c, some err)) := by
  unfold Config.RemoveEmail Config.GetProfile
  cases hg : c.Profiles.get profileName with
  | none =>
    right
    exact ⟨by simp, _, rfl⟩
  | some profile =>
    by_cases hp : email = profile.PrimaryEmail
    · right
      refine ⟨by simp [hp], _, by simp [hp]; rfl⟩
    · by_cases hd : profile.Emails.any (fun e => decide (e = email)) = true
      · left
        have hmem := (any_eq_iff_mem email profile.Emails).1 hd
        refine ⟨profile, rfl, hp, hmem, ?_⟩
        simp only [hp, if_false, foldl_removeEmailStep, List.nil_append, Bool.false_or, hd,
          Bool.not_true, Bool.false_eq_true]
      · right
        have hmem : email ∉ profile.Emails := fun h => hd ((any_eq_iff_mem _ _).2 h)
        refine ⟨by simp [hmem],
          "email '" ++ email ++ "' not found in profile '" ++ profileName ++ "'", ?_⟩
        simp only [hp, if_false, foldl_removeEmailStep, List.nil_append, Bool.false_or, hd,
          Bool.not_false, if_true]

theorem removeDirectoryRule_fails (c : Config) (Abs : String → Except String String)
    (path : String) (h : (c.RemoveDirectoryRule Abs path).2 ≠ none) :
    (c.RemoveDirectoryRule Abs path).1 = c := by
  unfold Config.RemoveDirectoryRule at h ⊢
  cases ha : Abs path with
  | error err => rfl
  | ok absPath =>
    rw [ha] at h
    by_cases hd : c.DirectoryRules.any (fun rule => decide (rule.Path = absPath)) = true
    · simp [foldl_removeRuleStep, hd] at h
    · simp [foldl_removeRuleStep, hd]

/-- C11: `AddEmail(profileName, email)` succeeds exactly when `profileName` is
a key of the profiles, `email` matches the email pattern and `email` is not
among that profile's emails; on success the profile under that key is the
original one with `email` appended to its emails, every other key, the rules
and the current profile are unchanged. -/
theorem addEmail_iff (c : Config) (profileName email : String) :
    ((c.AddEmail profileName email).2 = none ↔
      ∃ profile, c.Profiles.get profileName = some profile ∧ isValidEmail email = true ∧
        email ∉ profile.Emails) ∧
    ((c.AddEmail profileName email).2 = none →
      ∃ profile, c.Profiles.get profileName = some profile ∧
        (c.AddEmail profileName email).1.Profiles.get profileName =
          some { profile with Emails := profile.Emails ++ [email] } ∧
        (∀ other, other ≠ profileName →
          (c.AddEmail profileName email).1.Profiles.get other = c.Profiles.get other) ∧
        (c.AddEmail profileName email).1.DirectoryRules = c.DirectoryRules ∧
        (c.AddEmail profileName email).1.CurrentProfile = c.CurrentProfile) := by
  rcases addEmail_spec c profileName email with
    ⟨profile, hg, hv, hmem, he⟩ | ⟨hno, err, he⟩
  · rw [he]
    refine ⟨⟨fun _ => ⟨profile, hg, hv, hmem⟩, fun _ => rfl⟩, fun _ => ⟨profile, hg, ?_, ?_, rfl, rfl⟩⟩
    · simp [GoMap.get_set]
    · intro other hne
      simp [GoMap.get_set, hne]
  · rw [he]
    refine ⟨⟨fun h => ?_, fun h => absurd h hno⟩, fun h => ?_⟩
    · cases h
    · cases h

/-- C11 at the store `sampleStore`: adding `b@x.com` to `work` turns the emails
`[a@x.com]` into `[a@x.com, b@x.com]`. -/
theorem addEmail_iff_witness :
    ((sampleStore.AddEmail "work" "b@x.com").1.Profiles.get "work" =
      some ⟨"work", ["a@x.com", "b@x.com"], "a@x.com", "", "", ""⟩) ∧
    ((sampleStore.AddEmail "work" "b@x.com").2 = none ↔
      ∃ profile, sampleStore.Profiles.get "work" = some profile ∧
        isValidEmail "b@x.com" = true ∧ "b@x.com" ∉ profile.Emails) :=
  ⟨by decide, (addEmail_iff sampleStore "work" "b@x.com").1⟩

/-- C12: `RemoveEmail(profileName, email)` returns an error and leaves the
store as it was whenever `email` is the profile's primary email; it succeeds
exactly when the profile exists, `email` differs from the primary email and
`email` is among the emails; on success the profile's emails are the original
ones without the entries equal to `email`, in their original order. -/
theorem removeEmail_iff (c : Config) (profileName email : String) :
    (∀ profile, c.Profiles.get profileName = some profile → email = profile.PrimaryEmail →
      ∃ err, c.RemoveEmail profileName email = (c, some err)) ∧
    ((c.RemoveEmail profileName email).2 = none ↔
      ∃ profile, c.Profiles.get profileName = some profile ∧ email ≠ profile.PrimaryEmail ∧
        email ∈ profile.Emails) ∧
    ((c.RemoveEmail profileName email).2 = none →
      ∃ profile, c.Profiles.get profileName = some profile ∧
        (c.RemoveEmail profileName email).1.Profiles.get profileName =
          some { profile with
            Emails := profile.Emails.filter (fun e => decide (e ≠ email)) }) := by
  rcases removeEmail_spec c profileName email with
    ⟨profile, hg, hp, hmem, he⟩ | ⟨hno, err, he⟩
  · rw [he]
    refine ⟨?_, ⟨fun _ => ⟨profile, hg, hp, hmem⟩, fun _ => rfl⟩, fun _ => ⟨profile, hg, ?_⟩⟩
    · intro p hgp hprim
      rw [hg] at hgp
      cases hgp
      exact absurd hprim hp
    · simp [GoMap.get_set]
  · rw [he]
    refine ⟨fun _ _ _ => ⟨err, rfl⟩, ⟨fun h => ?_, fun h => absurd h hno⟩, fun h => ?_⟩
    · cases h
    · cases h

/-- C12 at the store `sampleStore`: removing the primary email `a@x.com` of
`work` is rejected and the store is unchanged. -/
theorem removeEmail_iff_witness :
    sampleStore.RemoveEmail "work" "a@x.com" =
      (sampleStore, some "cannot remove primary email; set a different primary email first") ∧
    ∃ err, sampleStore.RemoveEmail "work" "a@x.com" = (sampleStore, some err) :=
  ⟨by decide,
   (removeEmail_iff sampleStore "work" "a@x.com").1
     ⟨"work", ["a@x.com"], "a@x.com", "", "", ""⟩ (by decide) (by decide)⟩

/-- C13: when `AddProfile`, `RemoveProfile`, `AddEmail`, `RemoveEmail`,
`AddDirectoryRule` or `RemoveDirectoryRule` returns an error, the store after
the call (profiles, rules and current profile) is the store before it. -/
theorem failure_leaves_store (c : Config) (Abs : String → Except String String) :
    (∀ profile, (c.AddProfile profile).2 ≠ none → (c.AddProfile profile).1 = c) ∧
    (∀ name, (c.RemoveProfile name).2 ≠ none → (c.RemoveProfile name).1 = c) ∧
    (∀ profileName email, (c.AddEmail profileName email).2 ≠ none →
      (c.AddEmail profileName email).1 = c) ∧
    (∀ profileName email, (c.RemoveEmail profileName email).2 ≠ none →
      (c.RemoveEmail profileName email).1 = c) ∧
    (∀ path profileName, (c.AddDirectoryRule Abs path profileName).2 ≠ none →
      (c.AddDirectoryRule Abs path profileName).1 = c) ∧
    (∀ path, (c.RemoveDirectoryRule Abs path).2 ≠ none →
      (c.RemoveDirectoryRule Abs path).1 = c) := by
  refine ⟨?_, ?_, ?_, ?_, ?_, ?_⟩
  · intro profile h
    cases hv : profile.Validate with
    | some err => rw [addProfile_fails c profile err hv]
    | none =>
      rw [addProfile_eq c profile hv] at h
      exact absurd rfl h
  · intro name h
    cases hg : c.Profiles.get name with
    | none => exact RemoveProfile_fails c name hg
    | some p =>
      rw [RemoveProfile_eq c name p hg] at h
      exact absurd rfl h
  · intro profileName email h
    rcases addEmail_spec c profileName email with ⟨_, _, _, _, he⟩ | ⟨_, err, he⟩
    · rw [he] at h
      exact absurd rfl h
    · rw [he]
  · intro profileName email h
    rcases removeEmail_spec c profileName email with ⟨_, _, _, _, he⟩ | ⟨_, err, he⟩
    · rw [he] at h
      exact absurd rfl h
    · rw [he]
  · intro path profileName h
    rcases addDirectoryRule_cases c Abs path profileName with
      he | ⟨absPath, _, _, ⟨rules, _, he⟩ | ⟨_, he⟩⟩
    · exact he
    · rw [he] at h
      exact absurd rfl h
    · rw [he] at h
      exact absurd rfl h
  · intro path h
    exact removeDirectoryRule_fails c Abs path h

/-- C13 at the store `sampleStore`: adding a malformed email to `work`, and
removing a profile that does not exist, fail and leave the store as it was. -/
theorem failure_leaves_store_witness :
    (sampleStore.AddEmail "work" "not-an-email").2 =
      some "invalid email format: not-an-email" ∧
    (sampleStore.AddEmail "work" "not-an-email").1 = sampleStore ∧
    (sampleStore.RemoveProfile "home").1 = sampleStore :=
  ⟨by decide,
   (failure_leaves_store sampleStore absOfClean).2.2.1 "work" "not-an-email" (by decide),
   (failure_leaves_store sampleStore absOfClean).2.1 "home" (by decide)⟩

/-! ## Import of an exported store -/

theorem GoMap.get_eq_none_of_not_mem {β : Type} (m : GoMap β) (k : String)
    (h : k ∉ m.map Prod.fst) : GoMap.get m k = none := by
  induction m with
  | nil => rfl
  | cons e m ih =>
    obtain ⟨a, v⟩ := e
    simp only [List.map_cons, List.mem_cons, not_or] at h
    have hak : ¬ a = k := fun e => h.1 e.symm
    simp [GoMap.get, hak, ih h.2]

theorem GoMap.get_of_mem {β : Type} (m : GoMap β) (k : String) (v : β)
    (hnodup : (m.map Prod.fst).Nodup) (h : (k, v) ∈ m) : GoMap.get m k = some v := by
  induction m with
  | nil => cases h
  | cons e m ih =>
    obtain ⟨a, w⟩ := e
    simp only [List.map_cons, List.nodup_cons] at hnodup
    rcases List.mem_cons.1 h with heq | hmem
    · cases heq
      simp [GoMap.get]
    · have hak : ¬ a = k := by
        rintro rfl
        exact hnodup.1 (List.mem_map_of_mem Prod.fst hmem)
      simp [GoMap.get, hak, ih hnodup.2 hmem]

theorem foldl_importProfileStep (skipPrompts : Bool) (confirm : String → Bool)
    (entries : GoMap Profile) (profiles : GoMap Profile)
    (hnodup : (entries.map Prod.fst).Nodup)
    (hvalid : ∀ e ∈ entries, e.2.Validate = none)
    (hfresh : ∀ e ∈ entries, GoMap.get profiles e.1 = none) (name : String) :
    GoMap.get (entries.foldl (importProfileStep skipPrompts confirm) profiles) name =
      match GoMap.get entries name with
      | some p => some p
      | none => GoMap.get profiles name := by
  induction entries generalizing profiles with
  | nil => rfl
  | cons e rest ih =>
    obtain ⟨k, v⟩ := e
    simp only [List.map_cons, List.nodup_cons] at hnodup
    have hk : GoMap.get profiles k = none := hfresh (k, v) (List.mem_cons_self _ _)
    have hv : v.Validate = none := hvalid (k, v) (List.mem_cons_self _ _)
    have hstep : importProfileStep skipPrompts confirm profiles (k, v) =
        GoMap.set profiles k v := by
      simp [importProfileStep, hk, hv]
    rw [List.foldl_cons, hstep]
    rw [ih (GoMap.set profiles k v) hnodup.2
      (fun e he => hvalid e (List.mem_cons_of_mem _ he))]
    · by_cases hkn : k = name
      · subst hkn
        rw [GoMap.get_set, if_pos rfl, GoMap.get_eq_none_of_not_mem rest k hnodup.1]
        simp [GoMap.get]
      · have hnk : ¬ name = k := fun e => hkn e.symm
        rw [GoMap.get_set, if_neg hnk]
        simp [GoMap.get, hkn]
    · intro e he
      have hne : e.1 ≠ k := by
        intro heq
        exact hnodup.1 (heq ▸ List.mem_map_of_mem Prod.fst he)
      rw [GoMap.get_set]
      simp only [hne, if_false]
      exact hfresh e (List.mem_cons_of_mem _ he)

theorem replaceRule_eq_none (rule : DirectoryRule) (rules : List DirectoryRule)
    (h : rule.Path ∉ rulePaths rules) : replaceRule rule rules = none := by
  induction rules with
  | nil => rfl
  | cons r rs ih =>
    simp only [rulePaths, List.map_cons, List.mem_cons, not_or] at h
    have hr : ¬ r.Path = rule.Path := fun e => h.1 e.symm
    simp only [rulePaths] at ih
    simp [replaceRule, hr, ih h.2]

theorem foldl_importRuleStep (imported rules : List DirectoryRule)
    (hnodup : (rulePaths (rules ++ imported)).Nodup) :
    imported.foldl importRuleStep rules = rules ++ imported := by
  induction imported generalizing rules with
  | nil => simp
  | cons r rs ih =>
    have hr : r.Path ∉ rulePaths rules := by
      simp only [rulePaths, List.map_append, List.map_cons] at hnodup
      intro hmem
      simp only [rulePaths] at hmem
      exact (List.nodup_append.1 hnodup).2.2 hmem (List.mem_cons_self _ _)
    have hstep : importRuleStep rules r = rules ++ [r] := by
      simp [importRuleStep, replaceRule_eq_none r rules hr]
    rw [List.foldl_cons, hstep, ih (rules ++ [r]) (by simpa using hnodup)]
    simp

/-- C14: when the profile map of a store binds each name once, every stored
profile passes validation and the rule paths are pairwise distinct, merging
the exported store into the empty store, as `runImport` does, gives a store
with the same profile under every name and with the same rules, hence the same
profile under every rule path. -/
theorem import_of_export (skipPrompts : Bool) (confirm : String → Bool) (c : Config)
    (hkeys : (c.Profiles.map Prod.fst).Nodup)
    (hvalid : ∀ name p, c.Profiles.get name = some p → p.Validate = none)
    (hpaths : (rulePaths c.DirectoryRules).Nodup) :
    (∀ name, (importMerge skipPrompts confirm emptyConfig c).Profiles.get name =
      c.Profiles.get name) ∧
    (importMerge skipPrompts confirm emptyConfig c).DirectoryRules = c.DirectoryRules ∧
    (∀ path,
      (exactMatch (importMerge skipPrompts confirm emptyConfig c).DirectoryRules path).map
          (fun rule => rule.Profile) =
        (exactMatch c.DirectoryRules path).map (fun rule => rule.Profile)) := by
  have hrules : (importMerge skipPrompts confirm emptyConfig c).DirectoryRules =
      c.DirectoryRules := by
    simp only [importMerge, emptyConfig]
    rw [foldl_importRuleStep c.DirectoryRules [] (by simpa using hpaths)]
    simp
  refine ⟨?_, hrules, fun path => by rw [hrules]⟩
  intro name
  simp only [importMerge, emptyConfig]
  rw [foldl_importProfileStep skipPrompts confirm c.Profiles [] hkeys
    (fun e he => hvalid e.1 e.2 (GoMap.get_of_mem c.Profiles e.1 e.2 hkeys he))
    (fun _ _ => rfl) name]
  cases GoMap.get c.Profiles name <;> rfl

/-- C14 at the store `sampleStore`, imported without the `--yes` flag and with
every prompt declined. -/
theorem import_of_export_witness :
    importMerge false (fun _ => false) emptyConfig sampleStore =
      { sampleStore with CurrentProfile := "" } ∧
    (∀ name, (importMerge false (fun _ => false) emptyConfig sampleStore).Profiles.get name =
      sampleStore.Profiles.get name) ∧
    (importMerge false (fun _ => false) emptyConfig sampleStore).DirectoryRules =
      sampleStore.DirectoryRules :=
  ⟨by decide,
   (import_of_export false (fun _ => false) sampleStore (by decide)
      (fun name p hp => by
        simp only [sampleStore, GoMap.get] at hp
        split at hp
        · cases hp
          decide
        · cases hp)
      (by decide)).1,
   (import_of_export false (fun _ => false) sampleStore (by decide)
      (fun name p hp => by
        simp only [sampleStore, GoMap.get] at hp
        split at hp
        · cases hp
          decide
        · cases hp)
      (by decide)).2.1⟩

/-! ## SSH configuration: the removal loop -/

namespace ssh

theorem removeStep_foreign (profileName : String) (st : RemoveState) (line : String)
    (hf : isForeign profileName line = true) (hin : st.inTargetEntry = false)
    (hsk : st.skipNext = false) :
    removeStep profileName ("github.com-" ++ profileName) st line =
      { newLines := st.newLines ++ [line], inTargetEntry := false, skipNext := false } := by
  simp only [isForeign, isMarkerLineFor, isHostLineFor, Bool.and_eq_true, Bool.not_eq_true',
    ] at hf
  obtain ⟨hm, hh⟩ := hf
  obtain ⟨nl, it, sk⟩ := st
  simp only at hin hsk
  subst hin hsk
  by_cases hhost : HasPrefix (TrimSpace line) "Host " = true
  · have hc : Contains (TrimSpace line) ("github.com-" ++ profileName) = false := by
      simpa [hhost] using hh
    simp [removeStep, hm, hc, hhost]
  · simp [removeStep, hm, hh, hhost]

theorem removeStep_keep (profileName : String) (st : RemoveState) (line : String)
    (hf : isForeign profileName line = true)
    (hk : (isHostHeader line || isTopLevel line) = true) :
    removeStep profileName ("github.com-" ++ profileName) st line =
      { newLines := st.newLines ++ [line], inTargetEntry := false, skipNext := false } := by
  simp only [isForeign, isMarkerLineFor, isHostLineFor, Bool.and_eq_true, Bool.not_eq_true',
    ] at hf
  obtain ⟨hm, hh⟩ := hf
  obtain ⟨nl, it, sk⟩ := st
  by_cases hhost : HasPrefix (TrimSpace line) "Host " = true
  · have hc : Contains (TrimSpace line) ("github.com-" ++ profileName) = false := by
      simpa [hhost] using hh
    simp [removeStep, hm, hc, hhost]
  · have htop : isTopLevel line = true := by
      simpa [isHostHeader, hhost] using hk
    simp only [isTopLevel, Bool.and_eq_true, decide_eq_true_eq, Bool.not_eq_true'] at htop
    obtain ⟨⟨h₁, h₂⟩, h₃⟩ := htop
    cases it <;> cases sk <;> simp [removeStep, hm, hh, hhost, h₁, h₂, h₃]

theorem removeStep_newLines (profileName hostAlias : String) (st : RemoveState)
    (line : String) :
    (removeStep profileName hostAlias st line).newLines = st.newLines ∨
    (removeStep profileName hostAlias st line).newLines = st.newLines ++ [line] := by
  obtain ⟨nl, it, sk⟩ := st
  by_cases h₁ : (HasPrefix (TrimSpace line) "#" &&
      Contains (TrimSpace line) ("GitHub profile: " ++ profileName)) = true
  · left
    simp only [removeStep, h₁, if_true]
  · by_cases h₂ : (HasPrefix (TrimSpace line) "Host " &&
        Contains (TrimSpace line) hostAlias) = true
    · left
      simp only [removeStep, h₁, h₂, if_true, Bool.false_eq_true, if_false]
    · by_cases h₃ : HasPrefix (TrimSpace line) "Host " = true
      · right
        have hc : Contains (TrimSpace line) hostAlias = false := by
          simpa [h₃] using h₂
        simp [removeStep, h₁, hc, h₃]
      · by_cases h₄ : (¬TrimSpace line = "" ∧ HasPrefix line " " = false) ∧
            HasPrefix line "\t" = false
        · right
          cases it <;> cases sk <;> simp [removeStep, h₁, h₂, h₃, h₄]
        · cases it <;> cases sk <;> simp [removeStep, h₁, h₂, h₃, h₄]

theorem foldl_removeStep_spec (profileName hostAlias : String) (lines : List String)
    (st : RemoveState) :
    ∃ added, (lines.foldl (removeStep profileName hostAlias) st).newLines =
        st.newLines ++ added ∧ added.Sublist lines := by
  induction lines generalizing st with
  | nil => exact ⟨[], by simp, List.Sublist.slnil⟩
  | cons l ls ih =>
    obtain ⟨added, hadd, hsub⟩ := ih (removeStep profileName hostAlias st l)
    rw [List.foldl_cons, hadd]
    rcases removeStep_newLines profileName hostAlias st l with h | h
    · exact ⟨added, by rw [h], hsub.cons l⟩
    · exact ⟨l :: added, by rw [h]; simp, hsub.cons₂ l⟩

theorem foldl_removeStep_keeps (profileName : String) (lines : List String)
    (st : RemoveState) :
    ∃ added,
      (lines.foldl (removeStep profileName ("github.com-" ++ profileName)) st).newLines =
        st.newLines ++ added ∧
      added.Sublist lines ∧
      (lines.filter (staysOnRemove profileName)).Sublist added := by
  induction lines generalizing st with
  | nil => exact ⟨[], by simp, List.Sublist.slnil, by simp⟩
  | cons l ls ih =>
    obtain ⟨added, hadd, hsub, hkeep⟩ :=
      ih (removeStep profileName ("github.com-" ++ profileName) st l)
    rw [List.foldl_cons, hadd]
    by_cases hk : staysOnRemove profileName l = true
    · have hk' := hk
      simp only [staysOnRemove, Bool.and_eq_true] at hk'
      rw [removeStep_keep profileName st l hk'.1 hk'.2]
      refine ⟨l :: added, by simp, hsub.cons₂ l, ?_⟩
      rw [List.filter_cons_of_pos hk]
      exact hkeep.cons₂ l
    · rw [List.filter_cons_of_neg hk]
      rcases removeStep_newLines profileName ("github.com-" ++ profileName) st l with h | h
      · exact ⟨added, by rw [h], hsub.cons l, hkeep⟩
      · exact ⟨l :: added, by rw [h]; simp, hsub.cons₂ l, hkeep.cons l⟩

theorem removeStep_shift (profileName hostAlias : String) (front : List String)
    (it sk : Bool) (line : String) :
    removeStep profileName hostAlias ⟨front, it, sk⟩ line =
      { newLines := front ++ (removeStep profileName hostAlias ⟨[], it, sk⟩ line).newLines,
        inTargetEntry := (removeStep profileName hostAlias ⟨[], it, sk⟩ line).inTargetEntry,
        skipNext := (removeStep profileName hostAlias ⟨[], it, sk⟩ line).skipNext } := by
  by_cases h₁ : (HasPrefix (TrimSpace line) "#" &&
      Contains (TrimSpace line) ("GitHub profile: " ++ profileName)) = true
  · simp [removeStep, h₁]
  · by_cases h₂ : (HasPrefix (TrimSpace line) "Host " &&
        Contains (TrimSpace line) hostAlias) = true
    · simp [removeStep, h₁, h₂]
    · by_cases h₃ : HasPrefix (TrimSpace line) "Host " = true
      · have hc : Contains (TrimSpace line) hostAlias = false := by
          simpa [h₃] using h₂
        simp [removeStep, h₁, hc, h₃]
      · by_cases h₄ : (¬TrimSpace line = "" ∧ HasPrefix line " " = false) ∧
            HasPrefix line "\t" = false
        · cases it <;> cases sk <;> simp [removeStep, h₁, h₂, h₃, h₄]
        · cases it <;> cases sk <;> simp [removeStep, h₁, h₂, h₃, h₄]

theorem foldl_removeStep_shift (profileName hostAlias : String) (lines : List String)
    (front : List String) (it sk : Bool) :
    lines.foldl (removeStep profileName hostAlias) ⟨front, it, sk⟩ =
      { newLines := front ++
          (lines.foldl (removeStep profileName hostAlias) ⟨[], it, sk⟩).newLines,
        inTargetEntry :=
          (lines.foldl (removeStep profileName hostAlias) ⟨[], it, sk⟩).inTargetEntry,
        skipNext := (lines.foldl (removeStep profileName hostAlias) ⟨[], it, sk⟩).skipNext } := by
  induction lines generalizing front it sk with
  | nil => simp
  | cons l ls ih =>
    rw [List.foldl_cons, List.foldl_cons, removeStep_shift profileName hostAlias front it sk l]
    rw [ih]
    conv_rhs => rw [ih]
    simp

theorem foldl_removeStep_foreign (profileName : String) (block : List String)
    (front : List String) (h : ∀ l ∈ block, isForeign profileName l = true) :
    block.foldl (removeStep profileName ("github.com-" ++ profileName)) ⟨front, false, false⟩ =
      ⟨front ++ block, false, false⟩ := by
  induction block generalizing front with
  | nil => simp
  | cons l ls ih =>
    rw [List.foldl_cons,
      removeStep_foreign profileName ⟨front, false, false⟩ l (h l (List.mem_cons_self _ _))
        rfl rfl]
    rw [ih (front ++ [l]) (fun x hx => h x (List.mem_cons_of_mem _ hx))]
    simp

theorem keptLines_block (profileName : String) (pre : List String) (m : String)
    (block post : List String) (hm : isForeign profileName m = true)
    (hk : (isHostHeader m || isTopLevel m) = true)
    (hb : ∀ l ∈ block, isForeign profileName l = true) :
    ∃ pre', pre'.Sublist pre ∧
      keptLines profileName (pre ++ m :: block ++ post) =
        pre' ++ m :: block ++ keptLines profileName post := by
  obtain ⟨added, hadd, hsub⟩ :=
    foldl_removeStep_spec profileName ("github.com-" ++ profileName) pre ⟨[], false, false⟩
  refine ⟨added, hsub, ?_⟩
  simp only [List.nil_append] at hadd
  simp only [keptLines, List.foldl_append, List.foldl_cons]
  rw [removeStep_keep profileName _ m hm hk, hadd,
    foldl_removeStep_foreign profileName block _ hb, foldl_removeStep_shift]
  simp

/-! ## SSH configuration: removal theorems -/

/-- C16: on a configuration that has no block for the profile and ends with a
line feed, `RemoveProfileEntry` rewrites the file without its last line feed;
carriage returns before line feeds are lost in the same way. -/
theorem removeProfileEntry_drops_final_newline :
    NoBlock sampleManager [("/h/.ssh/config", "Host example.com\n    User git\n")] "work" ∧
    sampleManager.RemoveProfileEntry
        [("/h/.ssh/config", "Host example.com\n    User git\n")] "work" =
      ([("/h/.ssh/config", "Host example.com\n    User git")], none) ∧
    sampleManager.RemoveProfileEntry
        [("/h/.ssh/config", "Host example.com\r\n    User git")] "work" =
      ([("/h/.ssh/config", "Host example.com\n    User git")], none) := by
  refine ⟨?_, by decide, by decide⟩
  intro text ht
  have : text = "Host example.com\n    User git\n" := by
    simp only [sampleManager, GoMap.get, if_true, Option.some.injEq] at ht
    exact ht.symm
  subst this
  decide

/-- C17: on a configuration that holds only the block of the profile `work2`,
`RemoveProfileEntry` for the distinct profile `work` succeeds and removes the
marker comment, the Host header and the directive of `work2`: the file is
left empty. With a foreign host after the block, that host alone is left. -/
theorem removeProfileEntry_removes_other_block :
    "work" ≠ "work2" ∧
    scanLines "# GitHub profile: work2\nHost github.com-work2\n    HostName github.com\n" =
      ["# GitHub profile: work2", "Host github.com-work2", "    HostName github.com"] ∧
    sampleManager.RemoveProfileEntry
        [("/h/.ssh/config",
          "# GitHub profile: work2\nHost github.com-work2\n    HostName github.com\n")]
        "work" = ([("/h/.ssh/config", "")], none) ∧
    sampleManager.RemoveProfileEntry
        [("/h/.ssh/config",
          "# GitHub profile: work2\nHost github.com-work2\n    HostName github.com\n" ++
          "Host other\n")]
        "work" = ([("/h/.ssh/config", "Host other")], none) := by
  decide

end ssh

/-! ## Text helpers: lemmas -/

theorem scanLinesAux_append_nl (cur a b : List Char) :
    scanLinesAux cur (a ++ '\n' :: b) = scanLinesAux cur (a ++ ['\n']) ++ scanLinesAux [] b := by
  induction a generalizing cur with
  | nil => simp [scanLinesAux]
  | cons c cs ih =>
    by_cases hc : c = '\n'
    · simp [scanLinesAux, hc, ih]
    · simp [scanLinesAux, hc, ih]

theorem scanLinesAux_line (cur a : List Char) (h : '\n' ∉ a) :
    scanLinesAux cur (a ++ ['\n']) = [dropCR (cur ++ a)] := by
  induction a generalizing cur with
  | nil => simp [scanLinesAux]
  | cons c cs ih =>
    simp only [List.mem_cons, not_or] at h
    have hc : ¬ c = '\n' := fun e => h.1 e.symm
    simp [scanLinesAux, hc, ih _ h.2]

/-! ### The scanner and its limit -/

theorem scanTokensAux_of_err_none (cur t : List Char)
    (h : (scanTokensAux cur t).2 = none) : (scanTokensAux cur t).1 = scanLinesAux cur t := by
  induction t generalizing cur with
  | nil =>
    by_cases hcur : cur = []
    · simp [scanTokensAux, scanLinesAux, hcur]
    · by_cases hlen : MaxScanTokenSize ≤ len (String.mk cur)
      · simp [scanTokensAux, hcur, hlen] at h
      · simp [scanTokensAux, scanLinesAux, hcur, hlen]
  | cons c cs ih =>
    by_cases hc : c = '\n'
    · by_cases hlen : MaxScanTokenSize ≤ len (String.mk cur)
      · simp [scanTokensAux, hc, hlen] at h
      · simp only [scanTokensAux, hc, hlen, if_true, if_false] at h
        simp only [scanTokensAux, scanLinesAux, hc, hlen, if_true, if_false]
        rw [ih [] h]
    · simp only [scanTokensAux, hc, if_false] at h
      simp only [scanTokensAux, scanLinesAux, hc, if_false]
      exact ih _ h

theorem mem_scanTokensAux (cur t : List Char) :
    ∀ l ∈ (scanTokensAux cur t).1, l ∈ scanLinesAux cur t := by
  induction t generalizing cur with
  | nil =>
    intro l hl
    by_cases hcur : cur = []
    · simp [scanTokensAux, hcur] at hl
    · by_cases hlen : MaxScanTokenSize ≤ len (String.mk cur)
      · simp [scanTokensAux, hcur, hlen] at hl
      · simpa [scanTokensAux, scanLinesAux, hcur, hlen] using hl
  | cons c cs ih =>
    intro l hl
    by_cases hc : c = '\n'
    · by_cases hlen : MaxScanTokenSize ≤ len (String.mk cur)
      · simp [scanTokensAux, hc, hlen] at hl
      · simp only [scanTokensAux, hc, hlen, if_true, if_false, List.mem_cons] at hl
        simp only [scanLinesAux, hc, if_true, List.mem_cons]
        rcases hl with hl | hl
        · exact Or.inl hl
        · exact Or.inr (ih [] l hl)
    · simp only [scanTokensAux, hc, if_false] at hl
      simp only [scanLinesAux, hc, if_false]
      exact ih _ l hl

theorem scanTokensAux_err_iff (cur t : List Char) :
    (scanTokensAux cur t).2 = none ↔
      ∀ l ∈ rawLinesAux cur t, len (String.mk l) < MaxScanTokenSize := by
  induction t generalizing cur with
  | nil =>
    by_cases hcur : cur = []
    · simp [scanTokensAux, rawLinesAux, hcur]
    · by_cases hlen : MaxScanTokenSize ≤ len (String.mk cur)
      · simp [scanTokensAux, rawLinesAux, hcur, hlen]
      · simp [scanTokensAux, rawLinesAux, hcur, hlen]
        omega
  | cons c cs ih =>
    by_cases hc : c = '\n'
    · by_cases hlen : MaxScanTokenSize ≤ len (String.mk cur)
      · simp [scanTokensAux, rawLinesAux, hc, hlen]
      · simp only [scanTokensAux, rawLinesAux, hc, hlen, if_true, if_false, List.mem_cons,
          forall_eq_or_imp]
        rw [ih []]
        constructor
        · intro h
          exact ⟨by omega, h⟩
        · intro h
          exact h.2
    · simp only [scanTokensAux, rawLinesAux, hc, if_false]
      exact ih _

/-- The lines of a text fit exactly when each of them, with its carriage
return and without its line feed, has fewer than `MaxScanTokenSize` bytes. -/
theorem linesFit_iff (text : String) :
    LinesFit text ↔ ∀ l ∈ rawLinesAux [] text.data, len (String.mk l) < MaxScanTokenSize :=
  scanTokensAux_err_iff [] text.data

/-- On a text whose lines fit, the scanner returns every line and no error. -/
theorem scanFile_of_fit (text : String) (h : LinesFit text) :
    scanFile text = (scanLines text, none) := by
  unfold LinesFit scanFile at h
  simp only at h
  unfold scanFile scanLines
  rw [h, scanTokensAux_of_err_none [] text.data h]

/-- Every token of the scanner is a line of the text. -/
theorem mem_scanFile (text : String) : ∀ l ∈ (scanFile text).1, l ∈ scanLines text := by
  intro l hl
  simp only [scanFile, List.mem_map] at hl
  obtain ⟨x, hx, rfl⟩ := hl
  exact List.mem_map.2 ⟨x, mem_scanTokensAux [] text.data x hx, rfl⟩

/-- At a first line of `MaxScanTokenSize` bytes or more the scanner returns no
token and the error `ErrTooLong`. -/
theorem scanTokensAux_tooLong (cur a rest : List Char) (hnl : '\n' ∉ a)
    (hlen : MaxScanTokenSize ≤ len (String.mk (cur ++ a))) :
    scanTokensAux cur (a ++ '\n' :: rest) = ([], some ErrTooLong) := by
  induction a generalizing cur with
  | nil =>
    simp only [List.append_nil] at hlen
    simp [scanTokensAux, hlen]
  | cons c cs ih =>
    simp only [List.mem_cons, not_or] at hnl
    have hc : ¬ c = '\n' := fun e => hnl.1 e.symm
    simp only [List.cons_append, scanTokensAux, hc, if_false]
    exact ih (cur ++ [c]) hnl.2 (by simpa using hlen)

theorem scanTokensAux_tooLong_end (cur a : List Char) (hnl : '\n' ∉ a)
    (hlen : MaxScanTokenSize ≤ len (String.mk (cur ++ a))) :
    scanTokensAux cur a = ([], some ErrTooLong) := by
  induction a generalizing cur with
  | nil =>
    simp only [List.append_nil] at hlen
    have hcur : cur ≠ [] := by
      rintro rfl
      exact absurd hlen (by decide)
    simp [scanTokensAux, hlen, hcur]
  | cons c cs ih =>
    simp only [List.mem_cons, not_or] at hnl
    have hc : ¬ c = '\n' := fun e => hnl.1 e.symm
    simp only [scanTokensAux, hc, if_false]
    exact ih (cur ++ [c]) hnl.2 (by simpa using hlen)

theorem len_replicate (n : Nat) : len (String.mk (List.replicate n 'a')) = n := by
  induction n with
  | zero => rfl
  | succ n ih =>
    have hstep : len (String.mk (List.replicate (n + 1) 'a')) =
        len (String.mk (List.replicate n 'a')) + 1 := rfl
    rw [hstep, ih]

theorem countP_scanLinesAux_nl (p : List Char → Bool) (hp : p [] = false)
    (cur a : List Char) :
    (scanLinesAux cur (a ++ ['\n'])).countP p = (scanLinesAux cur a).countP p := by
  induction a generalizing cur with
  | nil =>
    by_cases hcur : cur = []
    · subst hcur
      simp [scanLinesAux, dropCR, hp]
    · simp [scanLinesAux, hcur]
  | cons c cs ih =>
    by_cases hc : c = '\n'
    · simp [scanLinesAux, hc, ih, List.countP_cons]
    · simp [scanLinesAux, hc, ih]

theorem dropCR_of_last (l : List Char) (h : ∀ c, l.getLast? = some c → c ≠ '\r') :
    dropCR l = l := by
  unfold dropCR
  split
  · rename_i rest hrev
    have : l.getLast? = some '\r' := by
      rw [List.getLast?_eq_head?_reverse, hrev]
      rfl
    exact absurd rfl (h _ this)
  · rfl

theorem dropCR_append (a b : List Char) (hb : b ≠ []) : dropCR (a ++ b) = a ++ dropCR b := by
  unfold dropCR
  rw [List.reverse_append]
  cases hr : b.reverse with
  | nil => exact absurd (List.reverse_eq_nil_iff.1 hr) hb
  | cons c rest =>
    simp only [List.cons_append]
    by_cases hc : c = '\r'
    · subst hc
      have hbe : b = rest.reverse ++ ['\r'] := by
        have := congrArg List.reverse hr
        simpa using this
      simp
    · split
      · rename_i r hrev
        simp only [List.cons.injEq] at hrev
        exact absurd hrev.1 hc
      · split
        · rename_i r hrev
          simp only [List.cons.injEq] at hrev
          exact absurd hrev.1 hc
        · rfl

theorem dropWhile_append_singleton (p : Char → Bool) (a : List Char) (c : Char)
    (hc : p c = false) : (a ++ [c]).dropWhile p = a.dropWhile p ++ [c] := by
  induction a with
  | nil => simp [List.dropWhile, hc]
  | cons x xs ih =>
    by_cases hx : p x = true
    · simp [List.dropWhile, hx, ih]
    · simp [List.dropWhile, hx]

theorem trimRight_cons (c : Char) (l : List Char) (hc : isSpace c = false) :
    trimRight (c :: l) = c :: trimRight l := by
  simp [trimRight, dropWhile_append_singleton isSpace l.reverse c hc]

theorem trimRight_of_last (l : List Char)
    (h : ∀ c, l.getLast? = some c → isSpace c = false) : trimRight l = l := by
  unfold trimRight
  cases hr : l.reverse with
  | nil =>
    have := List.reverse_eq_nil_iff.1 hr
    simp [this]
  | cons c rest =>
    have hl : l.getLast? = some c := by
      rw [List.getLast?_eq_head?_reverse, hr]
      rfl
    have hc := h c hl
    have hrev : l = (c :: rest).reverse := by
      rw [← hr, List.reverse_reverse]
    simp [List.dropWhile, hc, hrev]

theorem containsList_of_infix (sub front back : List Char) :
    containsList sub (front ++ sub ++ back) = true := by
  induction front with
  | nil =>
    simp only [List.nil_append]
    cases hs : sub ++ back with
    | nil =>
      have : sub = [] := (List.append_eq_nil.1 hs).1
      simp [containsList, this]
    | cons c cs =>
      have hp : sub.isPrefixOf (c :: cs) = true := by
        rw [← hs]
        simp
      simp [containsList, hs, hp]
  | cons x xs ih =>
    simp only [List.cons_append, containsList, Bool.or_eq_true]
    right
    simpa using ih

/-! ## SSH configuration: the appended entry -/

namespace ssh

theorem entryText_data (name hostAlias sshKeyFile : String) :
    (entryText name hostAlias sshKeyFile).data =
      '\n' :: ("# GitHub profile: ".data ++ name.data) ++
      '\n' :: ("Host ".data ++ hostAlias.data) ++
      '\n' :: "    HostName github.com".data ++
      '\n' :: "    User git".data ++
      '\n' :: ("    IdentityFile ".data ++ sshKeyFile.data) ++
      '\n' :: "    IdentitiesOnly yes".data ++ ['\n'] := by
  simp only [entryText, String.data_append]
  simp only [List.append_assoc, List.cons_append, List.nil_append]

theorem last_not_space_append (front name : List Char)
    (hfront : ∀ c, front.getLast? = some c → isSpace c = false)
    (hend : ∀ c, name.getLast? = some c → isSpace c = false) :
    ∀ c, (front ++ name).getLast? = some c → isSpace c = false := by
  intro c hc
  rw [List.getLast?_append] at hc
  cases hn : name.getLast? with
  | none =>
    rw [hn] at hc
    exact hfront c hc
  | some d =>
    rw [hn] at hc
    simp only [Option.or_some, Option.some.injEq] at hc
    rw [← hc]
    exact hend d hn

theorem trimSpaceList_of_ends (c : Char) (l : List Char) (hc : isSpace c = false)
    (hl : ∀ d, (c :: l).getLast? = some d → isSpace d = false) :
    trimSpaceList (c :: l) = c :: l := by
  simp only [trimSpaceList, List.dropWhile, hc]
  exact trimRight_of_last (c :: l) hl

theorem trimSpaceList_head (c : Char) (l : List Char) (hc : isSpace c = false) :
    trimSpaceList (c :: l) = c :: trimRight l := by
  simp only [trimSpaceList, List.dropWhile, hc]
  exact trimRight_cons c l hc

theorem not_cr_of_not_space {l : List Char}
    (h : ∀ c, l.getLast? = some c → isSpace c = false) :
    ∀ c, l.getLast? = some c → c ≠ '\r' := by
  intro c hc hcr
  have := h c hc
  rw [hcr] at this
  exact absurd this (by decide)

/-- The Host header written by `EnsureProfileEntry` is recognised by
`entryExists`, when the name does not end in white space. -/
theorem hostHeader_isHostLineFor (name : String)
    (hend : ∀ c, name.data.getLast? = some c → isSpace c = false) :
    isHostLineFor ("github.com-" ++ name)
      (String.mk (dropCR ("Host ".data ++ ("github.com-" ++ name).data))) = true := by
  have hlast : ∀ c, ("Host ".data ++ ("github.com-" ++ name).data).getLast? = some c →
      isSpace c = false := by
    rw [String.data_append, ← List.append_assoc]
    exact last_not_space_append _ _ (by decide) hend
  rw [dropCR_of_last _ (not_cr_of_not_space hlast)]
  have htrim : trimSpaceList ("Host ".data ++ ("github.com-" ++ name).data) =
      "Host ".data ++ ("github.com-" ++ name).data :=
    trimSpaceList_of_ends 'H' _ (by decide) hlast
  simp only [isHostLineFor, HasPrefix, TrimSpace, Contains, htrim, Bool.and_eq_true]
  refine ⟨by simp, ?_⟩
  have := containsList_of_infix ("github.com-" ++ name).data "Host ".data []
  simpa using this

theorem not_mem_hostHeader (name : String) (hnl : '\n' ∉ name.data) :
    '\n' ∉ "Host ".data ++ ("github.com-" ++ name).data := by
  simp only [String.data_append, List.mem_append, not_or]
  exact ⟨by decide, by decide, hnl⟩

theorem hostHeader_mem_scanLines (content name sshKeyFile : String)
    (hnl : '\n' ∉ name.data) :
    String.mk (dropCR ("Host ".data ++ ("github.com-" ++ name).data)) ∈
      scanLines (content ++ entryText name ("github.com-" ++ name) sshKeyFile) := by
  have hshape : (content ++ entryText name ("github.com-" ++ name) sshKeyFile).data =
      (content.data ++ '\n' :: ("# GitHub profile: ".data ++ name.data)) ++
        '\n' :: (("Host ".data ++ ("github.com-" ++ name).data) ++
          '\n' :: ("    HostName github.com".data ++
            '\n' :: "    User git".data ++
            '\n' :: ("    IdentityFile ".data ++ sshKeyFile.data) ++
            '\n' :: "    IdentitiesOnly yes".data ++ ['\n'])) := by
    rw [String.data_append, entryText_data]
    simp only [List.append_assoc, List.cons_append, List.nil_append]
  simp only [scanLines, hshape, List.mem_map]
  refine ⟨dropCR ("Host ".data ++ ("github.com-" ++ name).data), ?_, rfl⟩
  rw [scanLinesAux_append_nl, scanLinesAux_append_nl [] ("Host ".data ++ _),
    scanLinesAux_line [] _ (not_mem_hostHeader name hnl)]
  simp

theorem entryExists_after_append (sm : ConfigManager) (fs : FileSystem)
    (content name sshKeyFile : String) (hnl : '\n' ∉ name.data)
    (hend : ∀ c, name.data.getLast? = some c → isSpace c = false)
    (hfit : LinesFit (content ++ entryText name ("github.com-" ++ name) sshKeyFile)) :
    sm.entryExists
      (fs.set sm.sshConfigPath (content ++ entryText name ("github.com-" ++ name) sshKeyFile))
      ("github.com-" ++ name) = true := by
  simp only [ConfigManager.entryExists, GoMap.get_set, if_true, scanFile_of_fit _ hfit,
    List.any_eq_true]
  exact ⟨_, hostHeader_mem_scanLines content name sshKeyFile hnl,
    hostHeader_isHostLineFor name hend⟩

/-- The outcome of `EnsureProfileEntry`: nothing is written when the scan finds
a Host header with the alias, and otherwise the entry is appended to the
content of the file, an absent file counting as empty. -/
theorem ensureProfileEntry_cases (sm : ConfigManager) (filepathJoin : List String → String)
    (fs : FileSystem) (profile : Profile) :
    (sm.entryExists fs ("github.com-" ++ profile.Name) = true ∧
      (sm.EnsureProfileEntry filepathJoin fs profile).1 = fs ∧
      (sm.EnsureProfileEntry filepathJoin fs profile).2.2 = none) ∨
    (sm.entryExists fs ("github.com-" ++ profile.Name) = false ∧
      ∃ fs' content, (fs.get sm.sshConfigPath).getD "" = content ∧
        (sm.EnsureProfileEntry filepathJoin fs profile).1 =
          GoMap.set fs' sm.sshConfigPath
            (content ++ entryText profile.Name ("github.com-" ++ profile.Name)
              (filepathJoin [sm.homeDir, ".ssh", "id_" ++ profile.Name])) ∧
        (sm.EnsureProfileEntry filepathJoin fs profile).2.2 = none) := by
  have hname : ∀ k : String,
      (if profile.SSHKeyPath = "" then { profile with SSHKeyPath := k }
        else profile).Name = profile.Name := by
    intro k
    split <;> rfl
  by_cases hex : sm.entryExists fs ("github.com-" ++ profile.Name) = true
  · left
    refine ⟨hex, ?_, ?_⟩ <;> simp [ConfigManager.EnsureProfileEntry, hex]
  · right
    simp only [Bool.not_eq_true] at hex
    refine ⟨hex, ?_⟩
    cases hg : fs.get sm.sshConfigPath with
    | none =>
      refine ⟨GoMap.set fs sm.sshConfigPath "", "", rfl, ?_, ?_⟩ <;>
        simp [ConfigManager.EnsureProfileEntry, hex, hg, GoMap.get_set, hname]
    | some content =>
      refine ⟨fs, content, rfl, ?_, ?_⟩ <;>
        simp [ConfigManager.EnsureProfileEntry, hex, hg, hname]

theorem ensureProfileEntry_name (sm : ConfigManager) (filepathJoin : List String → String)
    (fs : FileSystem) (profile : Profile) :
    (sm.EnsureProfileEntry filepathJoin fs profile).2.1.Name = profile.Name := by
  have hname : ∀ k : String,
      (if profile.SSHKeyPath = "" then { profile with SSHKeyPath := k }
        else profile).Name = profile.Name := by
    intro k
    split <;> rfl
  by_cases hex : sm.entryExists fs ("github.com-" ++ profile.Name) = true
  · simp [ConfigManager.EnsureProfileEntry, hex, hname]
  · cases hg : fs.get sm.sshConfigPath with
    | none => simp [ConfigManager.EnsureProfileEntry, hex, hg, GoMap.get_set, hname]
    | some content => simp [ConfigManager.EnsureProfileEntry, hex, hg, hname]

theorem scanLinesAux_six (C m h d₁ d₂ d₃ d₄ : List Char)
    (hm : '\n' ∉ m) (hh : '\n' ∉ h) (h₁ : '\n' ∉ d₁) (h₂ : '\n' ∉ d₂) (h₃ : '\n' ∉ d₃)
    (h₄ : '\n' ∉ d₄) :
    scanLinesAux [] (C ++ '\n' :: (m ++ '\n' :: (h ++ '\n' :: (d₁ ++ '\n' :: (d₂ ++
      '\n' :: (d₃ ++ '\n' :: (d₄ ++ ['\n']))))))) =
      scanLinesAux [] (C ++ ['\n']) ++
        [dropCR m, dropCR h, dropCR d₁, dropCR d₂, dropCR d₃, dropCR d₄] := by
  rw [scanLinesAux_append_nl [] C, scanLinesAux_append_nl [] m, scanLinesAux_line [] m hm,
    scanLinesAux_append_nl [] h, scanLinesAux_line [] h hh,
    scanLinesAux_append_nl [] d₁, scanLinesAux_line [] d₁ h₁,
    scanLinesAux_append_nl [] d₂, scanLinesAux_line [] d₂ h₂,
    scanLinesAux_append_nl [] d₃, scanLinesAux_line [] d₃ h₃,
    scanLinesAux_line [] d₄ h₄]
  simp

theorem scanLines_after_append (content name sshKeyFile : String)
    (hnl : '\n' ∉ name.data) (hkey : '\n' ∉ sshKeyFile.data) :
    scanLines (content ++ entryText name ("github.com-" ++ name) sshKeyFile) =
      (scanLinesAux [] (content.data ++ ['\n'])).map (fun l => String.mk l) ++
      [String.mk (dropCR ("# GitHub profile: ".data ++ name.data)),
       String.mk (dropCR ("Host ".data ++ ("github.com-" ++ name).data)),
       String.mk (dropCR "    HostName github.com".data),
       String.mk (dropCR "    User git".data),
       String.mk (dropCR ("    IdentityFile ".data ++ sshKeyFile.data)),
       String.mk (dropCR "    IdentitiesOnly yes".data)] := by
  have hm : '\n' ∉ "# GitHub profile: ".data ++ name.data := by
    simp only [List.mem_append, not_or]
    exact ⟨by decide, hnl⟩
  have hk : '\n' ∉ "    IdentityFile ".data ++ sshKeyFile.data := by
    simp only [List.mem_append, not_or]
    exact ⟨by decide, hkey⟩
  have hshape : (content ++ entryText name ("github.com-" ++ name) sshKeyFile).data =
      content.data ++ '\n' :: (("# GitHub profile: ".data ++ name.data) ++
        '\n' :: (("Host ".data ++ ("github.com-" ++ name).data) ++
          '\n' :: ("    HostName github.com".data ++
            '\n' :: ("    User git".data ++
              '\n' :: (("    IdentityFile ".data ++ sshKeyFile.data) ++
                '\n' :: ("    IdentitiesOnly yes".data ++ ['\n'])))))) := by
    rw [String.data_append, entryText_data]
    simp only [List.append_assoc, List.cons_append, List.nil_append]
  simp only [scanLines, hshape]
  rw [scanLinesAux_six _ _ _ _ _ _ _ hm (not_mem_hostHeader name hnl) (by decide) (by decide)
    hk (by decide)]
  simp only [List.map_append, List.map_cons, List.map_nil]

theorem dropCR_cons_head (c : Char) (rest : List Char) (hc : c ≠ '\r') :
    ∃ rest', dropCR (c :: rest) = c :: rest' := by
  cases rest with
  | nil =>
    refine ⟨[], dropCR_of_last [c] ?_⟩
    intro d hd
    simp only [List.getLast?_singleton, Option.some.injEq] at hd
    rw [← hd]
    exact hc
  | cons x xs =>
    exact ⟨dropCR (x :: xs), by
      have := dropCR_append [c] (x :: xs) (by simp)
      simpa using this⟩

theorem trim_dropCR_head (c : Char) (rest : List Char) (hc : isSpace c = false) :
    ∃ t, trimSpaceList (dropCR (c :: rest)) = c :: t := by
  have hcr : c ≠ '\r' := by
    rintro rfl
    exact absurd hc (by decide)
  obtain ⟨rest', hr⟩ := dropCR_cons_head c rest hcr
  exact ⟨trimRight rest', by rw [hr, trimSpaceList_head c rest' hc]⟩

theorem identityLine_head (key : List Char) :
    ∃ t, trimSpaceList (dropCR ("    IdentityFile ".data ++ key)) = 'I' :: t := by
  have hsplit : "    IdentityFile ".data ++ key =
      [' ', ' ', ' ', ' '] ++ ('I' :: ("dentityFile ".data ++ key)) := rfl
  rw [hsplit, dropCR_append _ _ (by simp)]
  obtain ⟨rest', hr⟩ := dropCR_cons_head 'I' ("dentityFile ".data ++ key) (by decide)
  rw [hr]
  refine ⟨trimRight rest', ?_⟩
  have hsp : isSpace ' ' = true := by decide
  have hI : isSpace 'I' = false := by decide
  simp only [trimSpaceList, List.cons_append, List.nil_append, List.dropWhile, hsp, hI]
  exact trimRight_cons 'I' rest' hI

theorem not_marker_of_head (name : String) (line : String) (c : Char) (t : List Char)
    (h : trimSpaceList line.data = c :: t) (hc : c ≠ '#') :
    isMarkerLineFor name line = false := by
  have : HasPrefix (TrimSpace line) "#" = false := by
    simp only [HasPrefix, TrimSpace, h]
    simp [List.isPrefixOf, Ne.symm hc]
  simp [isMarkerLineFor, this]

theorem not_host_of_head (hostAlias : String) (line : String) (c : Char) (t : List Char)
    (h : trimSpaceList line.data = c :: t) (hc : c ≠ 'H') :
    isHostLineFor hostAlias line = false := by
  have : HasPrefix (TrimSpace line) "Host " = false := by
    simp only [HasPrefix, TrimSpace, h]
    simp [List.isPrefixOf, Ne.symm hc]
  simp [isHostLineFor, this]

/-- The marker comment written by `EnsureProfileEntry` is recognised by
`RemoveProfileEntry`, when the name is not empty and does not end in white
space. -/
theorem marker_isMarkerLineFor (name : String) (c : Char)
    (hlast : name.data.getLast? = some c) (hc : isSpace c = false) :
    isMarkerLineFor name (String.mk (dropCR ("# GitHub profile: ".data ++ name.data))) =
      true := by
  have hl : ∀ d, ("# GitHub profile: ".data ++ name.data).getLast? = some d →
      isSpace d = false := by
    intro d hd
    rw [List.getLast?_append, hlast] at hd
    simp only [Option.or_some, Option.some.injEq] at hd
    rw [← hd]
    exact hc
  rw [dropCR_of_last _ (not_cr_of_not_space hl)]
  have htrim : trimSpaceList ("# GitHub profile: ".data ++ name.data) =
      "# GitHub profile: ".data ++ name.data :=
    trimSpaceList_of_ends '#' _ (by decide) hl
  simp only [isMarkerLineFor, HasPrefix, TrimSpace, Contains, htrim, Bool.and_eq_true]
  refine ⟨by simp, ?_⟩
  have := containsList_of_infix ("GitHub profile: " ++ name).data "# ".data []
  simpa using this

theorem ensureProfileEntry_twice (sm : ConfigManager) (filepathJoin : List String → String)
    (fs : FileSystem) (profile : Profile) (hnl : '\n' ∉ profile.Name.data)
    (hend : ∀ c, profile.Name.data.getLast? = some c → isSpace c = false)
    (hfit : LinesFit ((fs.get sm.sshConfigPath).getD "" ++
      entryText profile.Name ("github.com-" ++ profile.Name)
        (filepathJoin [sm.homeDir, ".ssh", "id_" ++ profile.Name]))) :
    (sm.EnsureProfileEntry filepathJoin (sm.EnsureProfileEntry filepathJoin fs profile).1
        (sm.EnsureProfileEntry filepathJoin fs profile).2.1).1 =
      (sm.EnsureProfileEntry filepathJoin fs profile).1 := by
  have hname := ensureProfileEntry_name sm filepathJoin fs profile
  have hexists : sm.entryExists (sm.EnsureProfileEntry filepathJoin fs profile).1
      ("github.com-" ++ profile.Name) = true := by
    rcases ensureProfileEntry_cases sm filepathJoin fs profile with
      ⟨hex, hfs, _⟩ | ⟨_, fs', content, hcontent, hfs, _⟩
    · rw [hfs]; exact hex
    · rw [hfs]
      exact entryExists_after_append sm fs' content profile.Name _ hnl hend (hcontent ▸ hfit)
  rcases ensureProfileEntry_cases sm filepathJoin
      (sm.EnsureProfileEntry filepathJoin fs profile).1
      (sm.EnsureProfileEntry filepathJoin fs profile).2.1 with
    ⟨_, hfs, _⟩ | ⟨hno, _⟩
  · exact hfs
  · rw [hname, hexists] at hno
    cases hno

theorem countP_front (p : String → Bool) (hp : p "" = false) (content : String)
    (h : ∀ line ∈ scanLines content, p line = false) :
    ((scanLinesAux [] (content.data ++ ['\n'])).map (fun l => String.mk l)).countP p = 0 := by
  rw [List.countP_map, countP_scanLinesAux_nl _ (by simpa using hp) [] content.data]
  rw [List.countP_eq_zero]
  intro l hl
  have := h (String.mk l) (by
    simp only [scanLines, List.mem_map]
    exact ⟨l, hl, rfl⟩)
  simpa using this

/-! ### A line that the scanner cannot read -/

theorem ensureProfileEntry_appends (sm : ConfigManager)
    (filepathJoin : List String → String) (fs : FileSystem) (profile : Profile) (C : String)
    (hfile : fs.get sm.sshConfigPath = some C)
    (hnoex : sm.entryExists fs ("github.com-" ++ profile.Name) = false) :
    (sm.EnsureProfileEntry filepathJoin fs profile).1 =
      GoMap.set fs sm.sshConfigPath
        (C ++ entryText profile.Name ("github.com-" ++ profile.Name)
          (filepathJoin [sm.homeDir, ".ssh", "id_" ++ profile.Name])) ∧
    (sm.EnsureProfileEntry filepathJoin fs profile).2.2 = none := by
  have hname : ∀ k : String,
      (if profile.SSHKeyPath = "" then { profile with SSHKeyPath := k }
        else profile).Name = profile.Name := by
    intro k
    split <;> rfl
  constructor <;> simp [ConfigManager.EnsureProfileEntry, hnoex, hfile, hname]

theorem longLine_data : longLine.data = 'a' :: List.replicate 65535 'a' := rfl

theorem longLine_no_nl : '\n' ∉ longLine.data := by
  simp [longLine, List.mem_replicate]

theorem longLine_len : MaxScanTokenSize ≤ len (String.mk ([] ++ longLine.data)) := by
  simp only [List.nil_append, longLine]
  exact le_of_eq (len_replicate MaxScanTokenSize).symm

/-- The scanner returns no line of `longLine` and the error `ErrTooLong`, also
when a text follows the line. -/
theorem scanFile_longLine : scanFile longLine = ([], some ErrTooLong) := by
  have := scanTokensAux_tooLong_end [] longLine.data longLine_no_nl longLine_len
  simp [scanFile, this]

theorem entryText_head (name hostAlias sshKeyFile : String) :
    ∃ rest, (entryText name hostAlias sshKeyFile).data = '\n' :: rest := by
  rw [entryText_data]
  exact ⟨_, rfl⟩

theorem scanFile_longLine_entry (name hostAlias sshKeyFile : String) :
    scanFile (longLine ++ entryText name hostAlias sshKeyFile) = ([], some ErrTooLong) := by
  obtain ⟨rest, hrest⟩ := entryText_head name hostAlias sshKeyFile
  have := scanTokensAux_tooLong [] longLine.data rest longLine_no_nl longLine_len
  simp [scanFile, String.data_append, hrest, this]

theorem entryExists_of_file (sm : ConfigManager) (fs : FileSystem) (hostAlias text : String)
    (hfile : fs.get sm.sshConfigPath = some text) :
    sm.entryExists fs hostAlias = (scanFile text).1.any (isHostLineFor hostAlias) := by
  unfold ConfigManager.entryExists
  simp only [hfile]

/-- On the configuration `longLine` the scan of `entryExists` stops at the
first line, so each `EnsureProfileEntry` for `work` appends the entry. -/
theorem ensureProfileEntry_longLine_twice :
    (sampleManager.EnsureProfileEntry joinOfClean [("/h/.ssh/config", longLine)]
      ⟨"work", ["a@x.com"], "a@x.com", "", "", ""⟩).1.get "/h/.ssh/config" =
      some (longLine ++ entryText "work" "github.com-work" "/h/.ssh/id_work") ∧
    (sampleManager.EnsureProfileEntry joinOfClean
      (sampleManager.EnsureProfileEntry joinOfClean [("/h/.ssh/config", longLine)]
        ⟨"work", ["a@x.com"], "a@x.com", "", "", ""⟩).1
      (sampleManager.EnsureProfileEntry joinOfClean [("/h/.ssh/config", longLine)]
        ⟨"work", ["a@x.com"], "a@x.com", "", "", ""⟩).2.1).1.get "/h/.ssh/config" =
      some (longLine ++ entryText "work" "github.com-work" "/h/.ssh/id_work" ++
        entryText "work" "github.com-work" "/h/.ssh/id_work") ∧
    longLine ++ entryText "work" "github.com-work" "/h/.ssh/id_work" ++
        entryText "work" "github.com-work" "/h/.ssh/id_work" ≠
      longLine ++ entryText "work" "github.com-work" "/h/.ssh/id_work" := by
  have hfile : GoMap.get [("/h/.ssh/config", longLine)] sampleManager.sshConfigPath =
      some longLine := by
    simp [GoMap.get, sampleManager]
  have hnoex : sampleManager.entryExists [("/h/.ssh/config", longLine)]
      ("github.com-" ++ "work") = false := by
    simp [ConfigManager.entryExists, hfile, scanFile_longLine]
  have hkeyfile : joinOfClean [sampleManager.homeDir, ".ssh", "id_" ++ "work"] =
      "/h/.ssh/id_work" := by decide
  have halias : "github.com-" ++ "work" = "github.com-work" := by decide
  obtain ⟨hens, _⟩ := ensureProfileEntry_appends sampleManager joinOfClean
    [("/h/.ssh/config", longLine)] ⟨"work", ["a@x.com"], "a@x.com", "", "", ""⟩ longLine
    hfile hnoex
  simp only [hkeyfile, halias] at hens
  have hname := ensureProfileEntry_name sampleManager joinOfClean
    [("/h/.ssh/config", longLine)] ⟨"work", ["a@x.com"], "a@x.com", "", "", ""⟩
  simp only at hname
  have hpath : sampleManager.sshConfigPath = "/h/.ssh/config" := rfl
  have hfile₁ : GoMap.get
      (sampleManager.EnsureProfileEntry joinOfClean [("/h/.ssh/config", longLine)]
        ⟨"work", ["a@x.com"], "a@x.com", "", "", ""⟩).1 sampleManager.sshConfigPath =
      some (longLine ++ entryText "work" "github.com-work" "/h/.ssh/id_work") := by
    rw [hens]
    exact (GoMap.get_set _ _ _ _).trans (if_pos rfl)
  have hnoex₁ : sampleManager.entryExists
      (sampleManager.EnsureProfileEntry joinOfClean [("/h/.ssh/config", longLine)]
        ⟨"work", ["a@x.com"], "a@x.com", "", "", ""⟩).1
      ("github.com-" ++
        (sampleManager.EnsureProfileEntry joinOfClean [("/h/.ssh/config", longLine)]
          ⟨"work", ["a@x.com"], "a@x.com", "", "", ""⟩).2.1.Name) = false := by
    rw [entryExists_of_file _ _ _ _ hfile₁, scanFile_longLine_entry]
    rfl
  obtain ⟨hens₂, _⟩ := ensureProfileEntry_appends sampleManager joinOfClean _ _ _ hfile₁ hnoex₁
  rw [hname] at hens₂
  simp only [hkeyfile, halias] at hens₂
  refine ⟨?_, ?_, ?_⟩
  · rw [← hpath]
    exact hfile₁
  · rw [hens₂, ← hpath]
    exact (GoMap.get_set _ _ _ _).trans (if_pos rfl)
  · intro h
    obtain ⟨rest, hrest⟩ := entryText_head "work" "github.com-work" "/h/.ssh/id_work"
    have hd := congrArg String.data h
    simp only [String.data_append, hrest] at hd
    have := congrArg List.length hd
    simp at this

/-- C15, as amended: for a profile whose name contains no line feed and does
not end in white space, and an initial text (empty when the file is absent)
that together with the entry has no line of 64 KiB or more, a second
`EnsureProfileEntry` leaves the files exactly as the first one left them. If
moreover the name is not empty, the key file path contains no line feed and
the initial text has no comment line that contains `GitHub profile: <name>`
and no Host line that contains the alias, be it inside a longer name or
alias, then the final text is the initial text followed by the entry, and it
has exactly one such comment line and exactly one such Host line. Texts with a
longer line, and texts with a Host line of a longer alias, are left out. -/
theorem ensureProfileEntry_idempotent (sm : ConfigManager)
    (filepathJoin : List String → String) (fs : FileSystem) (profile : Profile)
    (hnl : '\n' ∉ profile.Name.data)
    (hend : ∀ c, profile.Name.data.getLast? = some c → isSpace c = false)
    (hfit : LinesFit ((fs.get sm.sshConfigPath).getD "" ++
      entryText profile.Name ("github.com-" ++ profile.Name)
        (filepathJoin [sm.homeDir, ".ssh", "id_" ++ profile.Name]))) :
    (sm.EnsureProfileEntry filepathJoin (sm.EnsureProfileEntry filepathJoin fs profile).1
        (sm.EnsureProfileEntry filepathJoin fs profile).2.1).1 =
      (sm.EnsureProfileEntry filepathJoin fs profile).1 ∧
    (profile.Name ≠ "" →
      '\n' ∉ (filepathJoin [sm.homeDir, ".ssh", "id_" ++ profile.Name]).data →
      NoBlock sm fs profile.Name →
      ∃ text,
        (sm.EnsureProfileEntry filepathJoin (sm.EnsureProfileEntry filepathJoin fs profile).1
          (sm.EnsureProfileEntry filepathJoin fs profile).2.1).1.get sm.sshConfigPath =
            some text ∧
        text = (fs.get sm.sshConfigPath).getD "" ++
          entryText profile.Name (GetHostAlias profile.Name)
            (filepathJoin [sm.homeDir, ".ssh", "id_" ++ profile.Name]) ∧
        (scanLines text).countP (isMarkerLineFor profile.Name) = 1 ∧
        (scanLines text).countP (isHostLineFor (GetHostAlias profile.Name)) = 1) := by
  refine ⟨ensureProfileEntry_twice sm filepathJoin fs profile hnl hend hfit, ?_⟩
  intro hne hkey hnb
  rw [ensureProfileEntry_twice sm filepathJoin fs profile hnl hend hfit]
  have hforeign : ∀ line ∈ scanLines ((fs.get sm.sshConfigPath).getD ""),
      isForeign profile.Name line = true := by
    cases hg : fs.get sm.sshConfigPath with
    | none =>
      intro line hline
      have : scanLines "" = [] := by decide
      simp only [Option.getD_none, this] at hline
      cases hline
    | some text => exact hnb text hg
  have hmark : ∀ line ∈ scanLines ((fs.get sm.sshConfigPath).getD ""),
      isMarkerLineFor profile.Name line = false := by
    intro line hline
    have := hforeign line hline
    simp only [isForeign, Bool.and_eq_true, Bool.not_eq_true'] at this
    exact this.1
  have hhost : ∀ line ∈ scanLines ((fs.get sm.sshConfigPath).getD ""),
      isHostLineFor ("github.com-" ++ profile.Name) line = false := by
    intro line hline
    have := hforeign line hline
    simp only [isForeign, Bool.and_eq_true, Bool.not_eq_true'] at this
    exact this.2
  have hnoex : sm.entryExists fs ("github.com-" ++ profile.Name) = false := by
    unfold ConfigManager.entryExists
    cases hg : fs.get sm.sshConfigPath with
    | none => rfl
    | some text =>
      rw [hg] at hhost
      simp only [Option.getD_some] at hhost
      rw [List.any_eq_false]
      intro line hline
      rw [hhost line (mem_scanFile text line hline)]
      decide
  obtain ⟨c, hlast⟩ : ∃ c, profile.Name.data.getLast? = some c := by
    cases hd : profile.Name.data with
    | nil =>
      exfalso
      apply hne
      cases hp : profile.Name with
      | mk cs =>
        rw [hp] at hd
        simp only at hd
        rw [hd]
    | cons x xs => exact ⟨_, List.getLast?_eq_getLast (x :: xs) (by simp)⟩
  rcases ensureProfileEntry_cases sm filepathJoin fs profile with
    ⟨hex, _, _⟩ | ⟨_, fs', content, hcontent, hfs, _⟩
  · rw [hnoex] at hex
    cases hex
  · rw [hfs, hcontent]
    have hblankM : isMarkerLineFor profile.Name "" = false := by
      have : HasPrefix (TrimSpace "") "#" = false := by decide
      simp [isMarkerLineFor, this]
    have hblankH : isHostLineFor ("github.com-" ++ profile.Name) "" = false := by
      have : HasPrefix (TrimSpace "") "Host " = false := by decide
      simp [isHostLineFor, this]
    refine ⟨content ++ entryText profile.Name (GetHostAlias profile.Name)
      (filepathJoin [sm.homeDir, ".ssh", "id_" ++ profile.Name]), ?_, rfl, ?_, ?_⟩
    · rw [GoMap.get_set, if_pos rfl]
      rfl
    · simp only [GetHostAlias]
      rw [scanLines_after_append content profile.Name _ hnl hkey,
        List.countP_append, countP_front _ hblankM content (hcontent ▸ hmark)]
      obtain ⟨t₂, h₂⟩ := trim_dropCR_head 'H'
        ("ost ".data ++ ("github.com-" ++ profile.Name).data) (by decide)
      obtain ⟨t₅, h₅⟩ := identityLine_head
        (filepathJoin [sm.homeDir, ".ssh", "id_" ++ profile.Name]).data
      have e₁ := marker_isMarkerLineFor profile.Name c hlast (hend c hlast)
      have e₂ := not_marker_of_head profile.Name
        (String.mk (dropCR ("Host ".data ++ ("github.com-" ++ profile.Name).data))) 'H' t₂ h₂
        (by decide)
      have e₃ := not_marker_of_head profile.Name
        (String.mk (dropCR "    HostName github.com".data)) 'H' "ostName github.com".data
        (by decide) (by decide)
      have e₄ := not_marker_of_head profile.Name
        (String.mk (dropCR "    User git".data)) 'U' "ser git".data (by decide) (by decide)
      have e₅ := not_marker_of_head profile.Name
        (String.mk (dropCR ("    IdentityFile ".data ++
          (filepathJoin [sm.homeDir, ".ssh", "id_" ++ profile.Name]).data))) 'I' t₅ h₅
        (by decide)
      have e₆ := not_marker_of_head profile.Name
        (String.mk (dropCR "    IdentitiesOnly yes".data)) 'I' "dentitiesOnly yes".data
        (by decide) (by decide)
      simp only [List.countP_cons, List.countP_nil, e₁, e₂, e₃, e₄, e₅, e₆, if_true,
        Bool.false_eq_true, if_false]
    · simp only [GetHostAlias]
      rw [scanLines_after_append content profile.Name _ hnl hkey,
        List.countP_append, countP_front _ hblankH content (hcontent ▸ hhost)]
      obtain ⟨t₁, h₁⟩ := trim_dropCR_head '#'
        (" GitHub profile: ".data ++ profile.Name.data) (by decide)
      obtain ⟨t₅, h₅⟩ := identityLine_head
        (filepathJoin [sm.homeDir, ".ssh", "id_" ++ profile.Name]).data
      have e₁ := not_host_of_head ("github.com-" ++ profile.Name)
        (String.mk (dropCR ("# GitHub profile: ".data ++ profile.Name.data))) '#' t₁ h₁
        (by decide)
      have e₂ := hostHeader_isHostLineFor profile.Name hend
      have e₃ : isHostLineFor ("github.com-" ++ profile.Name)
          (String.mk (dropCR "    HostName github.com".data)) = false := by
        have : HasPrefix (TrimSpace (String.mk (dropCR "    HostName github.com".data)))
            "Host " = false := by decide
        simp [isHostLineFor, this]
      have e₄ := not_host_of_head ("github.com-" ++ profile.Name)
        (String.mk (dropCR "    User git".data)) 'U' "ser git".data (by decide) (by decide)
      have e₅ := not_host_of_head ("github.com-" ++ profile.Name)
        (String.mk (dropCR ("    IdentityFile ".data ++
          (filepathJoin [sm.homeDir, ".ssh", "id_" ++ profile.Name]).data))) 'I' t₅ h₅
        (by decide)
      have e₆ := not_host_of_head ("github.com-" ++ profile.Name)
        (String.mk (dropCR "    IdentitiesOnly yes".data)) 'I' "dentitiesOnly yes".data
        (by decide) (by decide)
      simp only [List.countP_cons, List.countP_nil, e₁, e₂, e₃, e₄, e₅, e₆, if_true,
        Bool.false_eq_true, if_false]

/-- C15 at an absent configuration file and the profile `work`: after two calls
the file holds the entry once. -/
theorem ensureProfileEntry_idempotent_witness :
    (sampleManager.EnsureProfileEntry joinOfClean
        (sampleManager.EnsureProfileEntry joinOfClean []
          ⟨"work", ["a@x.com"], "a@x.com", "", "", ""⟩).1
        (sampleManager.EnsureProfileEntry joinOfClean []
          ⟨"work", ["a@x.com"], "a@x.com", "", "", ""⟩).2.1).1.get "/h/.ssh/config" =
      some ("\n# GitHub profile: work\nHost github.com-work\n    HostName github.com\n" ++
        "    User git\n    IdentityFile /h/.ssh/id_work\n    IdentitiesOnly yes\n") ∧
    (sampleManager.EnsureProfileEntry joinOfClean
        (sampleManager.EnsureProfileEntry joinOfClean []
          ⟨"work", ["a@x.com"], "a@x.com", "", "", ""⟩).1
        (sampleManager.EnsureProfileEntry joinOfClean []
          ⟨"work", ["a@x.com"], "a@x.com", "", "", ""⟩).2.1).1 =
      (sampleManager.EnsureProfileEntry joinOfClean []
        ⟨"work", ["a@x.com"], "a@x.com", "", "", ""⟩).1 :=
  ⟨by decide,
   (ensureProfileEntry_idempotent sampleManager joinOfClean []
      ⟨"work", ["a@x.com"], "a@x.com", "", "", ""⟩ (by decide)
      (fun c hc => by
        have hk : c = 'k' := by
          have : some 'k' = some c := hc
          exact (Option.some.inj this).symm
        rw [hk]
        decide)
      (by decide)).1⟩

/-- C15 as stated fails for a profile name with a line feed and for one that
ends in a space, where the scan never finds the Host header it wrote, and on
a text with a line of 64 KiB, where the scan stops before the entry: the second
call appends the entry again. -/
theorem ensureProfileEntry_appends_again :
    (sampleManager.EnsureProfileEntry joinOfClean
        (sampleManager.EnsureProfileEntry joinOfClean []
          ⟨"a\nb", ["a@x.com"], "a@x.com", "", "", ""⟩).1
        (sampleManager.EnsureProfileEntry joinOfClean []
          ⟨"a\nb", ["a@x.com"], "a@x.com", "", "", ""⟩).2.1).1.get "/h/.ssh/config" ≠
      (sampleManager.EnsureProfileEntry joinOfClean []
        ⟨"a\nb", ["a@x.com"], "a@x.com", "", "", ""⟩).1.get "/h/.ssh/config" ∧
    (sampleManager.EnsureProfileEntry joinOfClean
        (sampleManager.EnsureProfileEntry joinOfClean []
          ⟨"w ", ["a@x.com"], "a@x.com", "", "", ""⟩).1
        (sampleManager.EnsureProfileEntry joinOfClean []
          ⟨"w ", ["a@x.com"], "a@x.com", "", "", ""⟩).2.1).1.get "/h/.ssh/config" ≠
      (sampleManager.EnsureProfileEntry joinOfClean []
        ⟨"w ", ["a@x.com"], "a@x.com", "", "", ""⟩).1.get "/h/.ssh/config" ∧
    (sampleManager.EnsureProfileEntry joinOfClean
        (sampleManager.EnsureProfileEntry joinOfClean [("/h/.ssh/config", longLine)]
          ⟨"work", ["a@x.com"], "a@x.com", "", "", ""⟩).1
        (sampleManager.EnsureProfileEntry joinOfClean [("/h/.ssh/config", longLine)]
          ⟨"work", ["a@x.com"], "a@x.com", "", "", ""⟩).2.1).1.get "/h/.ssh/config" ≠
      (sampleManager.EnsureProfileEntry joinOfClean [("/h/.ssh/config", longLine)]
        ⟨"work", ["a@x.com"], "a@x.com", "", "", ""⟩).1.get "/h/.ssh/config" :=
  ⟨by decide, by decide, fun h =>
    ensureProfileEntry_longLine_twice.2.2
      (Option.some.inj ((ensureProfileEntry_longLine_twice.2.1.symm.trans h).trans
        ensureProfileEntry_longLine_twice.1))⟩

/-- C18: when the configuration already has the Host header of the profile
`work2`, `EnsureProfileEntry` for the profile `work` returns success without
writing anything, and no line of the file is `Host github.com-work`. -/
theorem ensureProfileEntry_skips_on_longer_alias :
    sampleManager.EnsureProfileEntry joinOfClean
        [("/h/.ssh/config", "Host github.com-work2\n")]
        ⟨"work", ["a@x.com"], "a@x.com", "", "", ""⟩ =
      ([("/h/.ssh/config", "Host github.com-work2\n")],
        ⟨"work", ["a@x.com"], "a@x.com", "", "", "/h/.ssh/id_work"⟩, none) ∧
    scanLines "Host github.com-work2\n" = ["Host github.com-work2"] ∧
    "Host " ++ GetHostAlias "work" ∉ scanLines "Host github.com-work2\n" := by
  decide

end ssh

/-! ## Git configuration: the profile settings file -/

theorem scanLinesAux_lines (ls : List (List Char))
    (h : ∀ l ∈ ls, '\n' ∉ l ∧ '\r' ∉ l) :
    scanLinesAux [] (ls.flatMap (fun l => l ++ ['\n'])) = ls := by
  induction ls with
  | nil => rfl
  | cons l rest ih =>
    obtain ⟨hnl, hcr⟩ := h l (List.mem_cons_self _ _)
    have hdrop : dropCR l = l := by
      apply dropCR_of_last
      intro c hc hcr'
      apply hcr
      rw [← hcr']
      exact List.mem_of_getLast?_eq_some hc
    rw [List.flatMap_cons, List.append_assoc, List.singleton_append, scanLinesAux_append_nl,
      scanLinesAux_line [] l hnl, ih (fun x hx => h x (List.mem_cons_of_mem _ hx))]
    simp [hdrop]

namespace git

theorem profileConfigContent_data (profile : Profile) :
    (profileConfigContent profile).data =
      ((profileConfigLines profile).map (fun l => l.data)).flatMap (fun l => l ++ ['\n']) := by
  unfold profileConfigContent profileConfigLines
  by_cases hG : profile.GitName = "" <;> by_cases hK : profile.GPGKey = "" <;>
    by_cases hP : profile.SSHKeyPath = "" <;>
    simp [hG, hK, hP, String.data_append, List.flatMap_cons, List.append_assoc]

theorem profileConfigLines_clean (profile : Profile)
    (hN : NoLineBreak profile.Name) (hE : NoLineBreak profile.PrimaryEmail)
    (hG : NoLineBreak profile.GitName) (hK : NoLineBreak profile.GPGKey)
    (hP : NoLineBreak profile.SSHKeyPath) :
    ∀ l ∈ (profileConfigLines profile).map (fun l => l.data), '\n' ∉ l ∧ '\r' ∉ l := by
  obtain ⟨hN₁, hN₂⟩ := hN
  obtain ⟨hE₁, hE₂⟩ := hE
  obtain ⟨hG₁, hG₂⟩ := hG
  obtain ⟨hK₁, hK₂⟩ := hK
  obtain ⟨hP₁, hP₂⟩ := hP
  unfold profileConfigLines
  by_cases hGe : profile.GitName = "" <;> by_cases hKe : profile.GPGKey = "" <;>
    by_cases hPe : profile.SSHKeyPath = "" <;>
    simp [hGe, hKe, hPe, String.data_append, hN₁, hN₂, hE₁, hE₂, hG₁, hG₂, hK₁, hK₂, hP₁, hP₂]

theorem scanLines_profileConfigContent (profile : Profile)
    (hN : NoLineBreak profile.Name) (hE : NoLineBreak profile.PrimaryEmail)
    (hG : NoLineBreak profile.GitName) (hK : NoLineBreak profile.GPGKey)
    (hP : NoLineBreak profile.SSHKeyPath) :
    scanLines (profileConfigContent profile) = profileConfigLines profile := by
  unfold scanLines
  rw [profileConfigContent_data, scanLinesAux_lines _
    (profileConfigLines_clean profile hN hE hG hK hP), List.map_map]
  conv_rhs => rw [← List.map_id (profileConfigLines profile)]
  apply List.map_congr_left
  intro l _
  rfl

theorem setGlobalConfig_cases (run : GitRun) (global : GoMap String) (key value : String) :
    (run global ["config", "--global", key, value] = none ∧
      setGlobalConfig run global key value = (global.set key value, none)) ∨
    (∃ err output, run global ["config", "--global", key, value] = some (err, output) ∧
      setGlobalConfig run global key value =
        (global, some ("git config failed: " ++ err ++ "\n" ++ output))) := by
  unfold setGlobalConfig
  cases h : run global ["config", "--global", key, value] with
  | none => exact Or.inl ⟨rfl, rfl⟩
  | some eo =>
    obtain ⟨err, output⟩ := eo
    exact Or.inr ⟨err, output, rfl, rfl⟩

theorem setGlobalConfig_frame (run : GitRun) (global : GoMap String) (key value k : String)
    (hk : k ≠ key) : (setGlobalConfig run global key value).1.get k = global.get k := by
  rcases setGlobalConfig_cases run global key value with ⟨_, h⟩ | ⟨_, _, _, h⟩
  · rw [h, GoMap.get_set, if_neg hk]
  · rw [h]

theorem unsetGlobalConfig_frame (run : GitRun) (global : GoMap String) (key k : String)
    (hk : k ≠ key) : (unsetGlobalConfig run global key).1.get k = global.get k := by
  unfold unsetGlobalConfig
  cases run global ["config", "--global", "--unset", key] with
  | none => simp only [GoMap.get_delete, if_neg hk]
  | some _ => rfl

theorem setupProfile_writes (gm : ConfigManager) (filepathJoin : List String → String)
    (Abs : String → Except String String) (run : GitRun) (w : World) (profile : Profile)
    (directoryPath : String) :
    (gm.SetupProfile filepathJoin Abs run w profile directoryPath).1.files =
      w.files.set (filepathJoin [gm.homeDir, ".gitconfig-" ++ profile.Name])
        (profileConfigContent profile) := by
  unfold ConfigManager.SetupProfile
  simp only
  split
  · split
    · rfl
    · split
      · split <;> rfl
      · split
        · split <;> rfl
        · rfl
  · rfl

theorem profileConfigLines_sections (profile : Profile) :
    ("[user]" ∈ profileConfigLines profile ∧
      "\temail = " ++ profile.PrimaryEmail ∈ profileConfigLines profile) ∧
    ((profileConfigLines profile).any (fun l => HasPrefix l "\tname = ") = true ↔
      profile.GitName ≠ "") ∧
    ((profileConfigLines profile).any (fun l => HasPrefix l "\tsigningkey = ") = true ↔
      profile.GPGKey ≠ "") ∧
    ((profileConfigLines profile).any (fun l => HasPrefix l "[commit]") = true ↔
      profile.GPGKey ≠ "") ∧
    ((profileConfigLines profile).any (fun l => HasPrefix l "\tgpgsign = true") = true ↔
      profile.GPGKey ≠ "") ∧
    ((profileConfigLines profile).any (fun l => HasPrefix l "[core]") = true ↔
      profile.SSHKeyPath ≠ "") ∧
    ((profileConfigLines profile).any (fun l => HasPrefix l "\tsshCommand = ") = true ↔
      profile.SSHKeyPath ≠ "") := by
  unfold profileConfigLines
  by_cases hG : profile.GitName = "" <;> by_cases hK : profile.GPGKey = "" <;>
    by_cases hP : profile.SSHKeyPath = "" <;>
    simp [hG, hK, hP, HasPrefix, String.data_append, List.isPrefixOf]

/-- C19, as amended: whatever the files held before, `SetupProfile` leaves at
the profile's settings path the text built from the profile alone. For a
profile whose name, primary email, display name, signing key and key file path
contain no line break, the lines of that text are the header, `[user]`, the
email line, then the name line exactly when the display name is non-empty, the
signing-key line with `[commit]` and `gpgsign = true` exactly when the signing
key is non-empty, and `[core]` with the `sshCommand` line exactly when the key
file path is non-empty. -/
theorem setupProfile_settings (gm : ConfigManager) (filepathJoin : List String → String)
    (Abs : String → Except String String) (run : GitRun) (w : World) (profile : Profile)
    (directoryPath : String)
    (hN : NoLineBreak profile.Name) (hE : NoLineBreak profile.PrimaryEmail)
    (hG : NoLineBreak profile.GitName) (hK : NoLineBreak profile.GPGKey)
    (hP : NoLineBreak profile.SSHKeyPath) :
    (gm.SetupProfile filepathJoin Abs run w profile directoryPath).1.files.get
        (filepathJoin [gm.homeDir, ".gitconfig-" ++ profile.Name]) =
      some (profileConfigContent profile) ∧
    scanLines (profileConfigContent profile) = profileConfigLines profile ∧
    ("[user]" ∈ scanLines (profileConfigContent profile) ∧
      "\temail = " ++ profile.PrimaryEmail ∈ scanLines (profileConfigContent profile)) ∧
    ((scanLines (profileConfigContent profile)).any (fun l => HasPrefix l "\tname = ") = true ↔
      profile.GitName ≠ "") ∧
    ((scanLines (profileConfigContent profile)).any
        (fun l => HasPrefix l "\tsigningkey = ") = true ↔ profile.GPGKey ≠ "") ∧
    ((scanLines (profileConfigContent profile)).any (fun l => HasPrefix l "[commit]") = true ↔
      profile.GPGKey ≠ "") ∧
    ((scanLines (profileConfigContent profile)).any
        (fun l => HasPrefix l "\tgpgsign = true") = true ↔ profile.GPGKey ≠ "") ∧
    ((scanLines (profileConfigContent profile)).any (fun l => HasPrefix l "[core]") = true ↔
      profile.SSHKeyPath ≠ "") ∧
    ((scanLines (profileConfigContent profile)).any
        (fun l => HasPrefix l "\tsshCommand = ") = true ↔ profile.SSHKeyPath ≠ "") := by
  refine ⟨?_, scanLines_profileConfigContent profile hN hE hG hK hP, ?_⟩
  · rw [setupProfile_writes, GoMap.get_set, if_pos rfl]
  · rw [scanLines_profileConfigContent profile hN hE hG hK hP]
    exact profileConfigLines_sections profile

/-- C19 at the profile `sampleProfile`, written over a stale settings file. -/
theorem setupProfile_settings_witness :
    (sampleManager.SetupProfile joinOfClean absOfClean gitRuns
        ⟨[("/h/.gitconfig-work", "[user]\n\tname = Old\n[core]\n\tsshCommand = ssh\n")], []⟩
        sampleProfile "").1.files.get "/h/.gitconfig-work" =
      some ("# Git configuration for profile: work\n[user]\n\temail = a@x.com\n" ++
        "\tname = Ann\n\tsigningkey = ABCDEF12\n[commit]\n\tgpgsign = true\n") ∧
    scanLines (profileConfigContent sampleProfile) = profileConfigLines sampleProfile :=
  ⟨by decide,
   (setupProfile_settings sampleManager joinOfClean absOfClean gitRuns ⟨[], []⟩ sampleProfile ""
      ⟨by decide, by decide⟩ ⟨by decide, by decide⟩ ⟨by decide, by decide⟩
      ⟨by decide, by decide⟩ ⟨by decide, by decide⟩).2.1⟩

/-- C19 as stated fails for a profile whose name holds a line feed: with the
name `w` followed by a line feed and `name = `, and an empty display name, the
text written has a name line. -/
theorem setupProfile_name_line_from_profile_name :
    (Profile.mk "w\n\tname = " ["a@x.com"] "a@x.com" "" "" "").GitName = "" ∧
    profileConfigContent (Profile.mk "w\n\tname = " ["a@x.com"] "a@x.com" "" "" "") =
      "# Git configuration for profile: w\n\tname = \n[user]\n\temail = a@x.com\n" ∧
    (scanLines (profileConfigContent
      (Profile.mk "w\n\tname = " ["a@x.com"] "a@x.com" "" "" ""))).any
        (fun l => HasPrefix l "\tname = ") = true := by
  decide

/-! ## Git configuration: the conditional include -/

/-- The three outcomes of `SetupProfile` on the global configuration, for a
non-empty directory that resolves: the key is written, or it is left because
its trimmed value is the settings path already, or the write fails. -/
theorem setupProfile_global (gm : ConfigManager) (filepathJoin : List String → String)
    (Abs : String → Except String String) (run : GitRun) (w : World) (profile : Profile)
    (directoryPath absPath : String) (hdir : directoryPath ≠ "")
    (habs : Abs directoryPath = .ok absPath) :
    (run w.global ["config", "--global", includeIfSection absPath,
        filepathJoin [gm.homeDir, ".gitconfig-" ++ profile.Name]] = none ∧
      (gm.SetupProfile filepathJoin Abs run w profile directoryPath).2 = none ∧
      (gm.SetupProfile filepathJoin Abs run w profile directoryPath).1.global =
        w.global.set (includeIfSection absPath)
          (filepathJoin [gm.homeDir, ".gitconfig-" ++ profile.Name])) ∨
    ((gm.SetupProfile filepathJoin Abs run w profile directoryPath).2 = none ∧
      (gm.SetupProfile filepathJoin Abs run w profile directoryPath).1.global = w.global ∧
      getGlobalConfig run w.global (includeIfSection absPath) =
        filepathJoin [gm.homeDir, ".gitconfig-" ++ profile.Name] ∧
      getGlobalConfig run w.global (includeIfSection absPath) ≠ "") ∨
    ((∃ eo, run w.global ["config", "--global", includeIfSection absPath,
        filepathJoin [gm.homeDir, ".gitconfig-" ++ profile.Name]] = some eo) ∧
      (∃ msg, (gm.SetupProfile filepathJoin Abs run w profile directoryPath).2 = some msg) ∧
      (gm.SetupProfile filepathJoin Abs run w profile directoryPath).1.global = w.global) := by
  unfold ConfigManager.SetupProfile
  simp only [hdir, ne_eq, not_false_eq_true, if_true, habs]
  by_cases h₁ : getGlobalConfig run w.global (includeIfSection absPath) = ""
  · rcases setGlobalConfig_cases run w.global (includeIfSection absPath)
        (filepathJoin [gm.homeDir, ".gitconfig-" ++ profile.Name]) with ⟨hr, h⟩ | ⟨e, o, hr, h⟩
    · left
      simp [h₁, h, hr]
    · right; right
      simp [h₁, h, hr]
  · by_cases h₂ : getGlobalConfig run w.global (includeIfSection absPath) =
        filepathJoin [gm.homeDir, ".gitconfig-" ++ profile.Name]
    · right; left
      have hp : ¬ filepathJoin [gm.homeDir, ".gitconfig-" ++ profile.Name] = "" :=
        fun e => h₁ (h₂.trans e)
      simp [h₂, hp]
    · rcases setGlobalConfig_cases run w.global (includeIfSection absPath)
          (filepathJoin [gm.homeDir, ".gitconfig-" ++ profile.Name]) with
        ⟨hr, h⟩ | ⟨e, o, hr, h⟩
      · left
        simp [h₁, h₂, h, hr]
      · right; right
        simp [h₁, h₂, h, hr]

/-- What `SetupProfile` does to the global configuration and what it returns
depend on the global configuration only, not on the files. -/
theorem setupProfile_global_congr (gm : ConfigManager) (filepathJoin : List String → String)
    (Abs : String → Except String String) (run : GitRun) (w₁ w₂ : World) (profile : Profile)
    (directoryPath : String) (h : w₁.global = w₂.global) :
    (gm.SetupProfile filepathJoin Abs run w₁ profile directoryPath).1.global =
      (gm.SetupProfile filepathJoin Abs run w₂ profile directoryPath).1.global ∧
    (gm.SetupProfile filepathJoin Abs run w₁ profile directoryPath).2 =
      (gm.SetupProfile filepathJoin Abs run w₂ profile directoryPath).2 := by
  unfold ConfigManager.SetupProfile
  simp only [h]
  split
  · split
    · exact ⟨rfl, rfl⟩
    · split
      · split <;> exact ⟨rfl, rfl⟩
      · split
        · split <;> exact ⟨rfl, rfl⟩
        · exact ⟨rfl, rfl⟩
  · exact ⟨rfl, rfl⟩

/-- C20, as amended: for a non-empty directory whose absolute path is
`absPath`, and a prior map in which the include key is unset or holds a value
that is the settings-file path itself or differs from it once trimmed of
surrounding white space: `SetupProfile` succeeds when git accepts the write of
the include key; after it succeeds the include key maps to the profile's
settings-file path; every other key is unchanged; and a second identical call
leaves every key as the first call left it. -/
theorem setupProfile_includeIf (gm : ConfigManager) (filepathJoin : List String → String)
    (Abs : String → Except String String) (run : GitRun) (w : World) (profile : Profile)
    (directoryPath absPath : String) (hdir : directoryPath ≠ "")
    (habs : Abs directoryPath = .ok absPath)
    (hprior : ∀ value, w.global.get (includeIfSection absPath) = some value →
      TrimSpace (value ++ "\n") = filepathJoin [gm.homeDir, ".gitconfig-" ++ profile.Name] →
      value = filepathJoin [gm.homeDir, ".gitconfig-" ++ profile.Name]) :
    (run w.global ["config", "--global", includeIfSection absPath,
        filepathJoin [gm.homeDir, ".gitconfig-" ++ profile.Name]] = none →
      (gm.SetupProfile filepathJoin Abs run w profile directoryPath).2 = none) ∧
    ((gm.SetupProfile filepathJoin Abs run w profile directoryPath).2 = none →
      (gm.SetupProfile filepathJoin Abs run w profile directoryPath).1.global.get
          (includeIfSection absPath) =
        some (filepathJoin [gm.homeDir, ".gitconfig-" ++ profile.Name])) ∧
    (∀ key, key ≠ includeIfSection absPath →
      (gm.SetupProfile filepathJoin Abs run w profile directoryPath).1.global.get key =
        w.global.get key) ∧
    (∀ key,
      (gm.SetupProfile filepathJoin Abs run
          (gm.SetupProfile filepathJoin Abs run w profile directoryPath).1 profile
          directoryPath).1.global.get key =
        (gm.SetupProfile filepathJoin Abs run w profile directoryPath).1.global.get key) := by
  have hglobal :=
    setupProfile_global gm filepathJoin Abs run w profile directoryPath absPath hdir habs
  have hkey : (gm.SetupProfile filepathJoin Abs run w profile directoryPath).2 = none →
      (gm.SetupProfile filepathJoin Abs run w profile directoryPath).1.global.get
        (includeIfSection absPath) =
      some (filepathJoin [gm.homeDir, ".gitconfig-" ++ profile.Name]) := by
    intro hok
    rcases hglobal with ⟨_, _, hset⟩ | ⟨_, hsame, hget, hne⟩ | ⟨_, ⟨msg, hmsg⟩, _⟩
    · rw [hset, GoMap.get_set, if_pos rfl]
    · rw [hsame]
      unfold getGlobalConfig at hget hne
      cases hr : run w.global ["config", "--global", "--get", includeIfSection absPath] with
      | some eo =>
        rw [hr] at hne
        exact absurd rfl hne
      | none =>
        rw [hr] at hget hne
        cases hg : w.global.get (includeIfSection absPath) with
        | none =>
          rw [hg] at hne
          exact absurd rfl hne
        | some value =>
          rw [hg] at hget
          rw [hprior value hg hget]
    · rw [hmsg] at hok
      cases hok
  refine ⟨?_, hkey, ?_, ?_⟩
  · intro hrun
    rcases hglobal with ⟨_, hok, _⟩ | ⟨hok, _⟩ | ⟨⟨eo, heo⟩, _⟩
    · exact hok
    · exact hok
    · rw [hrun] at heo
      cases heo
  · intro key hne
    rcases hglobal with ⟨_, _, hset⟩ | ⟨_, hsame, _⟩ | ⟨_, _, hsame⟩
    · rw [hset, GoMap.get_set, if_neg hne]
    · rw [hsame]
    · rw [hsame]
  · intro key
    have hglobal₂ := setupProfile_global gm filepathJoin Abs run
      (gm.SetupProfile filepathJoin Abs run w profile directoryPath).1 profile directoryPath
      absPath hdir habs
    rcases hglobal₂ with ⟨_, hok₂, hset⟩ | ⟨_, hsame, _⟩ | ⟨_, _, hsame⟩
    · rw [hset, GoMap.get_set]
      by_cases hk : key = includeIfSection absPath
      · rw [if_pos hk, hk]
        rcases hglobal with ⟨_, hok, _⟩ | ⟨hok, _⟩ | ⟨_, ⟨msg, hmsg⟩, hsame₁⟩
        · exact (hkey hok).symm
        · exact (hkey hok).symm
        · exfalso
          have hcongr := setupProfile_global_congr gm filepathJoin Abs run
            (gm.SetupProfile filepathJoin Abs run w profile directoryPath).1 w profile
            directoryPath hsame₁
          have hfail : (gm.SetupProfile filepathJoin Abs run
              (gm.SetupProfile filepathJoin Abs run w profile directoryPath).1 profile
              directoryPath).2 = some msg := hcongr.2.trans hmsg
          rw [hfail] at hok₂
          cases hok₂
      · rw [if_neg hk]
    · rw [hsame]
    · rw [hsame]

/-- C20 at the directory `/p` and a prior map in which the include key points
to another file. -/
theorem setupProfile_includeIf_witness :
    (sampleManager.SetupProfile joinOfClean absOfClean gitRuns
        ⟨[], [("includeIf.gitdir:/p/.path", "/h/.gitconfig-home")]⟩ sampleProfile
        "/p").1.global.get "includeIf.gitdir:/p/.path" = some "/h/.gitconfig-work" ∧
    (sampleManager.SetupProfile joinOfClean absOfClean gitRuns
        ⟨[], [("includeIf.gitdir:/p/.path", "/h/.gitconfig-home")]⟩ sampleProfile
        "/p").2 = none ∧
    (sampleManager.SetupProfile joinOfClean absOfClean gitRuns
        ⟨[], [("includeIf.gitdir:/p/.path", "/h/.gitconfig-home")]⟩ sampleProfile
        "/p").1.global.get (includeIfSection "/p") =
      some (joinOfClean [sampleManager.homeDir, ".gitconfig-" ++ sampleProfile.Name]) :=
  ⟨by decide,
   (setupProfile_includeIf sampleManager joinOfClean absOfClean gitRuns
      ⟨[], [("includeIf.gitdir:/p/.path", "/h/.gitconfig-home")]⟩ sampleProfile "/p" "/p"
      (by decide) rfl
      (fun value hv ht => by
        have hvalue : value = "/h/.gitconfig-home" := by
          have : some "/h/.gitconfig-home" = some value := hv
          exact (Option.some.inj this).symm
        subst hvalue
        exact absurd ht (by decide))).1 rfl,
   (setupProfile_includeIf sampleManager joinOfClean absOfClean gitRuns
      ⟨[], [("includeIf.gitdir:/p/.path", "/h/.gitconfig-home")]⟩ sampleProfile "/p" "/p"
      (by decide) rfl
      (fun value hv ht => by
        have hvalue : value = "/h/.gitconfig-home" := by
          have : some "/h/.gitconfig-home" = some value := hv
          exact (Option.some.inj this).symm
        subst hvalue
        exact absurd ht (by decide))).2.1 (by decide)⟩

/-- C20 as stated fails when the include key holds the settings-file path
followed by a space: the trimmed value equals the path, so `SetupProfile`
leaves the key as it was. -/
theorem setupProfile_keeps_padded_value :
    sampleManager.SetupProfile joinOfClean absOfClean gitRuns
        ⟨[], [("includeIf.gitdir:/p/.path", "/h/.gitconfig-work ")]⟩ sampleProfile "/p" =
      (⟨[("/h/.gitconfig-work", profileConfigContent sampleProfile)],
        [("includeIf.gitdir:/p/.path", "/h/.gitconfig-work ")]⟩, none) ∧
    (sampleManager.SetupProfile joinOfClean absOfClean gitRuns
        ⟨[], [("includeIf.gitdir:/p/.path", "/h/.gitconfig-work ")]⟩ sampleProfile
        "/p").1.global.get (includeIfSection "/p") ≠
      some (joinOfClean [sampleManager.homeDir, ".gitconfig-" ++ sampleProfile.Name]) := by
  decide

end git

/-! ## Directory resolver: rule order and freshly added rules -/

theorem foldl_bestStep_improves (q : String) (rules : List DirectoryRule)
    (best : String × Nat) :
    rules.foldl (bestStep q) best = best ∨
      ∃ r ∈ rules, HasPrefix q r.Path = true ∧ best.2 < len r.Path ∧
        rules.foldl (bestStep q) best = (r.Profile, len r.Path) := by
  induction rules generalizing best with
  | nil => exact Or.inl rfl
  | cons r rs ih =>
    rw [List.foldl_cons]
    by_cases hc : (len r.Path > best.2 && HasPrefix q r.Path) = true
    · have hstep : bestStep q best r = (r.Profile, len r.Path) := by
        simp only [bestStep, hc, if_true]
      simp only [Bool.and_eq_true, decide_eq_true_eq] at hc
      rw [hstep]
      right
      rcases ih (r.Profile, len r.Path) with h | ⟨r', hr', hp', hlt, h⟩
      · exact ⟨r, List.mem_cons_self _ _, hc.2, hc.1, h⟩
      · exact ⟨r', List.mem_cons_of_mem _ hr', hp', Nat.lt_trans hc.1 hlt, h⟩
    · have hstep : bestStep q best r = best := by
        simp only [bestStep, hc, Bool.false_eq_true, if_false]
      rw [hstep]
      rcases ih best with h | ⟨r', hr', hp', hlt, h⟩
      · exact Or.inl h
      · exact Or.inr ⟨r', List.mem_cons_of_mem _ hr', hp', hlt, h⟩

theorem exactMatch_of_mem {rules : List DirectoryRule} {q : String} {r : DirectoryRule}
    (hnodup : (rulePaths rules).Nodup) (hr : r ∈ rules) (hp : r.Path = q) :
    exactMatch rules q = some r := by
  cases hem : exactMatch rules q with
  | none =>
    have := List.find?_eq_none.1 hem r hr
    simp [hp] at this
  | some r' =>
    obtain ⟨hr', hp'⟩ := exactMatch_some hem
    rw [List.inj_on_of_nodup_map hnodup hr' hr (hp'.trans hp.symm)]

theorem exactMatch_congr {rules₁ rules₂ : List DirectoryRule} (q : String)
    (hmem : ∀ r, r ∈ rules₁ ↔ r ∈ rules₂) (h₁ : (rulePaths rules₁).Nodup)
    (h₂ : (rulePaths rules₂).Nodup) : exactMatch rules₁ q = exactMatch rules₂ q := by
  cases hem : exactMatch rules₁ q with
  | some r =>
    obtain ⟨hr, hp⟩ := exactMatch_some hem
    exact (exactMatch_of_mem h₂ ((hmem r).1 hr) hp).symm
  | none =>
    cases hem₂ : exactMatch rules₂ q with
    | none => rfl
    | some r =>
      obtain ⟨hr, hp⟩ := exactMatch_some hem₂
      rw [exactMatch_of_mem h₁ ((hmem r).2 hr) hp] at hem
      cases hem

theorem bestPrefix_congr {rules₁ rules₂ : List DirectoryRule} (q : String)
    (hmem : ∀ r, r ∈ rules₁ ↔ r ∈ rules₂) (h₁ : (rulePaths rules₁).Nodup) :
    bestPrefix rules₁ q = bestPrefix rules₂ q := by
  obtain ⟨_, _, hmax₁⟩ := foldl_bestStep_spec q rules₁ ("", 0)
  obtain ⟨_, _, hmax₂⟩ := foldl_bestStep_spec q rules₂ ("", 0)
  unfold bestPrefix
  rcases foldl_bestStep_improves q rules₁ ("", 0) with e₁ | ⟨r₁, hr₁, hp₁, hlt₁, e₁⟩ <;>
    rcases foldl_bestStep_improves q rules₂ ("", 0) with e₂ | ⟨r₂, hr₂, hp₂, hlt₂, e₂⟩
  · rw [e₁, e₂]
  · have := hmax₁ r₂ ((hmem r₂).2 hr₂) hp₂
    rw [e₁] at this
    simp only at this hlt₂
    omega
  · have := hmax₂ r₁ ((hmem r₁).1 hr₁) hp₁
    rw [e₂] at this
    simp only at this hlt₁
    omega
  · have hle₁ := hmax₁ r₂ ((hmem r₂).2 hr₂) hp₂
    have hle₂ := hmax₂ r₁ ((hmem r₁).1 hr₁) hp₁
    rw [e₁] at hle₁
    rw [e₂] at hle₂
    simp only at hle₁ hle₂
    have hpath : r₁.Path = r₂.Path :=
      eq_of_hasPrefix_of_len_eq hp₁ hp₂ (Nat.le_antisymm hle₂ hle₁)
    have hr : r₁ = r₂ := List.inj_on_of_nodup_map h₁ hr₁ ((hmem r₂).2 hr₂) hpath
    rw [e₁, e₂, hr]

/-- C22: for two stores whose rule lists are permutations of each other and
have pairwise distinct paths, `GetProfileForDirectory` returns the same
outcome on both for every query path: the same profile name, or the same
error. -/
theorem getProfileForDirectory_perm (c₁ c₂ : Config) (Abs : String → Except String String)
    (dir : String) (hperm : c₁.DirectoryRules.Perm c₂.DirectoryRules)
    (hnodup : (rulePaths c₁.DirectoryRules).Nodup) :
    c₁.GetProfileForDirectory Abs dir = c₂.GetProfileForDirectory Abs dir := by
  have hmem : ∀ r, r ∈ c₁.DirectoryRules ↔ r ∈ c₂.DirectoryRules := fun r => hperm.mem_iff
  have hnodup₂ : (rulePaths c₂.DirectoryRules).Nodup := by
    unfold rulePaths at hnodup ⊢
    exact (List.Perm.nodup_iff (hperm.map _)).1 hnodup
  unfold Config.GetProfileForDirectory
  cases Abs dir with
  | error err => rfl
  | ok absDir =>
    simp only
    rw [exactMatch_congr absDir hmem hnodup hnodup₂, bestPrefix_congr absDir hmem hnodup]

/-- C22 at the rules `/a/b -> p1` and `/a/b/c -> p2` in both orders, resolving
`/a/b/c/d`. -/
theorem getProfileForDirectory_perm_witness :
    (Config.mk [] [⟨"/a/b", "p1"⟩, ⟨"/a/b/c", "p2"⟩] "").GetProfileForDirectory
        absOfClean "/a/b/c/d" =
      (Config.mk [] [⟨"/a/b/c", "p2"⟩, ⟨"/a/b", "p1"⟩] "").GetProfileForDirectory
        absOfClean "/a/b/c/d" ∧
    (Config.mk [] [⟨"/a/b/c", "p2"⟩, ⟨"/a/b", "p1"⟩] "").GetProfileForDirectory
        absOfClean "/a/b/c/d" = .ok "p2" :=
  ⟨getProfileForDirectory_perm (Config.mk [] [⟨"/a/b", "p1"⟩, ⟨"/a/b/c", "p2"⟩] "")
      (Config.mk [] [⟨"/a/b/c", "p2"⟩, ⟨"/a/b", "p1"⟩] "") absOfClean "/a/b/c/d"
      (List.Perm.swap _ _ _) (by decide),
   by decide⟩

theorem exactMatch_updateRule {absPath profileName : String}
    {rules rules' : List DirectoryRule}
    (h : updateRule absPath profileName rules = some rules') :
    ∃ r, exactMatch rules' absPath = some r ∧ r.Profile = profileName := by
  induction rules generalizing rules' with
  | nil => simp [updateRule] at h
  | cons r rs ih =>
    by_cases hr : r.Path = absPath
    · simp only [updateRule, hr, if_true, Option.some.injEq] at h
      rw [← h]
      exact ⟨{ r with Profile := profileName }, by simp [exactMatch, hr], rfl⟩
    · simp only [updateRule, hr, if_false, Option.map_eq_some'] at h
      obtain ⟨rs', hrs', rfl⟩ := h
      obtain ⟨r', hr', hp'⟩ := ih hrs'
      refine ⟨r', ?_, hp'⟩
      simp only [exactMatch] at hr' ⊢
      rw [List.find?_cons_of_neg _ (by simpa using hr)]
      exact hr'

/-- C25: for any store, an absolute clean path and an existing profile name,
`AddDirectoryRule(path, p)` succeeds and `GetProfileForDirectory(path)` on the
store it leaves succeeds with `p`. -/
theorem addDirectoryRule_then_resolve (c : Config) (Abs : String → Except String String)
    (path profileName : String) (hq : Abs path = .ok path)
    (hp : (c.Profiles.get profileName).isSome = true) :
    (c.AddDirectoryRule Abs path profileName).2 = none ∧
    (c.AddDirectoryRule Abs path profileName).1.GetProfileForDirectory Abs path =
      .ok profileName := by
  obtain ⟨p, hg⟩ := Option.isSome_iff_exists.1 hp
  cases hu : updateRule path profileName c.DirectoryRules with
  | some rules =>
    have he : c.AddDirectoryRule Abs path profileName =
        ({ c with DirectoryRules := rules }, none) := by
      simp [Config.AddDirectoryRule, Config.GetProfile, hg, hq, hu]
    obtain ⟨r, hr, hprof⟩ := exactMatch_updateRule hu
    rw [he]
    refine ⟨rfl, ?_⟩
    simp only [Config.GetProfileForDirectory, hq, hr, hprof]
  | none =>
    have he : c.AddDirectoryRule Abs path profileName =
        ({ c with DirectoryRules :=
            c.DirectoryRules ++ [{ Path := path, Profile := profileName }] }, none) := by
      simp [Config.AddDirectoryRule, Config.GetProfile, hg, hq, hu]
    have hmem : path ∉ rulePaths c.DirectoryRules :=
      (updateRule_eq_none path profileName c.DirectoryRules).1 hu
    have hnone : exactMatch c.DirectoryRules path = none := by
      apply exactMatch_eq_none
      intro rule hrule heq
      exact hmem (heq ▸ List.mem_map_of_mem (fun rule => rule.Path) hrule)
    have hem : exactMatch (c.DirectoryRules ++ [{ Path := path, Profile := profileName }])
        path = some { Path := path, Profile := profileName } := by
      simp only [exactMatch] at hnone ⊢
      rw [List.find?_append, hnone]
      simp
    rw [he]
    refine ⟨rfl, ?_⟩
    simp only [Config.GetProfileForDirectory, hq, hem]

/-- C25 at the store `sampleStore` with a second rule at the same path added by
hand: the rule re-pointed by `AddDirectoryRule` is the one resolved. -/
theorem addDirectoryRule_then_resolve_witness :
    ({ sampleStore with
        Profiles := sampleStore.Profiles ++ [("home", ⟨"home", ["h@x.com"], "h@x.com", "", "", ""⟩)],
        DirectoryRules := [⟨"/home/u/work", "work"⟩, ⟨"/home/u/work", "work"⟩] } :
      Config).AddDirectoryRule absOfClean "/home/u/work" "home" =
      ({ sampleStore with
        Profiles := sampleStore.Profiles ++ [("home", ⟨"home", ["h@x.com"], "h@x.com", "", "", ""⟩)],
        DirectoryRules := [⟨"/home/u/work", "home"⟩, ⟨"/home/u/work", "work"⟩] }, none) ∧
    (sampleStore.AddDirectoryRule absOfClean "/srv/app" "work").2 = none ∧
    (sampleStore.AddDirectoryRule absOfClean "/srv/app" "work").1.GetProfileForDirectory
      absOfClean "/srv/app" = .ok "work" :=
  ⟨by decide, addDirectoryRule_then_resolve sampleStore absOfClean "/srv/app" "work" rfl
    (by decide)⟩

namespace git

/-! ## Switching the global profile -/

/-- The global configuration `SwitchProfile` leaves when every `git config`
command it runs does its work. -/
theorem switchProfile_eq (gm : ConfigManager) (run : GitRun) (global : GoMap String)
    (profile : Profile)
    (hrun : ∀ g rest, run g ("config" :: "--global" :: rest) = none) :
    gm.SwitchProfile run global profile =
      (let g₁ := global.set "user.email" profile.PrimaryEmail
       let g₂ := if profile.GitName ≠ "" then g₁.set "user.name" profile.GitName else g₁
       if profile.GPGKey ≠ "" then
         (g₂.set "user.signingkey" profile.GPGKey).set "commit.gpgsign" "true"
       else (g₂.delete "commit.gpgsign").delete "user.signingkey", none) := by
  unfold ConfigManager.SwitchProfile
  by_cases hn : profile.GitName = "" <;> by_cases hk : profile.GPGKey = "" <;>
    simp [setGlobalConfig, unsetGlobalConfig, hrun, hn, hk]

/-- C21, as amended: when every `git config` command that `SwitchProfile`
runs does its work, on every global configuration `SwitchProfile` succeeds
and leaves `user.email` at the primary email of the profile; for a profile
with an empty signing key neither `user.signingkey` nor `commit.gpgsign` is
set afterwards, also when they were not set before, and for a profile with a
signing key `user.signingkey` is that key and `commit.gpgsign` is `true`. -/
theorem switchProfile_signing (gm : ConfigManager) (run : GitRun) (global : GoMap String)
    (profile : Profile)
    (hrun : ∀ g rest, run g ("config" :: "--global" :: rest) = none) :
    (gm.SwitchProfile run global profile).2 = none ∧
    (gm.SwitchProfile run global profile).1.get "user.email" = some profile.PrimaryEmail ∧
    (profile.GPGKey = "" →
      (gm.SwitchProfile run global profile).1.get "user.signingkey" = none ∧
      (gm.SwitchProfile run global profile).1.get "commit.gpgsign" = none) ∧
    (profile.GPGKey ≠ "" →
      (gm.SwitchProfile run global profile).1.get "user.signingkey" = some profile.GPGKey ∧
      (gm.SwitchProfile run global profile).1.get "commit.gpgsign" = some "true") := by
  rw [switchProfile_eq gm run global profile hrun]
  refine ⟨rfl, ?_, ?_, ?_⟩
  · by_cases hn : profile.GitName = "" <;> by_cases hk : profile.GPGKey = "" <;>
      simp [hn, hk, GoMap.get_set, GoMap.get_delete]
  · intro hk
    simp [hk, GoMap.get_set, GoMap.get_delete]
  · intro hk
    simp [hk, GoMap.get_set, GoMap.get_delete]

/-- C21 at the configuration `sampleGlobal` and at the empty one, with a git
that runs: switching to `plainProfile` clears both signing keys and succeeds
also when they were never set, and switching to `sampleProfile` sets them. -/
theorem switchProfile_signing_witness :
    ((sampleManager.SwitchProfile gitRuns sampleGlobal plainProfile).2 = none ∧
      (sampleManager.SwitchProfile gitRuns sampleGlobal plainProfile).1.get "user.email" =
        some "p@x.com" ∧
      (sampleManager.SwitchProfile gitRuns sampleGlobal plainProfile).1.get
        "user.signingkey" = none ∧
      (sampleManager.SwitchProfile gitRuns sampleGlobal plainProfile).1.get
        "commit.gpgsign" = none) ∧
    sampleManager.SwitchProfile gitRuns [] plainProfile = ([("user.email", "p@x.com")], none) ∧
    (sampleManager.SwitchProfile gitRuns [] sampleProfile).1.get "user.signingkey" =
      some "ABCDEF12" ∧
    (sampleManager.SwitchProfile gitRuns [] sampleProfile).1.get "commit.gpgsign" =
      some "true" :=
  ⟨⟨(switchProfile_signing sampleManager gitRuns sampleGlobal plainProfile
      (fun _ _ => rfl)).1,
    (switchProfile_signing sampleManager gitRuns sampleGlobal plainProfile
      (fun _ _ => rfl)).2.1,
    (switchProfile_signing sampleManager gitRuns sampleGlobal plainProfile
      (fun _ _ => rfl)).2.2.1 rfl⟩,
   by decide,
   (switchProfile_signing sampleManager gitRuns [] sampleProfile
      (fun _ _ => rfl)).2.2.2 (by decide)⟩

/-- C21 as stated fails when git cannot write the configuration: with the
configuration file locked, `SwitchProfile` to `plainProfile`, whose signing key
is empty, returns the error of the first write and leaves `user.email` and
both signing keys as they were. -/
theorem switchProfile_fails_when_git_fails :
    plainProfile.GPGKey = "" ∧
    sampleManager.SwitchProfile gitLocked sampleGlobal plainProfile =
      (sampleGlobal,
        some ("failed to set email: git config failed: exit status 255\n" ++
          "error: could not lock config file /h/.gitconfig: File exists\n")) ∧
    (sampleManager.SwitchProfile gitLocked sampleGlobal plainProfile).2 ≠ none ∧
    (sampleManager.SwitchProfile gitLocked sampleGlobal plainProfile).1.get "user.email" =
      some "a@x.com" ∧
    (sampleManager.SwitchProfile gitLocked sampleGlobal plainProfile).1.get
      "user.signingkey" = some "ABCDEF12" ∧
    (sampleManager.SwitchProfile gitLocked sampleGlobal plainProfile).1.get
      "commit.gpgsign" = some "true" := by
  decide

theorem switchProfile_frame_of_keys (gm : ConfigManager) (run : GitRun)
    (global : GoMap String) (profile : Profile) (key : String)
    (h₁ : key ≠ "user.email") (h₂ : profile.GitName ≠ "" → key ≠ "user.name")
    (h₃ : key ≠ "user.signingkey") (h₄ : key ≠ "commit.gpgsign") :
    (gm.SwitchProfile run global profile).1.get key = global.get key := by
  unfold ConfigManager.SwitchProfile
  rcases he : setGlobalConfig run global "user.email" profile.PrimaryEmail with ⟨g₁, e₁⟩
  have hg₁ : g₁.get key = global.get key := by
    have := setGlobalConfig_frame run global "user.email" profile.PrimaryEmail key h₁
    rw [he] at this
    exact this
  cases e₁ with
  | some err => exact hg₁
  | none =>
    simp only
    by_cases hn : profile.GitName = ""
    · simp only [hn, ne_eq, not_true_eq_false, if_false]
      by_cases hk : profile.GPGKey = ""
      · simp only [hk, ne_eq, not_true_eq_false, if_false]
        rw [unsetGlobalConfig_frame run _ "user.signingkey" key h₃,
          unsetGlobalConfig_frame run _ "commit.gpgsign" key h₄, hg₁]
      · simp only [hk, ne_eq, not_false_eq_true, if_true]
        rcases hs : setGlobalConfig run g₁ "user.signingkey" profile.GPGKey with ⟨g₃, e₃⟩
        have hg₃ : g₃.get key = g₁.get key := by
          have := setGlobalConfig_frame run g₁ "user.signingkey" profile.GPGKey key h₃
          rw [hs] at this
          exact this
        cases e₃ with
        | some err => exact hg₃.trans hg₁
        | none =>
          simp only
          rcases hc : setGlobalConfig run g₃ "commit.gpgsign" "true" with ⟨g₄, e₄⟩
          have hg₄ : g₄.get key = g₃.get key := by
            have := setGlobalConfig_frame run g₃ "commit.gpgsign" "true" key h₄
            rw [hc] at this
            exact this
          cases e₄ <;> exact hg₄.trans (hg₃.trans hg₁)
    · simp only [hn, ne_eq, not_false_eq_true, if_true]
      rcases hm : setGlobalConfig run g₁ "user.name" profile.GitName with ⟨g₂, e₂⟩
      have hg₂ : g₂.get key = g₁.get key := by
        have := setGlobalConfig_frame run g₁ "user.name" profile.GitName key (h₂ hn)
        rw [hm] at this
        exact this
      cases e₂ with
      | some err => exact hg₂.trans hg₁
      | none =>
        simp only
        by_cases hk : profile.GPGKey = ""
        · simp only [hk, ne_eq, not_true_eq_false, if_false]
          rw [unsetGlobalConfig_frame run _ "user.signingkey" key h₃,
            unsetGlobalConfig_frame run _ "commit.gpgsign" key h₄, hg₂, hg₁]
        · simp only [hk, ne_eq, not_false_eq_true, if_true]
          rcases hs : setGlobalConfig run g₂ "user.signingkey" profile.GPGKey with ⟨g₃, e₃⟩
          have hg₃ : g₃.get key = g₂.get key := by
            have := setGlobalConfig_frame run g₂ "user.signingkey" profile.GPGKey key h₃
            rw [hs] at this
            exact this
          cases e₃ with
          | some err => exact hg₃.trans (hg₂.trans hg₁)
          | none =>
            simp only
            rcases hc : setGlobalConfig run g₃ "commit.gpgsign" "true" with ⟨g₄, e₄⟩
            have hg₄ : g₄.get key = g₃.get key := by
              have := setGlobalConfig_frame run g₃ "commit.gpgsign" "true" key h₄
              rw [hc] at this
              exact this
            cases e₄ <;> exact hg₄.trans (hg₃.trans (hg₂.trans hg₁))

/-- C26: for a profile with an empty display name `SwitchProfile` leaves the
key `user.name` as it was, and for every profile it leaves every key other
than `user.email`, `user.name`, `user.signingkey` and `commit.gpgsign` as it
was, whether the `git config` commands it runs do their work or fail. -/
theorem switchProfile_frame (gm : ConfigManager) (run : GitRun) (global : GoMap String)
    (profile : Profile) :
    (profile.GitName = "" →
      (gm.SwitchProfile run global profile).1.get "user.name" = global.get "user.name") ∧
    ∀ key : String, key ≠ "user.email" → key ≠ "user.name" → key ≠ "user.signingkey" →
      key ≠ "commit.gpgsign" →
      (gm.SwitchProfile run global profile).1.get key = global.get key := by
  constructor
  · intro hn
    exact switchProfile_frame_of_keys gm run global profile "user.name" (by decide)
      (fun h => absurd hn h) (by decide) (by decide)
  · intro key h₁ h₂ h₃ h₄
    exact switchProfile_frame_of_keys gm run global profile key h₁ (fun _ => h₂) h₃ h₄

/-- C26 at the configuration `sampleGlobal`: switching to `plainProfile` keeps
the name `Ann` of the profile active before and the key `core.editor`, with a
git that runs and with one that fails. -/
theorem switchProfile_frame_witness :
    (sampleManager.SwitchProfile gitRuns sampleGlobal plainProfile).1.get "user.name" =
      some "Ann" ∧
    (sampleManager.SwitchProfile gitRuns sampleGlobal plainProfile).1.get "core.editor" =
      some "vi" ∧
    (sampleManager.SwitchProfile gitLocked sampleGlobal sampleProfile).1.get "core.editor" =
      some "vi" :=
  ⟨((switchProfile_frame sampleManager gitRuns sampleGlobal plainProfile).1 rfl).trans
      (by decide),
   ((switchProfile_frame sampleManager gitRuns sampleGlobal plainProfile).2 "core.editor"
      (by decide) (by decide) (by decide) (by decide)).trans (by decide),
   ((switchProfile_frame sampleManager gitLocked sampleGlobal sampleProfile).2 "core.editor"
      (by decide) (by decide) (by decide) (by decide)).trans (by decide)⟩

end git

/-! ## SSH configuration: removing a freshly appended entry -/

theorem join_cons_of_ne_nil (a : String) (l : List String) (sep : String) (hl : l ≠ []) :
    Join (a :: l) sep = a ++ sep ++ Join l sep := by
  cases l with
  | nil => exact absurd rfl hl
  | cons b rest => rfl

theorem scanLinesAux_nl_ne_nil (cur a : List Char) : scanLinesAux cur (a ++ ['\n']) ≠ [] := by
  induction a generalizing cur with
  | nil => simp [scanLinesAux]
  | cons c cs ih =>
    by_cases hc : c = '\n'
    · simp [scanLinesAux, hc]
    · simpa [scanLinesAux, hc] using ih (cur ++ [c])

theorem dropCR_of_not_mem (l : List Char) (h : '\r' ∉ l) : dropCR l = l :=
  dropCR_of_last l (fun _ hc hcr => h (hcr ▸ List.mem_of_getLast?_eq_some hc))

/-- Joining the lines of a text that ends with a line feed gives the text
without that line feed, when the text has no carriage return. -/
theorem join_scanLinesAux (cur t : List Char) (hcur : '\r' ∉ cur) (ht : '\r' ∉ t) :
    Join ((scanLinesAux cur (t ++ ['\n'])).map (fun l => String.mk l)) "\n" =
      String.mk (cur ++ t) := by
  induction t generalizing cur with
  | nil => simp [scanLinesAux, Join, dropCR_of_not_mem cur hcur]
  | cons c cs ih =>
    simp only [List.mem_cons, not_or] at ht
    by_cases hc : c = '\n'
    · subst hc
      have hne : (scanLinesAux [] (cs ++ ['\n'])).map (fun l => String.mk l) ≠ [] := by
        simpa using scanLinesAux_nl_ne_nil [] cs
      have hstep : scanLinesAux cur ('\n' :: cs ++ ['\n']) =
          dropCR cur :: scanLinesAux [] (cs ++ ['\n']) := by
        simp [scanLinesAux]
      rw [hstep, List.map_cons, join_cons_of_ne_nil _ _ _ hne, ih [] (by simp) ht.2,
        dropCR_of_not_mem cur hcur]
      apply String.ext
      simp [String.data_append]
    · have hstep : scanLinesAux cur (c :: cs ++ ['\n']) =
          scanLinesAux (cur ++ [c]) (cs ++ ['\n']) := by
        simp [scanLinesAux, hc]
      have hcur' : '\r' ∉ cur ++ [c] := by
        simp only [List.mem_append, List.mem_singleton, not_or]
        exact ⟨hcur, ht.1⟩
      rw [hstep, ih (cur ++ [c]) hcur' ht.2]
      simp

theorem mem_scanLinesAux_nl (cur a : List Char) (l : List Char)
    (h : l ∈ scanLinesAux cur (a ++ ['\n'])) : l ∈ scanLinesAux cur a ∨ l = [] := by
  induction a generalizing cur with
  | nil =>
    by_cases hcur : cur = []
    · subst hcur
      right
      simpa [scanLinesAux, dropCR] using h
    · left
      simpa [scanLinesAux, hcur] using h
  | cons c cs ih =>
    by_cases hc : c = '\n'
    · subst hc
      simp only [List.cons_append, scanLinesAux, if_true, List.mem_cons] at h ⊢
      rcases h with h | h
      · exact Or.inl (Or.inl h)
      · rcases ih [] h with h' | h'
        · exact Or.inl (Or.inr h')
        · exact Or.inr h'
    · simp only [List.cons_append, scanLinesAux, hc, if_false] at h ⊢
      exact ih _ h


theorem scanLinesAux_of_no_nl (cur a : List Char) (h : '\n' ∉ a) :
    scanLinesAux cur a = if cur ++ a = [] then [] else [dropCR (cur ++ a)] := by
  induction a generalizing cur with
  | nil => simp [scanLinesAux]
  | cons c cs ih =>
    simp only [List.mem_cons, not_or] at h
    have hc : ¬ c = '\n' := fun e => h.1 e.symm
    simp [scanLinesAux, hc, ih _ h.2]

namespace ssh

theorem removeStep_marker (profileName hostAlias : String) (st : RemoveState) (line : String)
    (hm : isMarkerLineFor profileName line = true) :
    removeStep profileName hostAlias st line = { st with skipNext := true } := by
  simp only [isMarkerLineFor] at hm
  simp only [removeStep, hm, if_true]

theorem removeStep_host (profileName hostAlias : String) (st : RemoveState) (line : String)
    (hm : isMarkerLineFor profileName line = false)
    (hh : isHostLineFor hostAlias line = true) :
    removeStep profileName hostAlias st line = { st with inTargetEntry := true } := by
  simp only [isMarkerLineFor] at hm
  simp only [isHostLineFor] at hh
  simp only [removeStep, hm, hh, if_true, Bool.false_eq_true, if_false]

theorem removeStep_indented (profileName hostAlias : String) (nl : List String) (sk : Bool)
    (line : String) (hm : isMarkerLineFor profileName line = false)
    (hh : isHostHeader line = false) (hsp : HasPrefix line " " = true) :
    removeStep profileName hostAlias ⟨nl, true, sk⟩ line = ⟨nl, true, sk⟩ := by
  simp only [isMarkerLineFor] at hm
  simp only [isHostHeader] at hh
  simp [removeStep, hm, hh, hsp]

theorem not_hostHeader_of_head (line : String) (c : Char) (t : List Char)
    (h : trimSpaceList line.data = c :: t) (hc : c ≠ 'H') : isHostHeader line = false := by
  simp only [isHostHeader, HasPrefix, TrimSpace, h]
  simp [List.isPrefixOf, Ne.symm hc]

theorem identityLine_indented (key : List Char) :
    HasPrefix (String.mk (dropCR ("    IdentityFile ".data ++ key))) " " = true := by
  have hsplit : "    IdentityFile ".data ++ key =
      [' '] ++ ("   IdentityFile ".data ++ key) := rfl
  rw [hsplit, dropCR_append _ _ (by simp)]
  simp [HasPrefix, List.isPrefixOf]

/-- What `RemoveProfileEntry` keeps of the six lines of an entry that follow
lines foreign to the profile: the entry is dropped whole. -/
theorem keptLines_front_entry (name key : String) (front : List String) (c : Char)
    (hfront : ∀ l ∈ front, isForeign name l = true)
    (hlast : name.data.getLast? = some c) (hc : isSpace c = false) :
    keptLines name (front ++
      [String.mk (dropCR ("# GitHub profile: ".data ++ name.data)),
       String.mk (dropCR ("Host ".data ++ ("github.com-" ++ name).data)),
       String.mk (dropCR "    HostName github.com".data),
       String.mk (dropCR "    User git".data),
       String.mk (dropCR ("    IdentityFile ".data ++ key.data)),
       String.mk (dropCR "    IdentitiesOnly yes".data)]) = front := by
  have hend : ∀ d, name.data.getLast? = some d → isSpace d = false := by
    intro d hd
    rw [hlast] at hd
    rw [← Option.some.inj hd]
    exact hc
  obtain ⟨t₂, h₂⟩ := trim_dropCR_head 'H'
    ("ost ".data ++ ("github.com-" ++ name).data) (by decide)
  obtain ⟨t₅, h₅⟩ := identityLine_head key.data
  have e₁ := removeStep_marker name ("github.com-" ++ name) ⟨[] ++ front, false, false⟩ _
    (marker_isMarkerLineFor name c hlast hc)
  have e₂ := removeStep_host name ("github.com-" ++ name) ⟨[] ++ front, false, true⟩ _
    (not_marker_of_head name
      (String.mk (dropCR ("Host ".data ++ ("github.com-" ++ name).data))) 'H' t₂ h₂ (by decide))
    (hostHeader_isHostLineFor name hend)
  have e₃ := removeStep_indented name ("github.com-" ++ name) ([] ++ front) true
    (String.mk (dropCR "    HostName github.com".data))
    (not_marker_of_head name _ 'H' "ostName github.com".data (by decide) (by decide))
    (by decide) (by decide)
  have e₄ := removeStep_indented name ("github.com-" ++ name) ([] ++ front) true
    (String.mk (dropCR "    User git".data))
    (not_marker_of_head name _ 'U' "ser git".data (by decide) (by decide))
    (by decide) (by decide)
  have e₅ := removeStep_indented name ("github.com-" ++ name) ([] ++ front) true
    (String.mk (dropCR ("    IdentityFile ".data ++ key.data)))
    (not_marker_of_head name _ 'I' t₅ h₅ (by decide))
    (not_hostHeader_of_head _ 'I' t₅ h₅ (by decide)) (identityLine_indented key.data)
  have e₆ := removeStep_indented name ("github.com-" ++ name) ([] ++ front) true
    (String.mk (dropCR "    IdentitiesOnly yes".data))
    (not_marker_of_head name _ 'I' "dentitiesOnly yes".data (by decide) (by decide))
    (by decide) (by decide)
  simp only [keptLines, List.foldl_append, List.foldl_cons, List.foldl_nil]
  rw [foldl_removeStep_foreign name front [] hfront, e₁, e₂, e₃, e₄, e₅, e₆]
  simp

theorem entryExists_of_noBlock (sm : ConfigManager) (fs : FileSystem) (name : String)
    (hnb : NoBlock sm fs name) : sm.entryExists fs ("github.com-" ++ name) = false := by
  unfold ConfigManager.entryExists
  cases hg : fs.get sm.sshConfigPath with
  | none => rfl
  | some text =>
    simp only
    rw [List.any_eq_false]
    intro line hline
    have := hnb text hg line (mem_scanFile text line hline)
    simp only [isForeign, Bool.and_eq_true, Bool.not_eq_true'] at this
    rw [this.2]
    decide

theorem last_of_ne_empty (name : String) (hne : name ≠ "") :
    ∃ c, name.data.getLast? = some c := by
  cases hd : name.data with
  | nil =>
    exfalso
    apply hne
    apply String.ext
    rw [hd]
  | cons x xs => exact ⟨_, List.getLast?_eq_getLast (x :: xs) (by simp)⟩

/-- At an error of the scanner `RemoveProfileEntry` returns it and writes
nothing. -/
theorem removeProfileEntry_of_scan_error (sm : ConfigManager) (fs : FileSystem)
    (profileName text err : String) (hfile : fs.get sm.sshConfigPath = some text)
    (herr : (scanFile text).2 = some err) :
    sm.RemoveProfileEntry fs profileName =
      (fs, some ("failed to read SSH config: " ++ err)) := by
  unfold ConfigManager.RemoveProfileEntry
  simp only [hfile, herr]

/-- On a text whose lines fit `RemoveProfileEntry` writes the kept lines, joined
by line feeds. -/
theorem removeProfileEntry_of_fit (sm : ConfigManager) (fs : FileSystem)
    (profileName text : String) (hfile : fs.get sm.sshConfigPath = some text)
    (hfit : LinesFit text) :
    sm.RemoveProfileEntry fs profileName =
      (fs.set sm.sshConfigPath (Join (keptLines profileName (scanLines text)) "\n"),
        none) := by
  unfold ConfigManager.RemoveProfileEntry
  simp only [hfile, scanFile_of_fit text hfit]

/-- C23, as amended: for a configuration text `C` without carriage returns
that has no comment line containing `GitHub profile: <name>` and no Host line
containing the alias, and a profile whose name is not empty, contains no line
feed and does not end in white space, with a key file path without line feed,
such that `C` followed by the entry has no line of 64 KiB or more:
`EnsureProfileEntry(profile)` followed by `RemoveProfileEntry(name)` succeeds
and leaves every file as it was, so the configuration file holds `C` again. -/
theorem removeProfileEntry_after_ensure (sm : ConfigManager)
    (filepathJoin : List String → String) (fs : FileSystem) (profile : Profile) (C : String)
    (hfile : fs.get sm.sshConfigPath = some C) (hcr : '\r' ∉ C.data)
    (hnb : NoBlock sm fs profile.Name) (hne : profile.Name ≠ "")
    (hnl : '\n' ∉ profile.Name.data)
    (hend : ∀ c, profile.Name.data.getLast? = some c → isSpace c = false)
    (hkey : '\n' ∉ (filepathJoin [sm.homeDir, ".ssh", "id_" ++ profile.Name]).data)
    (hfit : LinesFit (C ++ entryText profile.Name ("github.com-" ++ profile.Name)
      (filepathJoin [sm.homeDir, ".ssh", "id_" ++ profile.Name]))) :
    (sm.EnsureProfileEntry filepathJoin fs profile).2.2 = none ∧
    (sm.RemoveProfileEntry (sm.EnsureProfileEntry filepathJoin fs profile).1
      profile.Name).2 = none ∧
    (sm.RemoveProfileEntry (sm.EnsureProfileEntry filepathJoin fs profile).1
      profile.Name).1.get sm.sshConfigPath = some C ∧
    ∀ path, (sm.RemoveProfileEntry (sm.EnsureProfileEntry filepathJoin fs profile).1
      profile.Name).1.get path = fs.get path := by
  have hnoex := entryExists_of_noBlock sm fs profile.Name hnb
  obtain ⟨c, hlast⟩ := last_of_ne_empty profile.Name hne
  obtain ⟨hens, herr⟩ := ensureProfileEntry_appends sm filepathJoin fs profile C hfile hnoex
  have hfront : ∀ l ∈ (scanLinesAux [] (C.data ++ ['\n'])).map (fun l => String.mk l),
      isForeign profile.Name l = true := by
    intro l hl
    obtain ⟨x, hx, rfl⟩ := List.mem_map.1 hl
    rcases mem_scanLinesAux_nl [] C.data x hx with h | h
    · exact hnb C hfile _ (List.mem_map.2 ⟨x, h, rfl⟩)
    · subst h
      have hM : isMarkerLineFor profile.Name "" = false := by
        have : HasPrefix (TrimSpace "") "#" = false := by decide
        simp [isMarkerLineFor, this]
      have hH : isHostLineFor ("github.com-" ++ profile.Name) "" = false := by
        have : HasPrefix (TrimSpace "") "Host " = false := by decide
        simp [isHostLineFor, this]
      have hmk : String.mk [] = "" := rfl
      simp [isForeign, hmk, hM, hH]
  have hkept : keptLines profile.Name
      (scanLines (C ++ entryText profile.Name ("github.com-" ++ profile.Name)
        (filepathJoin [sm.homeDir, ".ssh", "id_" ++ profile.Name]))) =
      (scanLinesAux [] (C.data ++ ['\n'])).map (fun l => String.mk l) := by
    rw [scanLines_after_append C profile.Name _ hnl hkey]
    exact keptLines_front_entry profile.Name _ _ c hfront hlast (hend c hlast)
  have hjoin : Join ((scanLinesAux [] (C.data ++ ['\n'])).map (fun l => String.mk l)) "\n" =
      C := by
    rw [join_scanLinesAux [] C.data (by simp) hcr]
    rfl
  have hrem : sm.RemoveProfileEntry (sm.EnsureProfileEntry filepathJoin fs profile).1
      profile.Name =
      (GoMap.set (GoMap.set fs sm.sshConfigPath
        (C ++ entryText profile.Name ("github.com-" ++ profile.Name)
          (filepathJoin [sm.homeDir, ".ssh", "id_" ++ profile.Name]))) sm.sshConfigPath C,
        none) := by
    rw [hens, removeProfileEntry_of_fit sm _ profile.Name _
      ((GoMap.get_set _ _ _ _).trans (if_pos rfl)) hfit, hkept, hjoin]
  rw [hrem]
  refine ⟨herr, rfl, ?_, ?_⟩
  · simp only [GoMap.get_set, if_true]
  · intro path
    by_cases hp : path = sm.sshConfigPath
    · simp only [GoMap.get_set, hp, if_true, hfile]
    · simp only [GoMap.get_set, hp, if_false]

/-- C23 at the configuration of one foreign host and the profile `work`. -/
theorem removeProfileEntry_after_ensure_witness :
    (sampleManager.RemoveProfileEntry
      (sampleManager.EnsureProfileEntry joinOfClean
        [("/h/.ssh/config", "Host example.com\n    User git\n")]
        ⟨"work", ["a@x.com"], "a@x.com", "", "", ""⟩).1 "work").1.get "/h/.ssh/config" =
      some "Host example.com\n    User git\n" :=
  (removeProfileEntry_after_ensure sampleManager joinOfClean
    [("/h/.ssh/config", "Host example.com\n    User git\n")]
    ⟨"work", ["a@x.com"], "a@x.com", "", "", ""⟩ "Host example.com\n    User git\n"
    (by decide) (by decide)
    (by
      intro text ht
      have : text = "Host example.com\n    User git\n" := by
        simp only [sampleManager, GoMap.get, if_true, Option.some.injEq] at ht
        exact ht.symm
      subst this
      decide)
    (by decide) (by decide)
    (fun c hc => by
      have hk : c = 'k' := by
        have : some 'k' = some c := hc
        exact (Option.some.inj this).symm
      rw [hk]
      decide)
    (by decide) (by decide)).2.2.1

theorem foreign_of_head_a (name : String) (l : List Char) (hnl : '\n' ∉ l) :
    ∀ line ∈ (scanLinesAux [] ('a' :: l)).map (fun x => String.mk x),
      isMarkerLineFor name line = false ∧ isHostLineFor (GetHostAlias name) line = false := by
  intro line hline
  obtain ⟨x, hx, rfl⟩ := List.mem_map.1 hline
  have hnl' : '\n' ∉ 'a' :: l := by
    simp only [List.mem_cons, not_or]
    exact ⟨by decide, hnl⟩
  rw [scanLinesAux_of_no_nl [] ('a' :: l) hnl'] at hx
  simp only [List.nil_append, reduceCtorEq, if_false, List.mem_singleton] at hx
  obtain ⟨t, ht⟩ := trim_dropCR_head 'a' l (by decide)
  rw [hx]
  exact ⟨not_marker_of_head name _ 'a' t ht (by decide),
    not_host_of_head (GetHostAlias name) _ 'a' t ht (by decide)⟩

/-- The text `longLine` has no carriage return, and its one line is neither a
marker comment nor a Host line. -/
theorem longLine_noBlock (name : String) :
    '\r' ∉ longLine.data ∧
    ∀ line ∈ scanLines longLine,
      isMarkerLineFor name line = false ∧ isHostLineFor (GetHostAlias name) line = false := by
  refine ⟨by simp [longLine, List.mem_replicate], ?_⟩
  have hnl := longLine_no_nl
  rw [longLine_data] at hnl
  simp only [List.mem_cons, not_or] at hnl
  have := foreign_of_head_a name _ hnl.2
  unfold scanLines
  rw [longLine_data]
  exact this

/-- On the configuration `longLine`, `EnsureProfileEntry` for `work` appends the
entry, and `RemoveProfileEntry` then stops at the error of the scanner and
writes nothing. -/
theorem removeProfileEntry_after_ensure_longLine :
    (sampleManager.RemoveProfileEntry
      (sampleManager.EnsureProfileEntry joinOfClean [("/h/.ssh/config", longLine)]
        ⟨"work", ["a@x.com"], "a@x.com", "", "", ""⟩).1 "work").2 =
      some "failed to read SSH config: bufio.Scanner: token too long" ∧
    (sampleManager.RemoveProfileEntry
      (sampleManager.EnsureProfileEntry joinOfClean [("/h/.ssh/config", longLine)]
        ⟨"work", ["a@x.com"], "a@x.com", "", "", ""⟩).1 "work").1.get "/h/.ssh/config" =
      some (longLine ++ entryText "work" "github.com-work" "/h/.ssh/id_work") ∧
    longLine ++ entryText "work" "github.com-work" "/h/.ssh/id_work" ≠ longLine := by
  have hfile : GoMap.get [("/h/.ssh/config", longLine)] sampleManager.sshConfigPath =
      some longLine := by
    simp [GoMap.get, sampleManager]
  have hnoex : sampleManager.entryExists [("/h/.ssh/config", longLine)]
      ("github.com-" ++ "work") = false := by
    simp [ConfigManager.entryExists, hfile, scanFile_longLine]
  obtain ⟨hens, _⟩ := ensureProfileEntry_appends sampleManager joinOfClean
    [("/h/.ssh/config", longLine)] ⟨"work", ["a@x.com"], "a@x.com", "", "", ""⟩ longLine
    hfile hnoex
  have hkeyfile : joinOfClean [sampleManager.homeDir, ".ssh", "id_" ++ "work"] =
      "/h/.ssh/id_work" := by decide
  have halias : "github.com-" ++ "work" = "github.com-work" := by decide
  simp only [hkeyfile, halias] at hens
  have hrem : sampleManager.RemoveProfileEntry
      (sampleManager.EnsureProfileEntry joinOfClean [("/h/.ssh/config", longLine)]
        ⟨"work", ["a@x.com"], "a@x.com", "", "", ""⟩).1 "work" =
      (GoMap.set [("/h/.ssh/config", longLine)] sampleManager.sshConfigPath
        (longLine ++ entryText "work" "github.com-work" "/h/.ssh/id_work"),
        some ("failed to read SSH config: " ++ ErrTooLong)) := by
    rw [hens]
    exact removeProfileEntry_of_scan_error sampleManager _ "work" _ ErrTooLong
      ((GoMap.get_set _ _ _ _).trans (if_pos rfl))
      (by rw [scanFile_longLine_entry])
  rw [hrem]
  refine ⟨by decide, (GoMap.get_set _ _ _ _).trans (if_pos rfl), ?_⟩
  intro h
  obtain ⟨rest, hrest⟩ := entryText_head "work" "github.com-work" "/h/.ssh/id_work"
  have hd := congrArg String.data h
  rw [String.data_append, hrest] at hd
  have := congrArg List.length hd
  simp at this

set_option maxRecDepth 2000 in
/-- C23 as stated fails for a profile name that ends in a space and for the
empty name, where `RemoveProfileEntry` does not recognise the marker comment
that `EnsureProfileEntry` wrote, and for a text with a line of 64 KiB, where
`RemoveProfileEntry` returns the error of the scanner: the file does not hold
its initial text again. -/
theorem removeProfileEntry_after_ensure_leaves_entry :
    ('\r' ∉ "Host example.com\n    User git\n".data ∧ '\n' ∉ "w ".data ∧
      (∀ line ∈ scanLines "Host example.com\n    User git\n",
        isMarkerLineFor "w " line = false ∧
        isHostLineFor (GetHostAlias "w ") line = false) ∧
      (sampleManager.RemoveProfileEntry
        (sampleManager.EnsureProfileEntry joinOfClean
          [("/h/.ssh/config", "Host example.com\n    User git\n")]
          ⟨"w ", ["a@x.com"], "a@x.com", "", "", ""⟩).1 "w ").1.get "/h/.ssh/config" =
        some ("Host example.com\n    User git\n\n# GitHub profile: w \nHost github.com-w \n" ++
          "    HostName github.com\n    User git\n    IdentityFile /h/.ssh/id_w \n" ++
          "    IdentitiesOnly yes") ∧
      (sampleManager.RemoveProfileEntry
        (sampleManager.EnsureProfileEntry joinOfClean
          [("/h/.ssh/config", "Host example.com\n    User git\n")]
          ⟨"w ", ["a@x.com"], "a@x.com", "", "", ""⟩).1 "w ").1.get "/h/.ssh/config" ≠
        some "Host example.com\n    User git\n") ∧
    (scanLines "" = [] ∧
      (sampleManager.RemoveProfileEntry
        (sampleManager.EnsureProfileEntry joinOfClean [("/h/.ssh/config", "")]
          ⟨"", ["a@x.com"], "a@x.com", "", "", ""⟩).1 "").1.get "/h/.ssh/config" =
        some "\n# GitHub profile: " ∧
      (sampleManager.RemoveProfileEntry
        (sampleManager.EnsureProfileEntry joinOfClean [("/h/.ssh/config", "")]
          ⟨"", ["a@x.com"], "a@x.com", "", "", ""⟩).1 "").1.get "/h/.ssh/config" ≠
        some "") ∧
    (('\r' ∉ longLine.data ∧ '\n' ∉ "work".data ∧
      ∀ line ∈ scanLines longLine,
        isMarkerLineFor "work" line = false ∧
        isHostLineFor (GetHostAlias "work") line = false) ∧
      (sampleManager.RemoveProfileEntry
        (sampleManager.EnsureProfileEntry joinOfClean [("/h/.ssh/config", longLine)]
          ⟨"work", ["a@x.com"], "a@x.com", "", "", ""⟩).1 "work").2 =
        some "failed to read SSH config: bufio.Scanner: token too long" ∧
      (sampleManager.RemoveProfileEntry
        (sampleManager.EnsureProfileEntry joinOfClean [("/h/.ssh/config", longLine)]
          ⟨"work", ["a@x.com"], "a@x.com", "", "", ""⟩).1 "work").1.get "/h/.ssh/config" ≠
        some longLine) :=
  ⟨by decide, by decide,
    ⟨(longLine_noBlock "work").1, by decide, (longLine_noBlock "work").2⟩,
    removeProfileEntry_after_ensure_longLine.1,
    fun h => removeProfileEntry_after_ensure_longLine.2.2
      (Option.some.inj (removeProfileEntry_after_ensure_longLine.2.1.symm.trans h))⟩

end ssh

/-! ## SSH configuration: a removal that leaves the entry -/

namespace ssh

set_option maxRecDepth 2000 in
/-- C24: for the profile name `w ` (with a final space), on the configuration
that `EnsureProfileEntry` wrote for it, `RemoveProfileEntry` succeeds and keeps
every line. The comment line `# GitHub profile: w `, which contains the marker
`GitHub profile: w `, is still a line of the text, and so are the Host header
and the directives of the entry. -/
theorem removeProfileEntry_keeps_marker_comment :
    (sampleManager.EnsureProfileEntry joinOfClean []
        ⟨"w ", ["a@x.com"], "a@x.com", "", "", ""⟩).1 =
      [("/h/.ssh/config",
        "\n# GitHub profile: w \nHost github.com-w \n    HostName github.com\n" ++
        "    User git\n    IdentityFile /h/.ssh/id_w \n    IdentitiesOnly yes\n")] ∧
    sampleManager.RemoveProfileEntry
        [("/h/.ssh/config",
          "\n# GitHub profile: w \nHost github.com-w \n    HostName github.com\n" ++
          "    User git\n    IdentityFile /h/.ssh/id_w \n    IdentitiesOnly yes\n")] "w " =
      ([("/h/.ssh/config",
          "\n# GitHub profile: w \nHost github.com-w \n    HostName github.com\n" ++
          "    User git\n    IdentityFile /h/.ssh/id_w \n    IdentitiesOnly yes")], none) ∧
    scanLines ("\n# GitHub profile: w \nHost github.com-w \n    HostName github.com\n" ++
        "    User git\n    IdentityFile /h/.ssh/id_w \n    IdentitiesOnly yes") =
      ["", "# GitHub profile: w ", "Host github.com-w ", "    HostName github.com",
        "    User git", "    IdentityFile /h/.ssh/id_w ", "    IdentitiesOnly yes"] ∧
    HasPrefix (TrimSpace "# GitHub profile: w ") "#" = true ∧
    Contains "# GitHub profile: w " ("GitHub profile: " ++ "w ") = true := by
  decide

end ssh

end GhSwitch
